import Mathlib

/-!
# gossm: a simple state machine

A shallow embedding of `ssm.go` and `error.go`, and theorems about the
dispatch operation `Event`, the query operation `Can`, the override
`SetCurrent` and the six functional options that build a machine.

## Modelling conventions

* `State` and `Event` are `interface{}` in the source. A state is
  `State σ = Option σ`: `none` is the nil interface (the zero value that
  `new(StateMachine)` leaves in `current`), `some s` a value of a comparable
  dynamic type. Events are values of a type `ε`; the code never produces a
  zero event. Both carry decidable equality: values whose dynamic type cannot
  be a map key (slices, maps, functions) and floating-point NaN keys are
  outside the embedding.
* A Go map is a `GoMap`: either the nil map or an allocated map, given by its
  lookup function. Reading a nil map finds nothing; writing to one panics.
* A callback is a Go function value: nil, or a function of the current state
  and the argument list. Callbacks are arbitrary host code, so they act on an
  explicit host world `ω` and may return a different answer on every call.
  A callback does not call back into the machine it is registered on.
* The parameter `args ...interface{}` is one Go slice, and every call
  expression `cb(sm.Current(), args...)` hands that slice itself to the
  callback. A `callbackFn` reads the slice and does not assign to its
  elements: in `Event` and `Can` every callback is handed the list that the
  call was given. Callbacks that assign to elements of the slice are treated
  in `EventSlice` and `CanSlice`, which carry the elements of the slice from
  one callback to the next. `Event` and `Can` are `EventSlice` and `CanSlice`
  on callbacks that leave the slice as they found it (`EventSlice_unwriting`,
  `CanSlice_unwriting`), and `EventSlice` and `CanSlice` are `Event` and `Can`
  with the slice made part of the host world (`EventSlice_threaded`,
  `CanSlice_threaded`): what is proved of `Event` and `Can` for every host
  world, the arguments handed apart, holds of callbacks that write the slice.
* Code that may panic returns a `Result`.
* `Event` and `Can` return an `Outcome`: the machine after the call, the host
  world after the call, the list of callback invocations made (oldest first)
  and what the call returned. Every invocation is recorded at the call
  expression of the source, with the state argument it was given, which in the
  source is always `sm.Current()` at that moment.
-/

namespace ssm

/-! ## Go runtime -/

/-- What a piece of Go code does: it returns a value, or it panics. -/
inductive Result (α : Type) where
  | returned (a : α)
  | panicked
  deriving DecidableEq

/-- Sequencing of code that may panic. -/
def Result.bind {α β : Type} (r : Result α) (f : α → Result β) : Result β :=
  match r with
  | .returned a => f a
  | .panicked => .panicked

instance : Monad Result where
  pure := Result.returned
  bind := Result.bind

/-- A Go map from `κ` to `ν`: `cells = none` is the nil map, `cells = some f`
an allocated map whose entry for `k` is `f k`. -/
structure GoMap (κ ν : Type) where
  cells : Option (κ → Option ν)

/-- The nil map, zero value of every map type. -/
def GoMap.nil {κ ν : Type} : GoMap κ ν := ⟨none⟩

/-- The Go expression `make(map[κ]ν)`: an allocated map with no entry. -/
def GoMap.make {κ ν : Type} : GoMap κ ν := ⟨some (fun _ => none)⟩

/-- The Go test `m == nil`. -/
def GoMap.isNil {κ ν : Type} (m : GoMap κ ν) : Bool := m.cells.isNone

/-- The Go read `v, ok := m[k]`: `none` stands for `ok == false`. A nil map has
no entry. -/
def GoMap.lookup {κ ν : Type} (m : GoMap κ ν) (k : κ) : Option ν :=
  match m.cells with
  | none => none
  | some f => f k

/-- The Go assignment `m[k] = v`: it panics on the nil map. -/
def GoMap.store {κ ν : Type} [DecidableEq κ] (m : GoMap κ ν) (k : κ) (v : ν) :
    Result (GoMap κ ν) :=
  match m.cells with
  | none => .panicked
  | some f => .returned ⟨some (fun k' => if k' = k then some v else f k')⟩

/-- The Go read `m[k]` of a map of maps: the zero value, the nil map, when `k`
has no entry. -/
def GoMap.index {κ κ' ν : Type} (m : GoMap κ (GoMap κ' ν)) (k : κ) : GoMap κ' ν :=
  match m.lookup k with
  | none => GoMap.nil
  | some inner => inner

/-! ## Types of `ssm.go` and `error.go` -/

/-- The type `State interface{}`: `none` is the nil interface. -/
abbrev State (σ : Type) := Option σ

/-- The type `States []State`. -/
abbrev States (σ : Type) := List (State σ)

/-- The struct `node`: a key of the transition table. Its second field is
called `from` in the source. -/
structure node (ε σ : Type) where
  event : ε
  from_ : State σ
  deriving DecidableEq

/-- The type `transitions map[node]State`. -/
abbrev transitions (ε σ : Type) := GoMap (node ε σ) (State σ)

/-- The struct `eventDesc`. -/
structure eventDesc (ε σ : Type) where
  Event : ε
  From : States σ
  To : State σ

/-- The type `Events []eventDesc`. -/
abbrev Events (ε σ : Type) := List (eventDesc ε σ)

/-- The struct `loopDesc`. -/
structure loopDesc (ε σ : Type) where
  Event : ε
  Stay : States σ

/-- The type `LoopEvents []loopDesc`. -/
abbrev LoopEvents (ε σ : Type) := List (loopDesc ε σ)

/-- A Go `error` value that is not nil: the `*InvalidTransitionError` of
`error.go`, or any other error value `x` of the host. -/
inductive error (ε σ χ : Type) where
  | InvalidTransitionError (Event : ε) (From : State σ)
  | other (x : χ)
  deriving DecidableEq

/-- The type `callbackFn func(current State, args ...interface{}) error`:
`none` is the nil function value; a function returns `none` for the nil
error. -/
abbrev callbackFn (ε σ α χ ω : Type) :=
  Option (State σ → List α → ω → Option (error ε σ χ) × ω)

/-- The type `eventCallbacks map[int]map[Event]callbackFn`. -/
abbrev eventCallbacks (ε σ α χ ω : Type) := GoMap Int (GoMap ε (callbackFn ε σ α χ ω))

/-- The type `stateCallbacks map[int]map[State]callbackFn`. -/
abbrev stateCallbacks (ε σ α χ ω : Type) :=
  GoMap Int (GoMap (State σ) (callbackFn ε σ α χ ω))

/-- The struct `eventCallbackDesc`. Its first field is called `Type` in the
source. -/
structure eventCallbackDesc (ε σ α χ ω : Type) where
  Type_ : Int
  Event : ε
  Callback : callbackFn ε σ α χ ω

/-- The struct `stateCallbackDesc`. Its first field is called `Type` in the
source. -/
structure stateCallbackDesc (ε σ α χ ω : Type) where
  Type_ : Int
  State : State σ
  Callback : callbackFn ε σ α χ ω

/-- The type `EventCallbacks []eventCallbackDesc`. -/
abbrev EventCallbacks (ε σ α χ ω : Type) := List (eventCallbackDesc ε σ α χ ω)

/-- The type `StateCallbacks []stateCallbackDesc`. -/
abbrev StateCallbacks (ε σ α χ ω : Type) := List (stateCallbackDesc ε σ α χ ω)

/-- The type `AfterCallback callbackFn`. -/
abbrev AfterCallback (ε σ α χ ω : Type) := callbackFn ε σ α χ ω

/-- The struct `StateMachine`. -/
structure StateMachine (ε σ α χ ω : Type) where
  current : State σ
  transitions : transitions ε σ
  cbEvent : eventCallbacks ε σ α χ ω
  cbState : stateCallbacks ε σ α χ ω
  cbAfter : AfterCallback ε σ α χ ω

/-- The constant `Before = iota + 1`. -/
def Before : Int := 1

/-- The constant `After`. -/
def After : Int := 2

/-- The constant `Enter`. -/
def Enter : Int := 3

/-- The constant `Leave`. -/
def Leave : Int := 4

/-! ## Construction -/

/-- A functional option `func(*StateMachine)`: it updates the machine, or
panics. -/
abbrev optionFn (ε σ α χ ω : Type) := StateMachine ε σ α χ ω → Result (StateMachine ε σ α χ ω)

/-- The Go expression `new(StateMachine)`: every field has its zero value. -/
def zeroStateMachine {ε σ α χ ω : Type} : StateMachine ε σ α χ ω :=
  { current := none, transitions := GoMap.nil, cbEvent := GoMap.nil, cbState := GoMap.nil,
    cbAfter := none }

/-- The function `New`: the options are applied, in order, to a zero machine. -/
def New {ε σ α χ ω : Type} (options : List (optionFn ε σ α χ ω)) :
    Result (StateMachine ε σ α χ ω) :=
  options.foldlM (fun sm option => option sm) zeroStateMachine

/-- The function `WithInitial`. -/
def WithInitial {ε σ α χ ω : Type} (state : State σ) : optionFn ε σ α χ ω :=
  fun m => .returned { m with current := state }

/-- The inner loop of `WithEvents`: `for _, from := range e.From`. -/
def WithEvents.inner {ε σ : Type} [DecidableEq ε] [DecidableEq σ]
    (t : transitions ε σ) (e : eventDesc ε σ) : Result (transitions ε σ) :=
  e.From.foldlM (fun t from_ => t.store ⟨e.Event, from_⟩ e.To) t

/-- The function `WithEvents`. -/
def WithEvents {ε σ α χ ω : Type} [DecidableEq ε] [DecidableEq σ]
    (events : Events ε σ) : optionFn ε σ α χ ω :=
  fun m =>
    let t0 := if m.transitions.isNil then GoMap.make else m.transitions
    match events.foldlM WithEvents.inner t0 with
    | .returned t => .returned { m with transitions := t }
    | .panicked => .panicked

/-- The inner loop of `WithLoops`: `for _, stay := range e.Stay`. -/
def WithLoops.inner {ε σ : Type} [DecidableEq ε] [DecidableEq σ]
    (t : transitions ε σ) (e : loopDesc ε σ) : Result (transitions ε σ) :=
  e.Stay.foldlM (fun t stay => t.store ⟨e.Event, stay⟩ stay) t

/-- The function `WithLoops`. -/
def WithLoops {ε σ α χ ω : Type} [DecidableEq ε] [DecidableEq σ]
    (loops : LoopEvents ε σ) : optionFn ε σ α χ ω :=
  fun m =>
    let t0 := if m.transitions.isNil then GoMap.make else m.transitions
    match loops.foldlM WithLoops.inner t0 with
    | .returned t => .returned { m with transitions := t }
    | .panicked => .panicked

/-- The loop body of `WithEventCallbacks`. The inner map is a reference: the
write to it shows through the outer map, which the last line expresses. -/
def WithEventCallbacks.body {ε σ α χ ω : Type} [DecidableEq ε]
    (cbEvent : eventCallbacks ε σ α χ ω) (cb : eventCallbackDesc ε σ α χ ω) :
    Result (eventCallbacks ε σ α χ ω) :=
  (if (cbEvent.index cb.Type_).isNil then cbEvent.store cb.Type_ GoMap.make
   else .returned cbEvent).bind fun cbEvent1 =>
  ((cbEvent1.index cb.Type_).store cb.Event cb.Callback).bind fun inner =>
  cbEvent1.store cb.Type_ inner

/-- The function `WithEventCallbacks`. -/
def WithEventCallbacks {ε σ α χ ω : Type} [DecidableEq ε]
    (callbacks : EventCallbacks ε σ α χ ω) : optionFn ε σ α χ ω :=
  fun m =>
    let c0 := if m.cbEvent.isNil then GoMap.make else m.cbEvent
    match callbacks.foldlM WithEventCallbacks.body c0 with
    | .returned c => .returned { m with cbEvent := c }
    | .panicked => .panicked

/-- The loop body of `WithStateCallbacks`. The inner map is a reference: the
write to it shows through the outer map, which the last line expresses. -/
def WithStateCallbacks.body {ε σ α χ ω : Type} [DecidableEq σ]
    (cbState : stateCallbacks ε σ α χ ω) (cb : stateCallbackDesc ε σ α χ ω) :
    Result (stateCallbacks ε σ α χ ω) :=
  (if (cbState.index cb.Type_).isNil then cbState.store cb.Type_ GoMap.make
   else .returned cbState).bind fun cbState1 =>
  ((cbState1.index cb.Type_).store cb.State cb.Callback).bind fun inner =>
  cbState1.store cb.Type_ inner

/-- The function `WithStateCallbacks`. -/
def WithStateCallbacks {ε σ α χ ω : Type} [DecidableEq σ]
    (callbacks : StateCallbacks ε σ α χ ω) : optionFn ε σ α χ ω :=
  fun m =>
    let c0 := if m.cbState.isNil then GoMap.make else m.cbState
    match callbacks.foldlM WithStateCallbacks.body c0 with
    | .returned c => .returned { m with cbState := c }
    | .panicked => .panicked

/-- The function `WithAfterCallback`. -/
def WithAfterCallback {ε σ α χ ω : Type} (callback : AfterCallback ε σ α χ ω) :
    optionFn ε σ α χ ω :=
  fun m => .returned { m with cbAfter := callback }

/-- The method `SetCurrent`. -/
def StateMachine.SetCurrent {ε σ α χ ω : Type} (sm : StateMachine ε σ α χ ω)
    (state : State σ) : StateMachine ε σ α χ ω :=
  { sm with current := state }

/-- The method `Current`. -/
def StateMachine.Current {ε σ α χ ω : Type} (sm : StateMachine ε σ α χ ω) : State σ :=
  sm.current

/-! ## Dispatch and query -/

/-- The five places where `Event` calls a callback: the `Before` and `After`
registries of an event, the `Enter` and `Leave` registries of a state, and the
global after callback `cbAfter`. -/
inductive Hook (ε σ : Type) where
  | before (e : ε)
  | enter (s : State σ)
  | leave (s : State σ)
  | after (e : ε)
  | cbAfter
  deriving DecidableEq

/-- One callback invocation: the hook it was fetched from, the state and the
arguments it was given, and what it did (`panicked` for a call of the nil
function value). -/
structure Call (ε σ α χ : Type) where
  hook : Hook ε σ
  current : State σ
  args : List α
  ret : Result (Option (error ε σ χ))
  deriving DecidableEq

/-- The host world and the invocations made so far, threaded through a call
of `Event` or `Can`. -/
structure Run (ε σ α χ ω : Type) where
  world : ω
  calls : List (Call ε σ α χ)

/-- What `Event` or `Can` did: the machine and the host world after the call,
the invocations it made, oldest first, and what it returned. -/
structure Outcome (ε σ α χ ω ρ : Type) where
  sm : StateMachine ε σ α χ ω
  world : ω
  calls : List (Call ε σ α χ)
  result : Result ρ

/-- The call expression `cb(sm.Current(), args...)`: calling the nil function
value panics. -/
def callbackFn.call {ε σ α χ ω : Type} (cb : callbackFn ε σ α χ ω) (h : Hook ε σ)
    (current : State σ) (args : List α) (r : Run ε σ α χ ω) :
    Run ε σ α χ ω × Result (Option (error ε σ χ)) :=
  match cb with
  | none => (⟨r.world, r.calls ++ [⟨h, current, args, .panicked⟩]⟩, .panicked)
  | some f =>
    match f current args r.world with
    | (err, w) => (⟨w, r.calls ++ [⟨h, current, args, .returned err⟩]⟩, .returned err)

/-- The block
`if cb, ok := slot; ok { if err := cb(sm.Current(), args...); err != nil { return err } }`
that `Event` and `Can` repeat. The second component is `none` when control
falls through the block, `some (returned err)` when the block returns the
non-nil `err`, and `some panicked` when the call panics. -/
def hookBlock {ε σ α χ ω : Type} (slot : Option (callbackFn ε σ α χ ω)) (h : Hook ε σ)
    (current : State σ) (args : List α) (r : Run ε σ α χ ω) :
    Run ε σ α χ ω × Option (Result (error ε σ χ)) :=
  match slot with
  | none => (r, none)
  | some cb =>
    match cb.call h current args r with
    | (r1, .returned none) => (r1, none)
    | (r1, .returned (some err)) => (r1, some (.returned err))
    | (r1, .panicked) => (r1, some .panicked)

/-- The method `Event` (pointer receiver: the assignment `sm.current = dst`
is seen by the caller). -/
def StateMachine.Event {ε σ α χ ω : Type} [DecidableEq ε] [DecidableEq σ]
    (sm : StateMachine ε σ α χ ω) (e : ε) (args : List α) (w : ω) :
    Outcome ε σ α χ ω (Option (error ε σ χ)) :=
  match sm.transitions.lookup ⟨e, sm.Current⟩ with
  | none => ⟨sm, w, [], .returned (some (.InvalidTransitionError e sm.Current))⟩
  | some dst =>
    match hookBlock ((sm.cbEvent.index Before).lookup e) (.before e) sm.Current args ⟨w, []⟩ with
    | (r1, some stop) => ⟨sm, r1.world, r1.calls, stop.bind fun err => .returned (some err)⟩
    | (r1, none) =>
    match hookBlock ((sm.cbState.index Enter).lookup dst) (.enter dst) sm.Current args r1 with
    | (r2, some stop) => ⟨sm, r2.world, r2.calls, stop.bind fun err => .returned (some err)⟩
    | (r2, none) =>
    match hookBlock ((sm.cbState.index Leave).lookup sm.Current) (.leave sm.Current)
        sm.Current args r2 with
    | (r3, some stop) => ⟨sm, r3.world, r3.calls, stop.bind fun err => .returned (some err)⟩
    | (r3, none) =>
    if dst = sm.Current then ⟨sm, r3.world, r3.calls, .returned none⟩
    else
      let sm1 : StateMachine ε σ α χ ω := { sm with current := dst }
      match hookBlock ((sm1.cbEvent.index After).lookup e) (.after e) sm1.Current args r3 with
      | (r4, some stop) => ⟨sm1, r4.world, r4.calls, stop.bind fun err => .returned (some err)⟩
      | (r4, none) =>
      match sm1.cbAfter with
      | none => ⟨sm1, r4.world, r4.calls, .returned none⟩
      | some f =>
        match callbackFn.call (some f) .cbAfter sm1.Current args r4 with
        | (r5, ret) => ⟨sm1, r5.world, r5.calls, ret⟩

/-- The method `Can` (value receiver: it works on a copy of the struct, whose
maps are shared with the caller and never written). -/
def StateMachine.Can {ε σ α χ ω : Type} [DecidableEq ε] [DecidableEq σ]
    (sm : StateMachine ε σ α χ ω) (e : ε) (args : List α) (w : ω) :
    Outcome ε σ α χ ω (Bool × Option (error ε σ χ)) :=
  match sm.transitions.lookup ⟨e, sm.Current⟩ with
  | none => ⟨sm, w, [], .returned (false, some (.InvalidTransitionError e sm.Current))⟩
  | some dst =>
    match hookBlock ((sm.cbEvent.index Before).lookup e) (.before e) sm.Current args ⟨w, []⟩ with
    | (r1, some stop) => ⟨sm, r1.world, r1.calls, stop.bind fun err => .returned (false, some err)⟩
    | (r1, none) =>
    match hookBlock ((sm.cbState.index Enter).lookup dst) (.enter dst) sm.Current args r1 with
    | (r2, some stop) => ⟨sm, r2.world, r2.calls, stop.bind fun err => .returned (false, some err)⟩
    | (r2, none) =>
    match hookBlock ((sm.cbState.index Leave).lookup sm.Current) (.leave sm.Current)
        sm.Current args r2 with
    | (r3, some stop) => ⟨sm, r3.world, r3.calls, stop.bind fun err => .returned (false, some err)⟩
    | (r3, none) => ⟨sm, r3.world, r3.calls, .returned (true, none)⟩

/-! ## Registered hooks -/

/-- The registry slot that `Event` reads for a hook: `none` when the hook is
skipped, `some cb` when `cb` is called. For the global after callback the
source tests `sm.cbAfter != nil`, so a nil `cbAfter` is an empty slot. -/
def StateMachine.slot {ε σ α χ ω : Type} (sm : StateMachine ε σ α χ ω) :
    Hook ε σ → Option (callbackFn ε σ α χ ω)
  | .before e => (sm.cbEvent.index Before).lookup e
  | .enter s => (sm.cbState.index Enter).lookup s
  | .leave s => (sm.cbState.index Leave).lookup s
  | .after e => (sm.cbEvent.index After).lookup e
  | .cbAfter =>
    match sm.cbAfter with
    | none => none
    | some f => some (some f)

/-- A hook is registered when its slot is not empty. -/
def StateMachine.registered {ε σ α χ ω : Type} (sm : StateMachine ε σ α χ ω)
    (h : Hook ε σ) : Bool :=
  (sm.slot h).isSome

/-- A hook that is due in a call: the slot to read and the state to pass. -/
structure Due (ε σ α χ ω : Type) where
  hook : Hook ε σ
  slot : Option (callbackFn ε σ α χ ω)
  current : State σ

/-- A run of hook blocks one after the other, up to the first that stops. -/
def runHooks {ε σ α χ ω : Type} (args : List α) :
    List (Due ε σ α χ ω) → Run ε σ α χ ω → Run ε σ α χ ω × Option (Result (error ε σ χ))
  | [], r => (r, none)
  | d :: rest, r =>
    match hookBlock d.slot d.hook d.current args r with
    | (r1, some stop) => (r1, some stop)
    | (r1, none) => runHooks args rest r1

/-- The hooks due before the state changes: `Before`, `Enter`, `Leave`, each
given the current state. -/
def StateMachine.preHooks {ε σ α χ ω : Type} (sm : StateMachine ε σ α χ ω) (e : ε)
    (dst : State σ) : List (Due ε σ α χ ω) :=
  [⟨.before e, sm.slot (.before e), sm.Current⟩,
   ⟨.enter dst, sm.slot (.enter dst), sm.Current⟩,
   ⟨.leave sm.Current, sm.slot (.leave sm.Current), sm.Current⟩]

/-- The hooks due after the state has changed: `After` and the global after
callback, each given the new state. -/
def StateMachine.postHooks {ε σ α χ ω : Type} (sm : StateMachine ε σ α χ ω) (e : ε)
    (dst : State σ) : List (Due ε σ α χ ω) :=
  [⟨.after e, sm.slot (.after e), dst⟩, ⟨.cbAfter, sm.slot .cbAfter, dst⟩]

/-- The record of a registered hook whose call returned the nil error; no
record when the hook is not registered. -/
def StateMachine.passed {ε σ α χ ω : Type} (sm : StateMachine ε σ α χ ω) (h : Hook ε σ)
    (current : State σ) (args : List α) : List (Call ε σ α χ) :=
  if sm.registered h then [⟨h, current, args, .returned none⟩] else []

/-- A call that stops `Event` or `Can`: it returned a non-nil error, which is
handed on, or it panicked. -/
def Stops {ε σ χ : Type} (ret : Result (Option (error ε σ χ))) (stop : Result (error ε σ χ)) :
    Prop :=
  (∃ err, ret = .returned (some err) ∧ stop = .returned err) ∨
    (ret = .panicked ∧ stop = .panicked)

/-- The calls of the three hooks that precede the change of state, when each
registered one returns the nil error. -/
def StateMachine.prePassed {ε σ α χ ω : Type} (sm : StateMachine ε σ α χ ω) (e : ε)
    (dst : State σ) (args : List α) : List (Call ε σ α χ) :=
  sm.passed (.before e) sm.Current args ++ sm.passed (.enter dst) sm.Current args ++
    sm.passed (.leave sm.Current) sm.Current args

/-- The calls of a run of the three hooks that precede the change of state
stopped by a call that returned `ret`. -/
def StateMachine.preStopped {ε σ α χ ω : Type} (sm : StateMachine ε σ α χ ω) (e : ε)
    (dst : State σ) (args : List α) (ret : Result (Option (error ε σ χ)))
    (calls : List (Call ε σ α χ)) : Prop :=
  (sm.registered (.before e) = true ∧ calls = [⟨.before e, sm.Current, args, ret⟩]) ∨
  (sm.registered (.enter dst) = true ∧
    calls = sm.passed (.before e) sm.Current args ++ [⟨.enter dst, sm.Current, args, ret⟩]) ∨
  (sm.registered (.leave sm.Current) = true ∧
    calls = sm.passed (.before e) sm.Current args ++ sm.passed (.enter dst) sm.Current args ++
      [⟨.leave sm.Current, sm.Current, args, ret⟩])

/-! ## Building the transition table -/

/-- An option that writes the transition table: `WithEvents(events)` or
`WithLoops(loops)`. -/
inductive TableOption (ε σ : Type) where
  | withEvents (events : Events ε σ)
  | withLoops (loops : LoopEvents ε σ)

/-- The functional option that a table option stands for. -/
def TableOption.option {ε σ α χ ω : Type} [DecidableEq ε] [DecidableEq σ] :
    TableOption ε σ → optionFn ε σ α χ ω
  | .withEvents events => WithEvents events
  | .withLoops loops => WithLoops loops

/-- A descriptor of either kind: an `eventDesc` or a `loopDesc`. -/
inductive Descriptor (ε σ : Type) where
  | event (d : eventDesc ε σ)
  | loop (d : loopDesc ε σ)

/-- The descriptors of a table option, in the order of the slice. -/
def TableOption.descriptors {ε σ : Type} : TableOption ε σ → List (Descriptor ε σ)
  | .withEvents events => events.map .event
  | .withLoops loops => loops.map .loop

/-- The descriptors of a list of table options, in application order. -/
def descriptorsOf {ε σ : Type} : List (TableOption ε σ) → List (Descriptor ε σ)
  | [] => []
  | o :: os => o.descriptors ++ descriptorsOf os

/-- A descriptor writes the key `k` when it has the event of `k` and lists the
state of `k`: among its `From` states for an event descriptor, among its
`Stay` states for a loop descriptor. -/
def Descriptor.writes {ε σ : Type} [DecidableEq ε] [DecidableEq σ] (d : Descriptor ε σ)
    (k : node ε σ) : Bool :=
  match d with
  | .event d => decide (d.Event = k.event ∧ k.from_ ∈ d.From)
  | .loop d => decide (d.Event = k.event ∧ k.from_ ∈ d.Stay)

/-- The destination that a descriptor gives to the key `k`: `To` for an event
descriptor, the stay state itself for a loop descriptor. -/
def Descriptor.dest {ε σ : Type} (d : Descriptor ε σ) (k : node ε σ) : State σ :=
  match d with
  | .event d => d.To
  | .loop _ => k.from_

/-- The entry of the key `k` after the descriptors `ds` have been applied, in
order, to a table whose entry for `k` was `entry`: each descriptor that writes
`k` replaces the entry. -/
def overwritten {ε σ : Type} [DecidableEq ε] [DecidableEq σ] (ds : List (Descriptor ε σ))
    (k : node ε σ) (entry : Option (State σ)) : Option (State σ) :=
  ds.foldl (fun acc d => if d.writes k then some (d.dest k) else acc) entry

/-! ## The machine of `ssm_test.go` -/

namespace test

/-- The type `state` of `ssm_test.go`, with its three constants. -/
inductive state where
  | StateA
  | StateB
  | StateC
  deriving DecidableEq

/-- The type `event` of `ssm_test.go`, with its three constants. -/
inductive event where
  | EventAtoB
  | EventBtoC
  | EventLoop
  deriving DecidableEq

/-- The struct `Info` of `ssm_test.go`. -/
structure Info where
  Message : String
  deriving DecidableEq

/-- The host world of the tests: the lines printed so far, each a label and
the state printed after it. -/
abbrev Stdout := List (String × State state)

/-- A callback of `Reset`: it prints a label and the current state, and
returns the nil error. -/
def printing (label : String) : callbackFn event state Info String Stdout :=
  some fun current _ out => (none, out ++ [(label, current)])

/-- A callback that returns the error `msg`, as in scenario B of the
specification. -/
def failing (msg : String) : callbackFn event state Info String Stdout :=
  some fun _ _ out => (some (.other msg), out)

/-- The machine that a construction returns, the zero machine when it
panics. -/
def built (r : Result (StateMachine event state Info String Stdout)) :
    StateMachine event state Info String Stdout :=
  match r with
  | .returned sm => sm
  | .panicked => zeroStateMachine

/-- The function `Reset` of `ssm_test.go`. -/
def Reset : Result (StateMachine event state Info String Stdout) :=
  New [
    WithInitial (some .StateA),
    WithEvents [
      ⟨.EventAtoB, [some .StateA], some .StateB⟩,
      ⟨.EventBtoC, [some .StateB], some .StateC⟩],
    WithLoops [⟨.EventLoop, [some .StateA, some .StateB]⟩],
    WithEventCallbacks [
      ⟨Before, .EventAtoB, printing "before_a-b"⟩,
      ⟨After, .EventAtoB, printing "after_a-b"⟩],
    WithStateCallbacks [
      ⟨Enter, some .StateB, printing "enter_b"⟩,
      ⟨Leave, some .StateB, printing "leave_b"⟩],
    WithAfterCallback (printing "")]

/-- Scenario B of the specification: the machine of `Reset` with a `Before`
callback for `EventAtoB` that returns an error. -/
def scenarioB : Result (StateMachine event state Info String Stdout) :=
  Reset.bind (WithEventCallbacks [⟨Before, .EventAtoB, failing "refused"⟩])

/-- The machine of `Reset` with an `After` callback for `EventAtoB` that
returns an error. -/
def afterFails : Result (StateMachine event state Info String Stdout) :=
  Reset.bind (WithEventCallbacks [⟨After, .EventAtoB, failing "too late"⟩])

/-- The options of `Reset` that write the transition table. -/
def tableOptions : List (TableOption event state) :=
  [.withEvents [
      ⟨.EventAtoB, [some .StateA], some .StateB⟩,
      ⟨.EventBtoC, [some .StateB], some .StateC⟩],
   .withLoops [⟨.EventLoop, [some .StateA, some .StateB]⟩]]

/-- The table options of `Reset` followed by an event descriptor that writes
again the key of `EventLoop` in `StateA`. -/
def rewritten : List (TableOption event state) :=
  tableOptions ++ [.withEvents [⟨.EventLoop, [some .StateA], some .StateC⟩]]

end test

/-! ## Calls and sequences of calls -/

/-- The hooks called before the state changes: `Before`, `Enter`, `Leave`. -/
def Hook.pre {ε σ : Type} : Hook ε σ → Bool
  | .before _ => true
  | .enter _ => true
  | .leave _ => true
  | .after _ => false
  | .cbAfter => false

/-- A recorded call answers a slot when its result is what the callback in the
slot does on the recorded state and arguments: the panic of the nil function
value, or what the function returns in the host world of that moment. -/
def Answers {ε σ α χ ω : Type} (slot : Option (callbackFn ε σ α χ ω)) (c : Call ε σ α χ) :
    Prop :=
  (slot = some none ∧ c.ret = .panicked) ∨
    ∃ f w, slot = some (some f) ∧ c.ret = .returned (f c.current c.args w).1

/-- A callback is a function of its arguments when it is not nil and the error
it returns does not depend on the host world. -/
def FunctionOfArguments {ε σ α χ ω : Type} (cb : callbackFn ε σ α χ ω) : Prop :=
  ∃ f, cb = some f ∧ ∀ s args w1 w2, (f s args w1).1 = (f s args w2).1

/-- A call made by the host on a machine: `Event(e, args...)` or
`Can(e, args...)`. -/
inductive Op (ε α : Type) where
  | Event (e : ε) (args : List α)
  | Can (e : ε) (args : List α)

/-- The machine and the host world after one call of `Event` or `Can`; what
the call returned is dropped. -/
def StateMachine.step {ε σ α χ ω : Type} [DecidableEq ε] [DecidableEq σ]
    (st : StateMachine ε σ α χ ω × ω) (op : Op ε α) : StateMachine ε σ α χ ω × ω :=
  match op with
  | .Event e args => ((st.1.Event e args st.2).sm, (st.1.Event e args st.2).world)
  | .Can e args => ((st.1.Can e args st.2).sm, (st.1.Can e args st.2).world)

/-- The machine and the host world after a sequence of calls of `Event` and
`Can`, made one after the other. -/
def StateMachine.run {ε σ α χ ω : Type} [DecidableEq ε] [DecidableEq σ]
    (sm : StateMachine ε σ α χ ω) (w : ω) (ops : List (Op ε α)) : StateMachine ε σ α χ ω × ω :=
  ops.foldl StateMachine.step (sm, w)

/-! ## The six options -/

/-- An option of the package, by the function that makes it and its
argument. -/
inductive Config (ε σ α χ ω : Type) where
  | initial (state : State σ)
  | events (events : Events ε σ)
  | loops (loops : LoopEvents ε σ)
  | eventCallbacks (callbacks : EventCallbacks ε σ α χ ω)
  | stateCallbacks (callbacks : StateCallbacks ε σ α χ ω)
  | afterCallback (callback : AfterCallback ε σ α χ ω)

/-- The functional option that a `Config` stands for: the result of
`WithInitial`, `WithEvents`, `WithLoops`, `WithEventCallbacks`,
`WithStateCallbacks` or `WithAfterCallback`. -/
def Config.option {ε σ α χ ω : Type} [DecidableEq ε] [DecidableEq σ] :
    Config ε σ α χ ω → optionFn ε σ α χ ω
  | .initial s => WithInitial s
  | .events es => WithEvents es
  | .loops ls => WithLoops ls
  | .eventCallbacks cbs => WithEventCallbacks cbs
  | .stateCallbacks cbs => WithStateCallbacks cbs
  | .afterCallback cb => WithAfterCallback cb

/-- A place that an option can write: the initial state, the entry of a key
of the transition table, the callback of a kind and an event in `cbEvent`,
the callback of a kind and a state in `cbState`, or the global after
callback. -/
inductive Slot (ε σ : Type) where
  | initial
  | transition (k : node ε σ)
  | eventCallback (kind : Int) (e : ε)
  | stateCallback (kind : Int) (s : State σ)
  | afterCallback

/-- The slots that an option writes. -/
def Config.writes {ε σ α χ ω : Type} [DecidableEq ε] [DecidableEq σ] :
    Config ε σ α χ ω → Slot ε σ → Bool
  | .initial _, .initial => true
  | .events es, .transition k =>
    es.any fun d => decide (d.Event = k.event ∧ k.from_ ∈ d.From)
  | .loops ls, .transition k =>
    ls.any fun d => decide (d.Event = k.event ∧ k.from_ ∈ d.Stay)
  | .eventCallbacks cbs, .eventCallback kind e =>
    cbs.any fun d => decide (d.Type_ = kind ∧ d.Event = e)
  | .stateCallbacks cbs, .stateCallback kind s =>
    cbs.any fun d => decide (d.Type_ = kind ∧ d.State = s)
  | .afterCallback _, .afterCallback => true
  | _, _ => false

/-- Two options are disjoint when no slot is written by both. -/
def Config.Disjoint {ε σ α χ ω : Type} [DecidableEq ε] [DecidableEq σ]
    (c1 c2 : Config ε σ α χ ω) : Prop :=
  ∀ s : Slot ε σ, ¬ (c1.writes s = true ∧ c2.writes s = true)

/-- The states given to the `WithInitial` options of a list, in order. -/
def initialsOf {ε σ α χ ω : Type} : List (Config ε σ α χ ω) → List (State σ)
  | [] => []
  | .initial state :: cs => state :: initialsOf cs
  | _ :: cs => initialsOf cs

/-- The descriptors given to the `WithEventCallbacks` options of a list, in
application order. -/
def eventCallbacksOf {ε σ α χ ω : Type} :
    List (Config ε σ α χ ω) → List (eventCallbackDesc ε σ α χ ω)
  | [] => []
  | .eventCallbacks callbacks :: cs => callbacks ++ eventCallbacksOf cs
  | _ :: cs => eventCallbacksOf cs

/-- The descriptors given to the `WithStateCallbacks` options of a list, in
application order. -/
def stateCallbacksOf {ε σ α χ ω : Type} :
    List (Config ε σ α χ ω) → List (stateCallbackDesc ε σ α χ ω)
  | [] => []
  | .stateCallbacks callbacks :: cs => callbacks ++ stateCallbacksOf cs
  | _ :: cs => stateCallbacksOf cs

/-- The callbacks given to the `WithAfterCallback` options of a list, in
order. -/
def afterCallbacksOf {ε σ α χ ω : Type} :
    List (Config ε σ α χ ω) → List (AfterCallback ε σ α χ ω)
  | [] => []
  | .afterCallback callback :: cs => callback :: afterCallbacksOf cs
  | _ :: cs => afterCallbacksOf cs

/-- The descriptors given to the `WithEvents` and `WithLoops` options of a
list, in application order. -/
def tableDescriptorsOf {ε σ α χ ω : Type} : List (Config ε σ α χ ω) → List (Descriptor ε σ)
  | [] => []
  | .events events :: cs => events.map .event ++ tableDescriptorsOf cs
  | .loops loops :: cs => loops.map .loop ++ tableDescriptorsOf cs
  | _ :: cs => tableDescriptorsOf cs

/-! ## Registries in closed form -/

/-- A registration in a registry of callbacks: the kind, the key and the
callback of a descriptor. -/
abbrev Registration (κ ν : Type) := Int × κ × ν

/-- The registration that an `eventCallbackDesc` asks for. -/
def registrationOfEvent {ε σ α χ ω : Type} (d : eventCallbackDesc ε σ α χ ω) :
    Registration ε (callbackFn ε σ α χ ω) :=
  (d.Type_, d.Event, d.Callback)

/-- The registration that a `stateCallbackDesc` asks for. -/
def registrationOfState {ε σ α χ ω : Type} (d : stateCallbackDesc ε σ α χ ω) :
    Registration (State σ) (callbackFn ε σ α χ ω) :=
  (d.Type_, d.State, d.Callback)

/-- The callback under a kind and a key after the registrations `ds`, made in
order on a registry that held `entry` there: each registration with that kind
and key replaces what is held. -/
def registeredAfter {κ ν : Type} [DecidableEq κ] (ds : List (Registration κ ν)) (kind : Int)
    (key : κ) (entry : Option ν) : Option ν :=
  ds.foldl (fun acc d => if d.1 = kind ∧ d.2.1 = key then some d.2.2 else acc) entry

/-- A kind is touched by the registrations `ds` when one of them has it. -/
def touches {κ ν : Type} (ds : List (Registration κ ν)) (kind : Int) : Bool :=
  ds.any fun d => decide (d.1 = kind)

/-- The registry after the registrations `ds`, made in order: an allocated
map, with an allocated inner map for each touched kind, in which each key
holds what `registeredAfter` says; the inner map of an untouched kind is the
one there was. -/
def registryAfter {κ ν : Type} [DecidableEq κ] (ds : List (Registration κ ν))
    (reg : GoMap Int (GoMap κ ν)) : GoMap Int (GoMap κ ν) :=
  ⟨some fun kind =>
    if touches ds kind then
      some ⟨some fun key => registeredAfter ds kind key ((reg.index kind).lookup key)⟩
    else reg.lookup kind⟩

/-- The table after the descriptors `ds`, applied in order: an allocated map
in which each key holds what `overwritten` says. -/
def tableAfter {ε σ : Type} [DecidableEq ε] [DecidableEq σ] (ds : List (Descriptor ε σ))
    (t : transitions ε σ) : transitions ε σ :=
  ⟨some fun k => overwritten ds k (t.lookup k)⟩

/-- The machine that an option leaves, in closed form. -/
def Config.apply {ε σ α χ ω : Type} [DecidableEq ε] [DecidableEq σ]
    (m : StateMachine ε σ α χ ω) : Config ε σ α χ ω → StateMachine ε σ α χ ω
  | .initial s => { m with current := s }
  | .events es => { m with transitions := tableAfter (es.map .event) m.transitions }
  | .loops ls => { m with transitions := tableAfter (ls.map .loop) m.transitions }
  | .eventCallbacks cbs =>
    { m with cbEvent := registryAfter (cbs.map registrationOfEvent) m.cbEvent }
  | .stateCallbacks cbs =>
    { m with cbState := registryAfter (cbs.map registrationOfState) m.cbState }
  | .afterCallback cb => { m with cbAfter := cb }

/-! ## Machines that behave alike -/

/-- Two machines are alike when they have the same current state, the same
entry for every key of the transition table, and the same callback in every
slot that `Event` and `Can` read. -/
def Alike {ε σ α χ ω : Type} (sm sm' : StateMachine ε σ α χ ω) : Prop :=
  sm.Current = sm'.Current ∧
  (∀ k, sm.transitions.lookup k = sm'.transitions.lookup k) ∧
  ∀ h, sm.slot h = sm'.slot h

/-- Two machines behave alike on a sequence of calls followed by a call of
`Event` and a call of `Can`: started in the same host world, the sequence
leaves the same host world and the same current state, and the call that
follows returns the same, makes the same calls of callbacks and leaves the
same host world and the same current state. -/
def BehaveAlike {ε σ α χ ω : Type} [DecidableEq ε] [DecidableEq σ]
    (sm sm' : StateMachine ε σ α χ ω) (w : ω) (ops : List (Op ε α)) (e : ε)
    (args : List α) : Prop :=
  (sm.run w ops).2 = (sm'.run w ops).2 ∧
  (sm.run w ops).1.Current = (sm'.run w ops).1.Current ∧
  ((sm.run w ops).1.Event e args (sm.run w ops).2).result =
    ((sm'.run w ops).1.Event e args (sm'.run w ops).2).result ∧
  ((sm.run w ops).1.Event e args (sm.run w ops).2).calls =
    ((sm'.run w ops).1.Event e args (sm'.run w ops).2).calls ∧
  ((sm.run w ops).1.Event e args (sm.run w ops).2).world =
    ((sm'.run w ops).1.Event e args (sm'.run w ops).2).world ∧
  ((sm.run w ops).1.Event e args (sm.run w ops).2).sm.Current =
    ((sm'.run w ops).1.Event e args (sm'.run w ops).2).sm.Current ∧
  ((sm.run w ops).1.Can e args (sm.run w ops).2).result =
    ((sm'.run w ops).1.Can e args (sm'.run w ops).2).result ∧
  ((sm.run w ops).1.Can e args (sm.run w ops).2).calls =
    ((sm'.run w ops).1.Can e args (sm'.run w ops).2).calls ∧
  ((sm.run w ops).1.Can e args (sm.run w ops).2).world =
    ((sm'.run w ops).1.Can e args (sm'.run w ops).2).world

/-! ## More machines on the states and events of `ssm_test.go` -/

namespace test

/-- A machine with one transition, `a-b` from `StateA` to `StateB`, and a
descriptor for `Before(a-b)` whose callback is the nil function value. -/
def nilBefore : Result (StateMachine event state Info String Stdout) :=
  New [
    WithInitial (some .StateA),
    WithEvents [⟨.EventAtoB, [some .StateA], some .StateB⟩],
    WithEventCallbacks [⟨Before, .EventAtoB, none⟩]]

/-- The same machine with the nil function value given to `WithAfterCallback`
instead. -/
def nilAfter : Result (StateMachine event state Info String Stdout) :=
  New [
    WithInitial (some .StateA),
    WithEvents [⟨.EventAtoB, [some .StateA], some .StateB⟩],
    WithAfterCallback none]

/-- The options of `Reset`. -/
def resetOptions : List (Config event state Info String Stdout) :=
  [.initial (some .StateA),
   .events [
      ⟨.EventAtoB, [some .StateA], some .StateB⟩,
      ⟨.EventBtoC, [some .StateB], some .StateC⟩],
   .loops [⟨.EventLoop, [some .StateA, some .StateB]⟩],
   .eventCallbacks [
      ⟨Before, .EventAtoB, printing "before_a-b"⟩,
      ⟨After, .EventAtoB, printing "after_a-b"⟩],
   .stateCallbacks [
      ⟨Enter, some .StateB, printing "enter_b"⟩,
      ⟨Leave, some .StateB, printing "leave_b"⟩],
   .afterCallback (printing "")]

/-- Three options that write different slots: two of them write the
transition table, at different keys. -/
def disjointOptions : List (Config event state Info String Stdout) :=
  [.events [⟨.EventAtoB, [some .StateA], some .StateB⟩],
   .loops [⟨.EventLoop, [some .StateA, some .StateB]⟩],
   .initial (some .StateA)]

/-- Options on a machine whose events are states, `StateB` being used both as
an event and as a state: a callback registered for the event under the kind
`Enter` and one registered for the state under the kind `Before`. -/
def crossedOptions : List (Config (State state) state Info String (List String)) :=
  [.eventCallbacks [⟨Enter, some .StateB, some fun _ _ out => (none, out ++ ["event"])⟩],
   .stateCallbacks [⟨Before, some .StateB, some fun _ _ out => (none, out ++ ["state"])⟩]]

/-- A descriptor given to `WithEventCallbacks` with the kind `Enter`, whose
callback returns an error. -/
def misfiled : eventCallbackDesc event state Info String Stdout :=
  ⟨Enter, .EventAtoB, failing "never called"⟩

end test

/-! ## Callbacks applied one after the other -/

/-- The host world left by the callbacks of a list of due hooks, applied one
after the other, each to the state due to its hook, the arguments `args` and
the world left by the one before it, the first in the world `w`. An empty slot
and the nil function value leave the world as it is. -/
def worldThrough {ε σ α χ ω : Type} (args : List α) : List (Due ε σ α χ ω) → ω → ω
  | [], w => w
  | d :: rest, w =>
    match d.slot with
    | some (some f) => worldThrough args rest (f d.current args w).2
    | _ => worldThrough args rest w

/-- The callbacks of a list of due hooks all succeed: no slot holds the nil
function value, and each callback returns the nil error when it is applied to
the state due to its hook, the arguments `args` and the world left by the
callbacks before it, the first in the world `w`. -/
def passes {ε σ α χ ω : Type} (args : List α) : List (Due ε σ α χ ω) → ω → Bool
  | [], _ => true
  | d :: rest, w =>
    match d.slot with
    | none => passes args rest w
    | some none => false
    | some (some f) => (f d.current args w).1.isNone && passes args rest (f d.current args w).2

/-! ## Callbacks that write the argument slice

The parameter `args ...interface{}` of `Event` and `Can` is one Go slice, and
each call expression `cb(sm.Current(), args...)` hands that slice itself to the
callback, not a copy of it. A callback that assigns to an element of the slice
therefore changes what the callbacks called after it are handed. Such callbacks
are the callbacks of a machine on the host world `List α × ω`: the first
component is the slice, with the elements it holds when the callback is called
and those it holds when the callback returns. -/

/-- One invocation of a callback that may write the argument slice: beside the
hook, the state given and what the call did, the elements of the slice when the
call was made, `args`, and when it returned, `left`. -/
structure SliceCall (ε σ α χ : Type) where
  hook : Hook ε σ
  current : State σ
  args : List α
  left : List α
  ret : Result (Option (error ε σ χ))
  deriving DecidableEq

/-- The host world, the elements of the argument slice and the invocations
made so far, threaded through a call of `Event` or `Can`. -/
structure SliceRun (ε σ α χ ω : Type) where
  world : ω
  args : List α
  calls : List (SliceCall ε σ α χ)

/-- What `Event` or `Can` did, with callbacks that may write the argument
slice: the machine, the host world and the elements of the slice after the
call, the invocations it made, oldest first, and what it returned. -/
structure SliceOutcome (ε σ α χ ω ρ : Type) where
  sm : StateMachine ε σ α χ (List α × ω)
  world : ω
  args : List α
  calls : List (SliceCall ε σ α χ)
  result : Result ρ

/-- The call expression `cb(sm.Current(), args...)` for a callback that may
write the slice: the callback is handed the elements that the slice holds at
that moment, and the slice holds afterwards the elements that the callback
leaves. Calling the nil function value panics and writes nothing. -/
def callbackFn.callSlice {ε σ α χ ω : Type} (cb : callbackFn ε σ α χ (List α × ω))
    (h : Hook ε σ) (current : State σ) (r : SliceRun ε σ α χ ω) :
    SliceRun ε σ α χ ω × Result (Option (error ε σ χ)) :=
  match cb with
  | none => (⟨r.world, r.args, r.calls ++ [⟨h, current, r.args, r.args, .panicked⟩]⟩, .panicked)
  | some f =>
    match f current r.args (r.args, r.world) with
    | (err, left, w) =>
      (⟨w, left, r.calls ++ [⟨h, current, r.args, left, .returned err⟩]⟩, .returned err)

/-- The block
`if cb, ok := slot; ok { if err := cb(sm.Current(), args...); err != nil { return err } }`
for callbacks that may write the slice. -/
def hookBlockSlice {ε σ α χ ω : Type} (slot : Option (callbackFn ε σ α χ (List α × ω)))
    (h : Hook ε σ) (current : State σ) (r : SliceRun ε σ α χ ω) :
    SliceRun ε σ α χ ω × Option (Result (error ε σ χ)) :=
  match slot with
  | none => (r, none)
  | some cb =>
    match cb.callSlice h current r with
    | (r1, .returned none) => (r1, none)
    | (r1, .returned (some err)) => (r1, some (.returned err))
    | (r1, .panicked) => (r1, some .panicked)

/-- The method `Event` with callbacks that may write the argument slice: the
same statements as in `StateMachine.Event`, every call expression being handed
the slice as the calls before it left it. -/
def StateMachine.EventSlice {ε σ α χ ω : Type} [DecidableEq ε] [DecidableEq σ]
    (sm : StateMachine ε σ α χ (List α × ω)) (e : ε) (args : List α) (w : ω) :
    SliceOutcome ε σ α χ ω (Option (error ε σ χ)) :=
  match sm.transitions.lookup ⟨e, sm.Current⟩ with
  | none => ⟨sm, w, args, [], .returned (some (.InvalidTransitionError e sm.Current))⟩
  | some dst =>
    match hookBlockSlice ((sm.cbEvent.index Before).lookup e) (.before e) sm.Current
        ⟨w, args, []⟩ with
    | (r1, some stop) =>
      ⟨sm, r1.world, r1.args, r1.calls, stop.bind fun err => .returned (some err)⟩
    | (r1, none) =>
    match hookBlockSlice ((sm.cbState.index Enter).lookup dst) (.enter dst) sm.Current r1 with
    | (r2, some stop) =>
      ⟨sm, r2.world, r2.args, r2.calls, stop.bind fun err => .returned (some err)⟩
    | (r2, none) =>
    match hookBlockSlice ((sm.cbState.index Leave).lookup sm.Current) (.leave sm.Current)
        sm.Current r2 with
    | (r3, some stop) =>
      ⟨sm, r3.world, r3.args, r3.calls, stop.bind fun err => .returned (some err)⟩
    | (r3, none) =>
    if dst = sm.Current then ⟨sm, r3.world, r3.args, r3.calls, .returned none⟩
    else
      let sm1 : StateMachine ε σ α χ (List α × ω) := { sm with current := dst }
      match hookBlockSlice ((sm1.cbEvent.index After).lookup e) (.after e) sm1.Current r3 with
      | (r4, some stop) =>
        ⟨sm1, r4.world, r4.args, r4.calls, stop.bind fun err => .returned (some err)⟩
      | (r4, none) =>
      match sm1.cbAfter with
      | none => ⟨sm1, r4.world, r4.args, r4.calls, .returned none⟩
      | some f =>
        match callbackFn.callSlice (some f) .cbAfter sm1.Current r4 with
        | (r5, ret) => ⟨sm1, r5.world, r5.args, r5.calls, ret⟩

/-- The method `Can` with callbacks that may write the argument slice. -/
def StateMachine.CanSlice {ε σ α χ ω : Type} [DecidableEq ε] [DecidableEq σ]
    (sm : StateMachine ε σ α χ (List α × ω)) (e : ε) (args : List α) (w : ω) :
    SliceOutcome ε σ α χ ω (Bool × Option (error ε σ χ)) :=
  match sm.transitions.lookup ⟨e, sm.Current⟩ with
  | none => ⟨sm, w, args, [], .returned (false, some (.InvalidTransitionError e sm.Current))⟩
  | some dst =>
    match hookBlockSlice ((sm.cbEvent.index Before).lookup e) (.before e) sm.Current
        ⟨w, args, []⟩ with
    | (r1, some stop) =>
      ⟨sm, r1.world, r1.args, r1.calls, stop.bind fun err => .returned (false, some err)⟩
    | (r1, none) =>
    match hookBlockSlice ((sm.cbState.index Enter).lookup dst) (.enter dst) sm.Current r1 with
    | (r2, some stop) =>
      ⟨sm, r2.world, r2.args, r2.calls, stop.bind fun err => .returned (false, some err)⟩
    | (r2, none) =>
    match hookBlockSlice ((sm.cbState.index Leave).lookup sm.Current) (.leave sm.Current)
        sm.Current r2 with
    | (r3, some stop) =>
      ⟨sm, r3.world, r3.args, r3.calls, stop.bind fun err => .returned (false, some err)⟩
    | (r3, none) => ⟨sm, r3.world, r3.args, r3.calls, .returned (true, none)⟩

/-- A run of hook blocks one after the other, up to the first that stops, for
callbacks that may write the slice. -/
def runHooksSlice {ε σ α χ ω : Type} :
    List (Due ε σ α χ (List α × ω)) → SliceRun ε σ α χ ω →
      SliceRun ε σ α χ ω × Option (Result (error ε σ χ))
  | [], r => (r, none)
  | d :: rest, r =>
    match hookBlockSlice d.slot d.hook d.current r with
    | (r1, some stop) => (r1, some stop)
    | (r1, none) => runHooksSlice rest r1

/-- A recorded call answers a slot when its result and the elements it leaves
in the slice are what the callback in the slot does on the recorded state and
elements: the panic of the nil function value, which writes nothing, or what
the function returns in the host world of that moment. -/
def AnswersSlice {ε σ α χ ω : Type} (slot : Option (callbackFn ε σ α χ (List α × ω)))
    (c : SliceCall ε σ α χ) : Prop :=
  (slot = some none ∧ c.ret = .panicked ∧ c.left = c.args) ∨
    ∃ f w, slot = some (some f) ∧ c.ret = .returned (f c.current c.args (c.args, w)).1 ∧
      c.left = (f c.current c.args (c.args, w)).2.1

/-- A list of calls is linked from the elements `args` when the first call is
handed `args` and every other call is handed the elements that the call before
it left. -/
def Linked {ε σ α χ : Type} : List α → List (SliceCall ε σ α χ) → Prop
  | _, [] => True
  | args, c :: rest => c.args = args ∧ Linked c.left rest

/-- The elements that a list of calls leaves in a slice that held `args`:
those left by the last call. -/
def leftAfter {ε σ α χ : Type} : List α → List (SliceCall ε σ α χ) → List α
  | args, [] => args
  | _, c :: rest => leftAfter c.left rest

/-- The record of a call without the elements that it left. -/
def SliceCall.call {ε σ α χ : Type} (c : SliceCall ε σ α χ) : Call ε σ α χ :=
  ⟨c.hook, c.current, c.args, c.ret⟩

/-- A map with a function applied to each of its values; the nil map stays
nil. -/
def GoMap.map {κ ν μ : Type} (g : ν → μ) (m : GoMap κ ν) : GoMap κ μ :=
  ⟨m.cells.map fun f k => (f k).map g⟩

/-- A callback that reads the argument slice and does not write it, as a
callback that may write it: it leaves the elements that it was handed. -/
def callbackFn.unwriting {ε σ α χ ω : Type} (cb : callbackFn ε σ α χ ω) :
    callbackFn ε σ α χ (List α × ω) :=
  cb.map fun f current args sw => ((f current args sw.2).1, (args, (f current args sw.2).2))

/-- A due hook whose callback does not write the argument slice, as a due hook
whose callback may write it. -/
def Due.unwriting {ε σ α χ ω : Type} (d : Due ε σ α χ ω) : Due ε σ α χ (List α × ω) :=
  ⟨d.hook, d.slot.map callbackFn.unwriting, d.current⟩

/-- A machine whose callbacks do not write the argument slice, as a machine
whose callbacks may write it. -/
def StateMachine.unwriting {ε σ α χ ω : Type} (sm : StateMachine ε σ α χ ω) :
    StateMachine ε σ α χ (List α × ω) :=
  { current := sm.current
    transitions := sm.transitions
    cbEvent := sm.cbEvent.map (GoMap.map callbackFn.unwriting)
    cbState := sm.cbState.map (GoMap.map callbackFn.unwriting)
    cbAfter := callbackFn.unwriting sm.cbAfter }

/-- A callback that may write the argument slice, as a callback on the host
world `List α × ω` alone: it takes the elements of the slice from the world it
is called in, whatever list it is handed. -/
def callbackFn.threaded {ε σ α χ ω : Type} (cb : callbackFn ε σ α χ (List α × ω)) :
    callbackFn ε σ α χ (List α × ω) :=
  cb.map fun f current _ sw => f current sw.1 sw

/-- A due hook whose callback takes the elements of the slice from the world
it is called in. -/
def Due.threaded {ε σ α χ ω : Type} (d : Due ε σ α χ (List α × ω)) :
    Due ε σ α χ (List α × ω) :=
  ⟨d.hook, d.slot.map callbackFn.threaded, d.current⟩

/-- A machine whose callbacks take the elements of the slice from the world
they are called in. -/
def StateMachine.threaded {ε σ α χ ω : Type} (sm : StateMachine ε σ α χ (List α × ω)) :
    StateMachine ε σ α χ (List α × ω) :=
  { current := sm.current
    transitions := sm.transitions
    cbEvent := sm.cbEvent.map (GoMap.map callbackFn.threaded)
    cbState := sm.cbState.map (GoMap.map callbackFn.threaded)
    cbAfter := callbackFn.threaded sm.cbAfter }

/-! ## Machines with five hooks and with a callback that writes the slice, on the states
and events of `ssm_test.go` -/

namespace test

/-- The machine of `Reset` with a callback registered for `Leave(StateA)` too,
so that all five hooks of `a-b` from `StateA` are registered. -/
def fiveHooks : Result (StateMachine event state Info String Stdout) :=
  Reset.bind (WithStateCallbacks [⟨Leave, some .StateA, printing "leave_a"⟩])

/-- A callback that assigns `Info{msg}` to `args[0]` when the slice has an
element, `if len(args) > 0 { args[0] = Info{msg} }`, and returns the nil
error. -/
def overwriting (msg : String) : callbackFn event state Info String (List Info × Stdout) :=
  some fun _ args sw => (none, (args.set 0 ⟨msg⟩, sw.2))

/-- A callback that prints the message of each `Info` it is handed, with the
current state, and returns the nil error; it does not write the slice. -/
def reading : callbackFn event state Info String (List Info × Stdout) :=
  some fun current args sw => (none, (args, sw.2 ++ args.map fun i => (i.Message, current)))

/-- A machine with one transition, `a-b` from `StateA` to `StateB`, whose
`Before(a-b)` callback writes `args[0]` and whose `Enter(StateB)` callback
prints what it is handed; the zero machine if the construction panics. -/
def writer : StateMachine event state Info String (List Info × Stdout) :=
  match New [
    WithInitial (some .StateA),
    WithEvents [⟨.EventAtoB, [some .StateA], some .StateB⟩],
    WithEventCallbacks [⟨Before, .EventAtoB, overwriting "Bye"⟩],
    WithStateCallbacks [⟨Enter, some .StateB, reading⟩]] with
  | .returned sm => sm
  | .panicked => zeroStateMachine

end test

/-! ## The hook block -/

section lemmas
variable {ε σ α χ ω : Type}

/-- When control falls through a hook block, either no callback was registered
or the registered function returned the nil error. -/
theorem hookBlock_next {slot : Option (callbackFn ε σ α χ ω)} {h : Hook ε σ}
    {cur : State σ} {args : List α} {r r1 : Run ε σ α χ ω}
    (hb : hookBlock slot h cur args r = (r1, none)) :
    (slot = none ∧ r1 = r) ∨
    (∃ f w, slot = some (some f) ∧ f cur args r.world = (none, w) ∧
      r1 = ⟨w, r.calls ++ [⟨h, cur, args, .returned none⟩]⟩) := by
  unfold hookBlock at hb
  cases slot with
  | none => left; simp at hb; exact ⟨rfl, hb.symm⟩
  | some cb =>
    right
    cases cb with
    | none => simp [callbackFn.call] at hb
    | some f =>
      simp only [callbackFn.call] at hb
      rcases hf : f cur args r.world with ⟨err, w⟩
      rw [hf] at hb
      cases err with
      | none => simp at hb; exact ⟨f, w, rfl, hf, hb.symm⟩
      | some err => simp at hb

/-- When a hook block stops the call, a callback was registered, its call is
the last one recorded, and it returned a non-nil error or panicked. -/
theorem hookBlock_stop {slot : Option (callbackFn ε σ α χ ω)} {h : Hook ε σ}
    {cur : State σ} {args : List α} {r r1 : Run ε σ α χ ω} {stop : Result (error ε σ χ)}
    (hb : hookBlock slot h cur args r = (r1, some stop)) :
    ∃ cb w ret, slot = some cb ∧ r1 = ⟨w, r.calls ++ [⟨h, cur, args, ret⟩]⟩ ∧
      Stops ret stop := by
  unfold hookBlock at hb
  cases slot with
  | none => simp at hb
  | some cb =>
    cases cb with
    | none =>
      simp [callbackFn.call] at hb
      exact ⟨none, r.world, .panicked, rfl, hb.1.symm, Or.inr ⟨rfl, hb.2.symm⟩⟩
    | some f =>
      simp only [callbackFn.call] at hb
      rcases hf : f cur args r.world with ⟨err, w⟩
      rw [hf] at hb
      cases err with
      | none => simp at hb
      | some err =>
        simp at hb
        exact ⟨some f, w, .returned (some err), rfl, hb.1.symm, Or.inl ⟨err, rfl, hb.2.symm⟩⟩

/-- The calls made by the three hook blocks that precede the change of
state. -/
theorem preHooks_trace (sm : StateMachine ε σ α χ ω) (e : ε) (dst : State σ) (args : List α)
    (w : ω) (r : Run ε σ α χ ω) (o : Option (Result (error ε σ χ)))
    (h : runHooks args (sm.preHooks e dst) ⟨w, []⟩ = (r, o)) :
    (o = none ∧
      r.calls = sm.passed (.before e) sm.Current args ++ sm.passed (.enter dst) sm.Current args
        ++ sm.passed (.leave sm.Current) sm.Current args) ∨
    (∃ stop ret, o = some stop ∧ Stops ret stop ∧
      ((sm.registered (.before e) = true ∧ r.calls = [⟨.before e, sm.Current, args, ret⟩]) ∨
       (sm.registered (.enter dst) = true ∧
          r.calls = sm.passed (.before e) sm.Current args ++
            [⟨.enter dst, sm.Current, args, ret⟩]) ∨
       (sm.registered (.leave sm.Current) = true ∧
          r.calls = sm.passed (.before e) sm.Current args ++
            sm.passed (.enter dst) sm.Current args ++
            [⟨.leave sm.Current, sm.Current, args, ret⟩]))) := by
  simp only [runHooks, StateMachine.preHooks] at h
  split at h
  · rename_i r1 s1 hb
    obtain ⟨cb, w1, ret, hs, rfl, hst⟩ := hookBlock_stop hb
    simp only [Prod.mk.injEq] at h
    obtain ⟨rfl, rfl⟩ := h
    exact Or.inr ⟨s1, ret, rfl, hst, Or.inl ⟨by simp [StateMachine.registered, hs], by simp⟩⟩
  · rename_i r1 hb1
    have c1 : r1.calls = sm.passed (.before e) sm.Current args := by
      rcases hookBlock_next hb1 with ⟨hs, rfl⟩ | ⟨f, w1, hs, -, rfl⟩ <;>
        simp [StateMachine.passed, StateMachine.registered, hs]
    split at h
    · rename_i r2 s2 hb
      obtain ⟨cb, w2, ret, hs, rfl, hst⟩ := hookBlock_stop hb
      simp only [Prod.mk.injEq] at h
      obtain ⟨rfl, rfl⟩ := h
      exact Or.inr ⟨s2, ret, rfl, hst,
        Or.inr (Or.inl ⟨by simp [StateMachine.registered, hs], by simp [c1]⟩)⟩
    · rename_i r2 hb2
      have c2 : r2.calls = r1.calls ++ sm.passed (.enter dst) sm.Current args := by
        rcases hookBlock_next hb2 with ⟨hs, rfl⟩ | ⟨f, w1, hs, -, rfl⟩ <;>
          simp [StateMachine.passed, StateMachine.registered, hs]
      split at h
      · rename_i r3 s3 hb
        obtain ⟨cb, w3, ret, hs, rfl, hst⟩ := hookBlock_stop hb
        simp only [Prod.mk.injEq] at h
        obtain ⟨rfl, rfl⟩ := h
        exact Or.inr ⟨s3, ret, rfl, hst,
          Or.inr (Or.inr ⟨by simp [StateMachine.registered, hs], by simp [c1, c2]⟩)⟩
      · rename_i r3 hb3
        have c3 : r3.calls = r2.calls ++ sm.passed (.leave sm.Current) sm.Current args := by
          rcases hookBlock_next hb3 with ⟨hs, rfl⟩ | ⟨f, w1, hs, -, rfl⟩ <;>
            simp [StateMachine.passed, StateMachine.registered, hs]
        simp only [Prod.mk.injEq] at h
        obtain ⟨rfl, rfl⟩ := h
        exact Or.inl ⟨rfl, by simp [c1, c2, c3]⟩

/-- The calls made by the two hook blocks that follow the change of state. -/
theorem postHooks_trace (sm : StateMachine ε σ α χ ω) (e : ε) (dst : State σ) (args : List α)
    (r0 r : Run ε σ α χ ω) (o : Option (Result (error ε σ χ)))
    (h : runHooks args (sm.postHooks e dst) r0 = (r, o)) :
    (o = none ∧
      r.calls = r0.calls ++ sm.passed (.after e) dst args ++ sm.passed .cbAfter dst args) ∨
    (∃ stop ret, o = some stop ∧ Stops ret stop ∧
      ((sm.registered (.after e) = true ∧ r.calls = r0.calls ++ [⟨.after e, dst, args, ret⟩]) ∨
       (sm.registered .cbAfter = true ∧
          r.calls = r0.calls ++ sm.passed (.after e) dst args ++
            [⟨.cbAfter, dst, args, ret⟩]))) := by
  simp only [runHooks, StateMachine.postHooks] at h
  split at h
  · rename_i r1 s1 hb
    obtain ⟨cb, w1, ret, hs, rfl, hst⟩ := hookBlock_stop hb
    simp only [Prod.mk.injEq] at h
    obtain ⟨rfl, rfl⟩ := h
    exact Or.inr ⟨s1, ret, rfl, hst, Or.inl ⟨by simp [StateMachine.registered, hs], by simp⟩⟩
  · rename_i r1 hb1
    have c1 : r1.calls = r0.calls ++ sm.passed (.after e) dst args := by
      rcases hookBlock_next hb1 with ⟨hs, rfl⟩ | ⟨f, w1, hs, -, rfl⟩ <;>
        simp [StateMachine.passed, StateMachine.registered, hs]
    split at h
    · rename_i r2 s2 hb
      obtain ⟨cb, w2, ret, hs, rfl, hst⟩ := hookBlock_stop hb
      simp only [Prod.mk.injEq] at h
      obtain ⟨rfl, rfl⟩ := h
      exact Or.inr ⟨s2, ret, rfl, hst,
        Or.inr ⟨by simp [StateMachine.registered, hs], by simp [c1]⟩⟩
    · rename_i r2 hb2
      have c2 : r2.calls = r1.calls ++ sm.passed .cbAfter dst args := by
        rcases hookBlock_next hb2 with ⟨hs, rfl⟩ | ⟨f, w1, hs, -, rfl⟩ <;>
          simp [StateMachine.passed, StateMachine.registered, hs]
      simp only [Prod.mk.injEq] at h
      obtain ⟨rfl, rfl⟩ := h
      exact Or.inl ⟨rfl, by simp [c1, c2]⟩

/-- What `Event` hands on when a call stops it is what the call returned. -/
theorem Stops.event {ret : Result (Option (error ε σ χ))} {stop : Result (error ε σ χ)}
    (h : Stops ret stop) :
    (stop.bind fun err => Result.returned (some err)) = ret ∧ ret ≠ .returned none := by
  rcases h with ⟨err, rfl, rfl⟩ | ⟨rfl, rfl⟩ <;> simp [Result.bind]

/-- What `Can` hands on when a call stops it: `false` and the error the call
returned, or the panic. -/
theorem Stops.can {ret : Result (Option (error ε σ χ))} {stop : Result (error ε σ χ)}
    (h : Stops ret stop) :
    (stop.bind fun err => Result.returned (false, some err)) =
        (ret.bind fun err => Result.returned (false, err)) ∧ ret ≠ .returned none := by
  rcases h with ⟨err, rfl, rfl⟩ | ⟨rfl, rfl⟩ <;> simp [Result.bind]

end lemmas


section dispatch
variable {ε σ α χ ω : Type} [DecidableEq ε] [DecidableEq σ]

/-- The method `Event` as two runs of hook blocks around the change of
state. -/
theorem Event_eq_runHooks (sm : StateMachine ε σ α χ ω) (e : ε) (args : List α) (w : ω)
    (dst : State σ) (hT : sm.transitions.lookup ⟨e, sm.Current⟩ = some dst) :
    sm.Event e args w =
      match runHooks args (sm.preHooks e dst) ⟨w, []⟩ with
      | (r, some stop) => ⟨sm, r.world, r.calls, stop.bind fun err => .returned (some err)⟩
      | (r, none) =>
        if dst = sm.Current then ⟨sm, r.world, r.calls, .returned none⟩
        else
          match runHooks args (sm.postHooks e dst) r with
          | (r1, some stop) =>
            ⟨{ sm with current := dst }, r1.world, r1.calls,
              stop.bind fun err => .returned (some err)⟩
          | (r1, none) => ⟨{ sm with current := dst }, r1.world, r1.calls, .returned none⟩ := by
  unfold StateMachine.Event
  simp only [hT, runHooks, StateMachine.preHooks, StateMachine.postHooks, StateMachine.slot]
  rcases hookBlock ((sm.cbEvent.index Before).lookup e) (.before e) sm.Current args ⟨w, []⟩
    with ⟨r1, _ | s1⟩ <;> simp only []
  rcases hookBlock ((sm.cbState.index Enter).lookup dst) (.enter dst) sm.Current args r1
    with ⟨r2, _ | s2⟩ <;> simp only []
  rcases hookBlock ((sm.cbState.index Leave).lookup sm.Current) (.leave sm.Current)
    sm.Current args r2 with ⟨r3, _ | s3⟩ <;> simp only []
  by_cases hd : dst = sm.Current
  · simp only [hd, if_true]
  · simp only [hd, if_false]
    simp only [StateMachine.Current]
    rcases hookBlock ((sm.cbEvent.index After).lookup e) (.after e) dst args r3
      with ⟨r4, _ | s4⟩ <;> simp only []
    cases sm.cbAfter with
    | none => simp only [hookBlock]
    | some f =>
      simp only [hookBlock, callbackFn.call]
      rcases f dst args r4.world with ⟨_ | err, w5⟩ <;> simp [Result.bind]

/-- The method `Can` as one run of hook blocks. -/
theorem Can_eq_runHooks (sm : StateMachine ε σ α χ ω) (e : ε) (args : List α) (w : ω)
    (dst : State σ) (hT : sm.transitions.lookup ⟨e, sm.Current⟩ = some dst) :
    sm.Can e args w =
      match runHooks args (sm.preHooks e dst) ⟨w, []⟩ with
      | (r, some stop) => ⟨sm, r.world, r.calls, stop.bind fun err => .returned (false, some err)⟩
      | (r, none) => ⟨sm, r.world, r.calls, .returned (true, none)⟩ := by
  unfold StateMachine.Can
  simp only [hT, runHooks, StateMachine.preHooks, StateMachine.slot]
  rcases hookBlock ((sm.cbEvent.index Before).lookup e) (.before e) sm.Current args ⟨w, []⟩
    with ⟨r1, _ | s1⟩ <;> simp only []
  rcases hookBlock ((sm.cbState.index Enter).lookup dst) (.enter dst) sm.Current args r1
    with ⟨r2, _ | s2⟩ <;> simp only []
  rcases hookBlock ((sm.cbState.index Leave).lookup sm.Current) (.leave sm.Current)
    sm.Current args r2 with ⟨r3, _ | s3⟩ <;> simp only []

/-- Every way a call of `Event` on a registered transition can go, with the
calls it makes. -/
theorem Event_trace (sm : StateMachine ε σ α χ ω) (e : ε) (args : List α) (w : ω)
    (dst : State σ) (hT : sm.transitions.lookup ⟨e, sm.Current⟩ = some dst) :
    (∃ ret, ret ≠ .returned none ∧ (sm.Event e args w).result = ret ∧
      (sm.Event e args w).sm = sm ∧ sm.preStopped e dst args ret (sm.Event e args w).calls) ∨
    (dst = sm.Current ∧ (sm.Event e args w).result = .returned none ∧
      (sm.Event e args w).sm = sm ∧ (sm.Event e args w).calls = sm.prePassed e dst args) ∨
    (dst ≠ sm.Current ∧ ∃ ret, ret ≠ .returned none ∧ (sm.Event e args w).result = ret ∧
      (sm.Event e args w).sm = { sm with current := dst } ∧
      ((sm.registered (.after e) = true ∧
          (sm.Event e args w).calls = sm.prePassed e dst args ++ [⟨.after e, dst, args, ret⟩]) ∨
        (sm.registered .cbAfter = true ∧
          (sm.Event e args w).calls = sm.prePassed e dst args ++ sm.passed (.after e) dst args ++
            [⟨.cbAfter, dst, args, ret⟩]))) ∨
    (dst ≠ sm.Current ∧ (sm.Event e args w).result = .returned none ∧
      (sm.Event e args w).sm = { sm with current := dst } ∧
      (sm.Event e args w).calls = sm.prePassed e dst args ++ sm.passed (.after e) dst args ++
        sm.passed .cbAfter dst args) := by
  rw [Event_eq_runHooks sm e args w dst hT]
  rcases hpre : runHooks args (sm.preHooks e dst) ⟨w, []⟩ with ⟨r, o⟩
  rcases preHooks_trace sm e dst args w r o hpre with ⟨rfl, hc⟩ | ⟨stop, ret, rfl, hst, hc⟩
  · by_cases hd : dst = sm.Current
    · right; left
      refine ⟨hd, ?_, ?_, ?_⟩ <;> simp only [if_pos hd, hc, StateMachine.prePassed]
    · right; right
      simp only [if_neg hd]
      rcases hpost : runHooks args (sm.postHooks e dst) r with ⟨r1, o1⟩
      rcases postHooks_trace sm e dst args r r1 o1 hpost with
        ⟨rfl, hc1⟩ | ⟨stop, ret, rfl, hst, hc1⟩
      · right
        exact ⟨hd, rfl, rfl, by simp only [hc1, hc, StateMachine.prePassed]⟩
      · left
        refine ⟨hd, ret, hst.event.2, hst.event.1, rfl, ?_⟩
        rcases hc1 with ⟨hr, hc1⟩ | ⟨hr, hc1⟩
        · exact Or.inl ⟨hr, by simp only [hc1, hc, StateMachine.prePassed]⟩
        · exact Or.inr ⟨hr, by simp only [hc1, hc, StateMachine.prePassed]⟩
  · left
    exact ⟨ret, hst.event.2, hst.event.1, rfl, hc⟩

/-- Every way a call of `Can` on a registered transition can go, with the
calls it makes. -/
theorem Can_trace (sm : StateMachine ε σ α χ ω) (e : ε) (args : List α) (w : ω)
    (dst : State σ) (hT : sm.transitions.lookup ⟨e, sm.Current⟩ = some dst) :
    (∃ ret, ret ≠ .returned none ∧
      (sm.Can e args w).result = (ret.bind fun err => .returned (false, err)) ∧
      (sm.Can e args w).sm = sm ∧ sm.preStopped e dst args ret (sm.Can e args w).calls) ∨
    ((sm.Can e args w).result = .returned (true, none) ∧
      (sm.Can e args w).sm = sm ∧ (sm.Can e args w).calls = sm.prePassed e dst args) := by
  rw [Can_eq_runHooks sm e args w dst hT]
  rcases hpre : runHooks args (sm.preHooks e dst) ⟨w, []⟩ with ⟨r, o⟩
  rcases preHooks_trace sm e dst args w r o hpre with ⟨rfl, hc⟩ | ⟨stop, ret, rfl, hst, hc⟩
  · right
    exact ⟨rfl, rfl, hc⟩
  · left
    exact ⟨ret, hst.can.2, hst.can.1, rfl, hc⟩

end dispatch


section traces
variable {ε σ α χ ω : Type}

/-- Membership in the record of a passed hook. -/
theorem mem_passed (sm : StateMachine ε σ α χ ω) (h : Hook ε σ) (cur : State σ)
    (args : List α) (c : Call ε σ α χ) :
    c ∈ sm.passed h cur args ↔ sm.registered h = true ∧ c = ⟨h, cur, args, .returned none⟩ := by
  unfold StateMachine.passed
  split <;> simp_all

/-- Keeping the registered hooks of a list of passed calls, one call at a
time. -/
theorem filter_registered_cons (sm : StateMachine ε σ α χ ω) (h : Hook ε σ) (cur : State σ)
    (args : List α) (l : List (Call ε σ α χ)) :
    ((⟨h, cur, args, .returned none⟩ :: l).filter fun c => sm.registered c.hook) =
      sm.passed h cur args ++ l.filter fun c => sm.registered c.hook := by
  unfold StateMachine.passed
  by_cases hr : sm.registered h = true <;> simp [List.filter_cons, hr]

/-- The hooks of the record of a passed hook. -/
theorem map_hook_passed (sm : StateMachine ε σ α χ ω) (h : Hook ε σ) (cur : State σ)
    (args : List α) :
    (sm.passed h cur args).map (fun c => c.hook) = [h].filter sm.registered := by
  unfold StateMachine.passed
  by_cases hr : sm.registered h = true <;> simp [List.filter_cons, hr]

/-- The calls of the hooks that precede the change of state, when they all
pass: each returned the nil error and was given the current state and the
arguments of the call. -/
theorem mem_prePassed {sm : StateMachine ε σ α χ ω} {e : ε} {dst : State σ} {args : List α}
    {c : Call ε σ α χ} (h : c ∈ sm.prePassed e dst args) :
    c.ret = .returned none ∧ c.current = sm.Current ∧ c.args = args ∧
      sm.registered c.hook = true ∧
      (c.hook = .before e ∨ c.hook = .enter dst ∨ c.hook = .leave sm.Current) := by
  simp only [StateMachine.prePassed, List.mem_append, mem_passed] at h
  rcases h with (⟨hr, rfl⟩ | ⟨hr, rfl⟩) | ⟨hr, rfl⟩ <;> simp [hr]

/-- The hooks called when the hooks that precede the change of state all
pass: the registered ones among `Before`, `Enter`, `Leave`, in that order. -/
theorem map_hook_prePassed (sm : StateMachine ε σ α χ ω) (e : ε) (dst : State σ)
    (args : List α) :
    (sm.prePassed e dst args).map (fun c => c.hook) =
      [Hook.before e, Hook.enter dst, Hook.leave sm.Current].filter sm.registered := by
  simp only [StateMachine.prePassed, List.map_append, map_hook_passed]
  rw [← List.filter_append, ← List.filter_append]
  rfl

/-- A run stopped by one of the hooks that precede the change of state: the
stopping call comes last, after calls that passed, and no hook is called out
of order. -/
theorem preStopped_split {sm : StateMachine ε σ α χ ω} {e : ε} {dst : State σ}
    {args : List α} {ret : Result (Option (error ε σ χ))} {calls : List (Call ε σ α χ)}
    (h : sm.preStopped e dst args ret calls) :
    ∃ earlier hk, calls = earlier ++ [⟨hk, sm.Current, args, ret⟩] ∧
      (hk = .before e ∨ hk = .enter dst ∨ hk = .leave sm.Current) ∧
      (∀ c ∈ earlier, c ∈ sm.prePassed e dst args) ∧
      calls.map (fun c => c.hook) <+:
        [Hook.before e, Hook.enter dst, Hook.leave sm.Current].filter sm.registered := by
  rcases h with ⟨hr, rfl⟩ | ⟨hr, rfl⟩ | ⟨hr, rfl⟩
  · refine ⟨[], .before e, rfl, Or.inl rfl, by simp, ?_⟩
    simp [List.filter_cons, hr]
  · refine ⟨_, .enter dst, rfl, Or.inr (Or.inl rfl), ?_, ?_⟩
    · intro c hc
      simp only [StateMachine.prePassed, List.mem_append]
      exact Or.inl (Or.inl hc)
    · simp only [List.map_append, map_hook_passed, List.map_cons, List.map_nil]
      by_cases hb : sm.registered (.before e) = true <;> simp [List.filter_cons, hr, hb]
  · refine ⟨_, .leave sm.Current, rfl, Or.inr (Or.inr rfl), ?_, ?_⟩
    · intro c hc
      simp only [StateMachine.prePassed, List.mem_append]
      exact Or.inl (List.mem_append.mp hc)
    · simp only [List.map_append, map_hook_passed, List.map_cons, List.map_nil]
      by_cases hb : sm.registered (.before e) = true <;>
        by_cases he : sm.registered (.enter dst) = true <;>
          simp [List.filter_cons, hr, hb, he]

end traces

section claims
variable {ε σ α χ ω : Type} [DecidableEq ε] [DecidableEq σ]

/-- C1: when the transition table has no entry for the event and the current
state, `Event` returns an `InvalidTransitionError` carrying the event and the
current state, calls no callback, and leaves the machine, so also its current
state, and the host world as they were. -/
theorem Event_invalid_transition (sm : StateMachine ε σ α χ ω) (e : ε) (args : List α) (w : ω)
    (hT : sm.transitions.lookup ⟨e, sm.Current⟩ = none) :
    (sm.Event e args w).result = .returned (some (.InvalidTransitionError e sm.Current)) ∧
    (sm.Event e args w).calls = [] ∧
    (sm.Event e args w).sm.Current = sm.Current ∧
    (sm.Event e args w).sm = sm ∧
    (sm.Event e args w).world = w := by
  unfold StateMachine.Event
  simp [hT]

/-- C2: when the transition table maps the event and the current state to
`dst` and every callback that `Event` calls returns the nil error, `Event`
returns nil and the current state is `dst` afterwards. -/
theorem Event_reaches_destination (sm : StateMachine ε σ α χ ω) (e : ε) (args : List α) (w : ω)
    (dst : State σ)
    (hT : sm.transitions.lookup ⟨e, sm.Current⟩ = some dst)
    (hok : ∀ c ∈ (sm.Event e args w).calls, c.ret = .returned none) :
    (sm.Event e args w).result = .returned none ∧ (sm.Event e args w).sm.Current = dst := by
  rcases Event_trace sm e args w dst hT with
    ⟨ret, hret, -, -, hc⟩ | ⟨hd, hres, hsm, -⟩ | ⟨-, ret, hret, -, -, hc⟩ | ⟨-, hres, hsm, -⟩
  · exfalso
    obtain ⟨earlier, hk, hc, -⟩ := preStopped_split hc
    exact hret (hok ⟨hk, sm.Current, args, ret⟩ (by rw [hc]; simp))
  · exact ⟨hres, by rw [hsm, hd]⟩
  · exfalso
    rcases hc with ⟨-, hc⟩ | ⟨-, hc⟩
    · exact hret (hok ⟨.after e, dst, args, ret⟩ (by rw [hc]; simp))
    · exact hret (hok ⟨.cbAfter, dst, args, ret⟩ (by rw [hc]; simp))
  · exact ⟨hres, by rw [hsm]; rfl⟩

/-- On a transition to another state, when every callback that `Event`
calls returns the nil error, the calls made are the registered hooks among
`Before(e)`, `Enter(dst)`, `Leave(src)`, `After(e)` and the global after
callback, in that order and once each; the first three are given the source
state as current state and the last two the destination, so the state changes
between `Leave` and `After`. With all five registered, all five are called. -/
theorem Event_calls_in_order (sm : StateMachine ε σ α χ ω) (e : ε) (args : List α) (w : ω)
    (dst : State σ)
    (hT : sm.transitions.lookup ⟨e, sm.Current⟩ = some dst)
    (hne : dst ≠ sm.Current)
    (hok : ∀ c ∈ (sm.Event e args w).calls, c.ret = .returned none) :
    (sm.Event e args w).calls =
      ([⟨.before e, sm.Current, args, .returned none⟩,
        ⟨.enter dst, sm.Current, args, .returned none⟩,
        ⟨.leave sm.Current, sm.Current, args, .returned none⟩,
        ⟨.after e, dst, args, .returned none⟩,
        ⟨.cbAfter, dst, args, .returned none⟩] : List (Call ε σ α χ)).filter
        (fun c => sm.registered c.hook) ∧
    ((∀ h ∈ [Hook.before e, .enter dst, .leave sm.Current, .after e, .cbAfter],
        sm.registered h = true) →
      (sm.Event e args w).calls.map (fun c => c.hook) =
        [.before e, .enter dst, .leave sm.Current, .after e, .cbAfter]) ∧
    (sm.Event e args w).sm.Current = dst ∧
    (sm.Event e args w).result = .returned none := by
  have key : (sm.Event e args w).calls =
      sm.prePassed e dst args ++ sm.passed (.after e) dst args ++ sm.passed .cbAfter dst args ∧
      (sm.Event e args w).sm.Current = dst ∧ (sm.Event e args w).result = .returned none := by
    rcases Event_trace sm e args w dst hT with
      ⟨ret, hret, -, -, hc⟩ | ⟨hd, -⟩ | ⟨-, ret, hret, -, -, hc⟩ | ⟨-, hres, hsm, hc⟩
    · exfalso
      obtain ⟨earlier, hk, hc, -⟩ := preStopped_split hc
      exact hret (hok ⟨hk, sm.Current, args, ret⟩ (by rw [hc]; simp))
    · exact absurd hd hne
    · exfalso
      rcases hc with ⟨-, hc⟩ | ⟨-, hc⟩
      · exact hret (hok ⟨.after e, dst, args, ret⟩ (by rw [hc]; simp))
      · exact hret (hok ⟨.cbAfter, dst, args, ret⟩ (by rw [hc]; simp))
    · exact ⟨hc, by rw [hsm]; rfl, hres⟩
  obtain ⟨hc, hcur, hres⟩ := key
  have hfil : (sm.Event e args w).calls =
      ([⟨.before e, sm.Current, args, .returned none⟩,
        ⟨.enter dst, sm.Current, args, .returned none⟩,
        ⟨.leave sm.Current, sm.Current, args, .returned none⟩,
        ⟨.after e, dst, args, .returned none⟩,
        ⟨.cbAfter, dst, args, .returned none⟩] : List (Call ε σ α χ)).filter
        (fun c => sm.registered c.hook) := by
    rw [hc]
    simp only [filter_registered_cons, StateMachine.prePassed, List.filter_nil,
      List.append_nil, List.append_assoc]
  refine ⟨hfil, ?_, hcur, hres⟩
  intro hall
  rw [hfil]
  simp only [List.mem_cons, List.mem_singleton, forall_eq_or_imp, forall_eq] at hall
  obtain ⟨h1, h2, h3, h4, h5, -⟩ := hall
  simp [List.filter_cons, h1, h2, h3, h4, h5]

/-- C5: on a registered transition, when a call of `Before(e)`, `Enter(dst)`
or `Leave(current)` returns the error `err`, `Event` returns that very
`err`; the failing call is the last one made, the calls before it returned
the nil error, no hook is called out of order, neither an `After` hook nor
the global after callback is called, and the machine, so also its current
state, is left as it was. -/
theorem Event_pre_hook_error (sm : StateMachine ε σ α χ ω) (e : ε) (args : List α) (w : ω)
    (dst : State σ) (c : Call ε σ α χ) (err : error ε σ χ)
    (hT : sm.transitions.lookup ⟨e, sm.Current⟩ = some dst)
    (hc : c ∈ (sm.Event e args w).calls)
    (hpre : c.hook = .before e ∨ c.hook = .enter dst ∨ c.hook = .leave sm.Current)
    (herr : c.ret = .returned (some err)) :
    (sm.Event e args w).result = .returned (some err) ∧
    (∃ earlier, (sm.Event e args w).calls = earlier ++ [c] ∧
      ∀ c' ∈ earlier, c'.ret = .returned none) ∧
    (sm.Event e args w).calls.map (fun c => c.hook) <+:
      [Hook.before e, Hook.enter dst, Hook.leave sm.Current].filter sm.registered ∧
    (∀ c' ∈ (sm.Event e args w).calls, (∀ e', c'.hook ≠ .after e') ∧ c'.hook ≠ .cbAfter) ∧
    (sm.Event e args w).sm = sm ∧
    (sm.Event e args w).sm.Current = sm.Current := by
  have hnone : ∀ c' : Call ε σ α χ, c'.ret = .returned none → c' ≠ c := by
    intro c' h1 h2
    rw [h2, herr] at h1
    simp at h1
  rcases Event_trace sm e args w dst hT with
    ⟨ret, hret, hres, hsm, hcs⟩ | ⟨-, -, -, hcs⟩ | ⟨-, ret, -, -, -, hcs⟩ | ⟨-, -, -, hcs⟩
  · obtain ⟨earlier, hk, hcs, hkpre, hearlier, hpfx⟩ := preStopped_split hcs
    have hlast : c = ⟨hk, sm.Current, args, ret⟩ := by
      rw [hcs, List.mem_append, List.mem_singleton] at hc
      rcases hc with hc | hc
      · exact absurd rfl (hnone c (mem_prePassed (hearlier c hc)).1)
      · exact hc
    have hr : ret = .returned (some err) := by rw [hlast] at herr; exact herr
    refine ⟨by rw [hres, hr], ⟨earlier, by rw [hcs, hlast],
      fun c' h' => (mem_prePassed (hearlier c' h')).1⟩, hpfx, ?_, hsm, by rw [hsm]⟩
    intro c' hmem
    rw [hcs, List.mem_append, List.mem_singleton] at hmem
    rcases hmem with hmem | rfl
    · obtain ⟨-, -, -, -, hh⟩ := mem_prePassed (hearlier c' hmem)
      rcases hh with hh | hh | hh <;> simp [hh]
    · rcases hkpre with hh | hh | hh <;> simp [hh]
  · rw [hcs] at hc
    exact absurd rfl (hnone c (mem_prePassed hc).1)
  · exfalso
    rcases hcs with ⟨-, hcs⟩ | ⟨-, hcs⟩
    · rw [hcs, List.mem_append, List.mem_singleton] at hc
      rcases hc with hc | rfl
      · exact hnone c (mem_prePassed hc).1 rfl
      · simp at hpre
    · rw [hcs, List.mem_append, List.mem_append, List.mem_singleton, mem_passed] at hc
      rcases hc with (hc | ⟨-, rfl⟩) | rfl
      · exact hnone c (mem_prePassed hc).1 rfl
      · simp at hpre
      · simp at hpre
  · exfalso
    rw [hcs, List.mem_append, List.mem_append, mem_passed, mem_passed] at hc
    rcases hc with (hc | ⟨-, rfl⟩) | ⟨-, rfl⟩
    · exact hnone c (mem_prePassed hc).1 rfl
    · simp at hpre
    · simp at hpre

/-- C6: on a transition to another state `dst`, a call of `After(e)` or of
the global after callback that returns the error `err` is given `dst`, is the
last call made, after calls that returned the nil error, and `Event` returns
that very `err` with the current state already `dst`; when it is `After(e)`
that fails, the global after callback is not called. When the calls of
`Before`, `Enter` and `Leave` return the nil error, a registered `After(e)`
is called, and when every call but that of the global after callback returns
the nil error, a registered global after callback is called. -/
theorem Event_post_hook_error (sm : StateMachine ε σ α χ ω) (e : ε) (args : List α) (w : ω)
    (dst : State σ)
    (hT : sm.transitions.lookup ⟨e, sm.Current⟩ = some dst)
    (hne : dst ≠ sm.Current) :
    (∀ c ∈ (sm.Event e args w).calls, ∀ err : error ε σ χ,
      (c.hook = .after e ∨ c.hook = .cbAfter) → c.ret = .returned (some err) →
        (sm.Event e args w).result = .returned (some err) ∧
        (sm.Event e args w).sm.Current = dst ∧
        c.current = dst ∧
        (∃ earlier, (sm.Event e args w).calls = earlier ++ [c] ∧
          ∀ c' ∈ earlier, c'.ret = .returned none) ∧
        (c.hook = .after e → ∀ c' ∈ (sm.Event e args w).calls, c'.hook ≠ .cbAfter)) ∧
    ((∀ c ∈ (sm.Event e args w).calls,
        (c.hook = .before e ∨ c.hook = .enter dst ∨ c.hook = .leave sm.Current) →
          c.ret = .returned none) →
      sm.registered (.after e) = true →
      ∃ c ∈ (sm.Event e args w).calls, c.hook = .after e ∧ c.current = dst ∧ c.args = args) ∧
    ((∀ c ∈ (sm.Event e args w).calls, c.hook ≠ .cbAfter → c.ret = .returned none) →
      sm.registered .cbAfter = true →
      ∃ c ∈ (sm.Event e args w).calls, c.hook = .cbAfter ∧ c.current = dst ∧ c.args = args) := by
  rcases Event_trace sm e args w dst hT with
    ⟨ret, hret, hres, hsm, hcs⟩ | ⟨hd, -⟩ | ⟨-, ret, hret, hres, hsm, hcs⟩ | ⟨-, hres, hsm, hcs⟩
  · obtain ⟨earlier, hk, hcs, hkpre, hearlier, -⟩ := preStopped_split hcs
    refine ⟨?_, ?_, ?_⟩
    · intro c hc err hpost herr
      exfalso
      rw [hcs, List.mem_append, List.mem_singleton] at hc
      rcases hc with hc | rfl
      · have := (mem_prePassed (hearlier c hc)).1
        rw [herr] at this
        simp at this
      · rcases hkpre with hh | hh | hh <;> simp [hh] at hpost
    · intro hok _
      exact absurd (hok ⟨hk, sm.Current, args, ret⟩ (by rw [hcs]; simp) hkpre) hret
    · intro hok _
      refine absurd (hok ⟨hk, sm.Current, args, ret⟩ (by rw [hcs]; simp) ?_) hret
      rcases hkpre with hh | hh | hh <;> simp [hh]
  · exact absurd hd hne
  · have hcur : (sm.Event e args w).sm.Current = dst := by rw [hsm]; rfl
    rcases hcs with ⟨hreg, hcs⟩ | ⟨hreg, hcs⟩
    · refine ⟨?_, ?_, ?_⟩
      · intro c hc err hpost herr
        rw [hcs, List.mem_append, List.mem_singleton] at hc
        rcases hc with hc | rfl
        · have := (mem_prePassed hc).1
          rw [herr] at this
          simp at this
        · simp only at herr
          refine ⟨by rw [hres, herr], hcur, rfl, ⟨_, hcs, fun c' h' => (mem_prePassed h').1⟩, ?_⟩
          intro _ c' hc'
          rw [hcs, List.mem_append, List.mem_singleton] at hc'
          rcases hc' with hc' | rfl
          · obtain ⟨-, -, -, -, hh⟩ := mem_prePassed hc'
            rcases hh with hh | hh | hh <;> simp [hh]
          · simp
      · intro _ _
        exact ⟨⟨.after e, dst, args, ret⟩, by rw [hcs]; simp, rfl, rfl, rfl⟩
      · intro hok _
        exact absurd (hok ⟨.after e, dst, args, ret⟩ (by rw [hcs]; simp) (by simp)) hret
    · refine ⟨?_, ?_, ?_⟩
      · intro c hc err hpost herr
        rw [hcs, List.mem_append, List.mem_append, List.mem_singleton, mem_passed] at hc
        rcases hc with (hc | ⟨-, rfl⟩) | rfl
        · have := (mem_prePassed hc).1
          rw [herr] at this
          simp at this
        · simp at herr
        · simp only at herr
          refine ⟨by rw [hres, herr], hcur, rfl, ⟨_, hcs, ?_⟩, by simp⟩
          intro c' h'
          rw [List.mem_append, mem_passed] at h'
          rcases h' with h' | ⟨-, rfl⟩
          · exact (mem_prePassed h').1
          · rfl
      · intro _ hr
        refine ⟨⟨.after e, dst, args, .returned none⟩, ?_, rfl, rfl, rfl⟩
        rw [hcs, List.mem_append, List.mem_append, mem_passed]
        exact Or.inl (Or.inr ⟨hr, rfl⟩)
      · intro _ _
        exact ⟨⟨.cbAfter, dst, args, ret⟩, by rw [hcs]; simp, rfl, rfl, rfl⟩
  · refine ⟨?_, ?_, ?_⟩
    · intro c hc err hpost herr
      exfalso
      rw [hcs, List.mem_append, List.mem_append, mem_passed, mem_passed] at hc
      rcases hc with (hc | ⟨-, rfl⟩) | ⟨-, rfl⟩
      · have := (mem_prePassed hc).1
        rw [herr] at this
        simp at this
      · simp at herr
      · simp at herr
    · intro _ hr
      refine ⟨⟨.after e, dst, args, .returned none⟩, ?_, rfl, rfl, rfl⟩
      rw [hcs, List.mem_append, List.mem_append, mem_passed]
      exact Or.inl (Or.inr ⟨hr, rfl⟩)
    · intro _ hr
      refine ⟨⟨.cbAfter, dst, args, .returned none⟩, ?_, rfl, rfl, rfl⟩
      rw [hcs, List.mem_append, mem_passed]
      exact Or.inr ⟨hr, rfl⟩

/-- The method `Can` returns `(false, InvalidTransitionError)` with the event and the
current state when the table has no entry; on a registered transition it
returns `(false, err)` when a call of `Before(e)`, `Enter(dst)` or
`Leave(current)` returns the error `err`, that call being the last one made
after calls that returned the nil error, and `(true, nil)` when every call
made returns the nil error, every registered one of the three hooks being
then called in order. Whenever `Can` returns, the boolean is true exactly when
the error is nil. -/
theorem Can_result_by_calls (sm : StateMachine ε σ α χ ω) (e : ε) (args : List α) (w : ω) :
    (sm.transitions.lookup ⟨e, sm.Current⟩ = none →
      (sm.Can e args w).result =
        .returned (false, some (.InvalidTransitionError e sm.Current)) ∧
      (sm.Can e args w).calls = []) ∧
    (∀ dst, sm.transitions.lookup ⟨e, sm.Current⟩ = some dst →
      (∀ c ∈ (sm.Can e args w).calls, ∀ err : error ε σ χ, c.ret = .returned (some err) →
        (sm.Can e args w).result = .returned (false, some err) ∧
        ∃ earlier, (sm.Can e args w).calls = earlier ++ [c] ∧
          ∀ c' ∈ earlier, c'.ret = .returned none) ∧
      ((∀ c ∈ (sm.Can e args w).calls, c.ret = .returned none) →
        (sm.Can e args w).result = .returned (true, none) ∧
        (sm.Can e args w).calls.map (fun c => c.hook) =
          [Hook.before e, Hook.enter dst, Hook.leave sm.Current].filter sm.registered) ∧
      (sm.Can e args w).calls.map (fun c => c.hook) <+:
        [Hook.before e, Hook.enter dst, Hook.leave sm.Current].filter sm.registered) ∧
    (∀ b err, (sm.Can e args w).result = .returned (b, err) → (b = true ↔ err = none)) := by
  refine ⟨?_, ?_, ?_⟩
  · intro hT
    unfold StateMachine.Can
    simp [hT]
  · intro dst hT
    rcases Can_trace sm e args w dst hT with ⟨ret, hret, hres, -, hcs⟩ | ⟨hres, -, hcs⟩
    · obtain ⟨earlier, hk, hcs, -, hearlier, hpfx⟩ := preStopped_split hcs
      refine ⟨?_, ?_, hpfx⟩
      · intro c hc err herr
        rw [hcs, List.mem_append, List.mem_singleton] at hc
        rcases hc with hc | rfl
        · have := (mem_prePassed (hearlier c hc)).1
          rw [herr] at this
          simp at this
        · simp only at herr
          refine ⟨by rw [hres, herr]; rfl, ⟨earlier, hcs, ?_⟩⟩
          exact fun c' h' => (mem_prePassed (hearlier c' h')).1
      · intro hok
        exact absurd (hok ⟨hk, sm.Current, args, ret⟩ (by rw [hcs]; simp)) hret
    · refine ⟨?_, fun _ => ⟨hres, by rw [hcs, map_hook_prePassed]⟩, ?_⟩
      · intro c hc err herr
        rw [hcs] at hc
        have := (mem_prePassed hc).1
        rw [herr] at this
        simp at this
      · rw [hcs, map_hook_prePassed]
  · intro b err hres
    cases hT : sm.transitions.lookup ⟨e, sm.Current⟩ with
    | none =>
      unfold StateMachine.Can at hres
      simp [hT] at hres
      simp [← hres.1, ← hres.2]
    | some dst =>
      rcases Can_trace sm e args w dst hT with ⟨ret, hret, hres2, -, -⟩ | ⟨hres2, -, -⟩
      · rw [hres2] at hres
        cases ret with
        | panicked => simp [Result.bind] at hres
        | returned r =>
          simp [Result.bind] at hres
          have : r ≠ none := fun h => hret (by rw [h])
          simp [← hres.1, ← hres.2, this]
      · rw [hres2] at hres
        simp at hres
        simp [← hres.1, ← hres.2]

/-- C8: whatever `Can` returns, the machine afterwards is the machine before
the call, with the same current state, transition table, callback registries
and global after callback, and no call is made to the `After` hook of any
event nor to the global after callback. -/
theorem Can_frame (sm : StateMachine ε σ α χ ω) (e : ε) (args : List α) (w : ω) :
    (sm.Can e args w).sm = sm ∧
    (sm.Can e args w).sm.Current = sm.Current ∧
    (sm.Can e args w).sm.transitions = sm.transitions ∧
    (sm.Can e args w).sm.cbEvent = sm.cbEvent ∧
    (sm.Can e args w).sm.cbState = sm.cbState ∧
    (sm.Can e args w).sm.cbAfter = sm.cbAfter ∧
    (∀ c ∈ (sm.Can e args w).calls, (∀ e', c.hook ≠ .after e') ∧ c.hook ≠ .cbAfter) := by
  have key : (sm.Can e args w).sm = sm ∧
      ∀ c ∈ (sm.Can e args w).calls, (∀ e', c.hook ≠ .after e') ∧ c.hook ≠ .cbAfter := by
    cases hT : sm.transitions.lookup ⟨e, sm.Current⟩ with
    | none =>
      unfold StateMachine.Can
      simp [hT]
    | some dst =>
      rcases Can_trace sm e args w dst hT with ⟨ret, -, -, hsm, hcs⟩ | ⟨-, hsm, hcs⟩
      · obtain ⟨earlier, hk, hcs, hkpre, hearlier, -⟩ := preStopped_split hcs
        refine ⟨hsm, ?_⟩
        intro c hmem
        rw [hcs, List.mem_append, List.mem_singleton] at hmem
        rcases hmem with hmem | rfl
        · obtain ⟨-, -, -, -, hh⟩ := mem_prePassed (hearlier c hmem)
          rcases hh with hh | hh | hh <;> simp [hh]
        · rcases hkpre with hh | hh | hh <;> simp [hh]
      · refine ⟨hsm, ?_⟩
        intro c hmem
        rw [hcs] at hmem
        obtain ⟨-, -, -, -, hh⟩ := mem_prePassed hmem
        rcases hh with hh | hh | hh <;> simp [hh]
  obtain ⟨hsm, hcalls⟩ := key
  refine ⟨hsm, ?_, ?_, ?_, ?_, ?_, hcalls⟩ <;> rw [hsm]

end claims

/-! ## Lemmas on the Go runtime -/

section runtime
variable {ε σ : Type}

/-- Sequencing after code that returned. -/
theorem Result.returned_bind {β γ : Type} (a : β) (f : β → Result γ) :
    (Result.returned a >>= f) = f a := rfl

/-- Sequencing after code that panicked. -/
theorem Result.panicked_bind {β γ : Type} (f : β → Result γ) :
    (Result.panicked >>= f) = Result.panicked := rfl

/-- The value `pure a` is code that returns `a`. -/
theorem Result.pure_eq {β : Type} (a : β) : (pure a : Result β) = Result.returned a := rfl

/-- The table that an option starts from is allocated and has the entries of
the table of the machine. -/
theorem allocated_table (t : transitions ε σ) :
    (if t.isNil then GoMap.make else t).isNil = false ∧
      ∀ k, (if t.isNil then GoMap.make else t).lookup k = t.lookup k := by
  rcases t with ⟨_ | f⟩
  · exact ⟨rfl, fun k => rfl⟩
  · exact ⟨rfl, fun k => rfl⟩

end runtime

section table
variable {ε σ α χ ω : Type} [DecidableEq ε] [DecidableEq σ]

/-- A write to an allocated map returns an allocated map in which the written
key has the written value and every other key its old entry. -/
theorem GoMap.store_allocated {κ ν : Type} [DecidableEq κ] (m : GoMap κ ν) (k : κ) (v : ν)
    (hm : m.isNil = false) :
    ∃ m', m.store k v = .returned m' ∧ m'.isNil = false ∧
      ∀ k', m'.lookup k' = if k' = k then some v else m.lookup k' := by
  rcases m with ⟨_ | f⟩
  · simp [GoMap.isNil] at hm
  · exact ⟨_, rfl, rfl, fun k' => rfl⟩

/-- The inner loop of `WithEvents` and of `WithLoops`, which writes the
destination `g s` for every listed state `s`. -/
theorem store_states (ev : ε) (g : State σ → State σ) (l : States σ) :
    ∀ t : transitions ε σ, t.isNil = false →
      ∃ t', l.foldlM (fun t s => t.store ⟨ev, s⟩ (g s)) t = .returned t' ∧ t'.isNil = false ∧
        ∀ k : node ε σ, t'.lookup k =
          if ev = k.event ∧ k.from_ ∈ l then some (g k.from_) else t.lookup k := by
  induction l with
  | nil => intro t ht; exact ⟨t, rfl, ht, by simp⟩
  | cons s rest ih =>
    intro t ht
    obtain ⟨t1, h1, hn1, hl1⟩ := GoMap.store_allocated t ⟨ev, s⟩ (g s) ht
    obtain ⟨t2, h2, hn2, hl2⟩ := ih t1 hn1
    refine ⟨t2, ?_, hn2, ?_⟩
    · rw [List.foldlM_cons, h1, Result.returned_bind, h2]
    · intro k
      rw [hl2 k, hl1 k]
      rcases k with ⟨ke, kf⟩
      by_cases h3 : ev = ke ∧ kf ∈ rest
      · obtain ⟨rfl, h4⟩ := h3
        simp [h4]
      · by_cases h4 : ev = ke
        · subst h4
          have h5 : kf ∉ rest := fun h => h3 ⟨rfl, h⟩
          by_cases h6 : kf = s
          · subst h6; simp [h5]
          · simp [h5, h6]
        · have h7 : ¬ (ke = ev) := fun h => h4 h.symm
          simp [h4, h7]

/-- The entry left by two lists of descriptors applied one after the other. -/
theorem overwritten_append (a b : List (Descriptor ε σ)) (k : node ε σ)
    (entry : Option (State σ)) :
    overwritten (a ++ b) k entry = overwritten b k (overwritten a k entry) := by
  simp [overwritten, List.foldl_append]

/-- Descriptors that do not write a key leave its entry as it was. -/
theorem overwritten_of_not_written (ds : List (Descriptor ε σ)) (k : node ε σ) :
    ∀ entry : Option (State σ), (∀ d ∈ ds, d.writes k = false) →
      overwritten ds k entry = entry := by
  induction ds with
  | nil => intro entry _; rfl
  | cons d rest ih =>
    intro entry h
    have hd : d.writes k = false := h d (List.mem_cons_self _ _)
    have hrest := ih entry fun d' hd' => h d' (List.mem_cons_of_mem _ hd')
    simpa [overwritten, hd] using hrest

/-- The last descriptor that writes a key decides its entry. -/
theorem overwritten_last (earlier later : List (Descriptor ε σ)) (d : Descriptor ε σ)
    (k : node ε σ) (entry : Option (State σ)) (hd : d.writes k = true)
    (hlater : ∀ d' ∈ later, d'.writes k = false) :
    overwritten (earlier ++ d :: later) k entry = some (d.dest k) := by
  rw [overwritten_append]
  have : overwritten (d :: later) k (overwritten earlier k entry) =
      overwritten later k (some (d.dest k)) := by
    simp [overwritten, hd]
  rw [this, overwritten_of_not_written later k _ hlater]

/-- A key has an entry after the descriptors exactly when it had one before
or some descriptor writes it. -/
theorem overwritten_isSome (ds : List (Descriptor ε σ)) (k : node ε σ) :
    ∀ entry : Option (State σ),
      (overwritten ds k entry).isSome = true ↔
        (entry.isSome = true ∨ ∃ d ∈ ds, d.writes k = true) := by
  induction ds with
  | nil => intro entry; simp [overwritten]
  | cons d rest ih =>
    intro entry
    have step : overwritten (d :: rest) k entry =
        overwritten rest k (if d.writes k then some (d.dest k) else entry) := by
      simp [overwritten]
    rw [step, ih]
    by_cases hd : d.writes k = true
    · simp [hd]
    · simp [hd]

/-- The loop of `WithEvents` over the slice of event descriptors. -/
theorem WithEvents_batch (events : Events ε σ) :
    ∀ t : transitions ε σ, t.isNil = false →
      ∃ t', events.foldlM WithEvents.inner t = .returned t' ∧ t'.isNil = false ∧
        ∀ k : node ε σ, t'.lookup k = overwritten (events.map .event) k (t.lookup k) := by
  induction events with
  | nil => intro t ht; exact ⟨t, rfl, ht, fun k => rfl⟩
  | cons e rest ih =>
    intro t ht
    obtain ⟨t1, h1, hn1, hl1⟩ := store_states e.Event (fun _ => e.To) e.From t ht
    obtain ⟨t2, h2, hn2, hl2⟩ := ih t1 hn1
    refine ⟨t2, ?_, hn2, ?_⟩
    · have hinner : WithEvents.inner t e = .returned t1 := h1
      rw [List.foldlM_cons, hinner, Result.returned_bind, h2]
    · intro k
      rw [hl2 k, hl1 k]
      simp [overwritten, Descriptor.writes, Descriptor.dest]

/-- The loop of `WithLoops` over the slice of loop descriptors. -/
theorem WithLoops_batch (loops : LoopEvents ε σ) :
    ∀ t : transitions ε σ, t.isNil = false →
      ∃ t', loops.foldlM WithLoops.inner t = .returned t' ∧ t'.isNil = false ∧
        ∀ k : node ε σ, t'.lookup k = overwritten (loops.map .loop) k (t.lookup k) := by
  induction loops with
  | nil => intro t ht; exact ⟨t, rfl, ht, fun k => rfl⟩
  | cons e rest ih =>
    intro t ht
    obtain ⟨t1, h1, hn1, hl1⟩ := store_states e.Event (fun s => s) e.Stay t ht
    obtain ⟨t2, h2, hn2, hl2⟩ := ih t1 hn1
    refine ⟨t2, ?_, hn2, ?_⟩
    · have hinner : WithLoops.inner t e = .returned t1 := h1
      rw [List.foldlM_cons, hinner, Result.returned_bind, h2]
    · intro k
      rw [hl2 k, hl1 k]
      simp [overwritten, Descriptor.writes, Descriptor.dest]

/-- A table option returns; it leaves an allocated table in which every key
has the entry left by the descriptors of the option, and it changes nothing
else in the machine. -/
theorem TableOption.option_returns (o : TableOption ε σ) (m : StateMachine ε σ α χ ω) :
    ∃ m', o.option m = .returned m' ∧ m'.transitions.isNil = false ∧
      (∀ k, m'.transitions.lookup k = overwritten o.descriptors k (m.transitions.lookup k)) ∧
      m'.current = m.current ∧ m'.cbEvent = m.cbEvent ∧ m'.cbState = m.cbState ∧
      m'.cbAfter = m.cbAfter := by
  obtain ⟨hn0, hl0⟩ := allocated_table m.transitions
  cases o with
  | withEvents events =>
    obtain ⟨t, ht, hn, hl⟩ := WithEvents_batch events _ hn0
    refine ⟨{ m with transitions := t }, ?_, hn, ?_, rfl, rfl, rfl, rfl⟩
    · simp only [TableOption.option, WithEvents, ht]
    · intro k
      rw [← hl0 k]
      exact hl k
  | withLoops loops =>
    obtain ⟨t, ht, hn, hl⟩ := WithLoops_batch loops _ hn0
    refine ⟨{ m with transitions := t }, ?_, hn, ?_, rfl, rfl, rfl, rfl⟩
    · simp only [TableOption.option, WithLoops, ht]
    · intro k
      rw [← hl0 k]
      exact hl k

/-- A list of table options applied in order returns; every key has the entry
left by the descriptors of the options in application order. -/
theorem tableOptions_return (options : List (TableOption ε σ)) :
    ∀ m : StateMachine ε σ α χ ω,
      ∃ m', (options.map TableOption.option).foldlM (fun sm option => option sm) m =
          .returned m' ∧
        (∀ k, m'.transitions.lookup k =
          overwritten (descriptorsOf options) k (m.transitions.lookup k)) ∧
        m'.current = m.current ∧ m'.cbEvent = m.cbEvent ∧ m'.cbState = m.cbState ∧
        m'.cbAfter = m.cbAfter := by
  induction options with
  | nil => intro m; exact ⟨m, rfl, fun k => rfl, rfl, rfl, rfl, rfl⟩
  | cons o rest ih =>
    intro m
    obtain ⟨m1, h1, -, hl1, hc1, he1, hs1, ha1⟩ := o.option_returns m
    obtain ⟨m2, h2, hl2, hc2, he2, hs2, ha2⟩ := ih m1
    refine ⟨m2, ?_, ?_, hc2.trans hc1, he2.trans he1, hs2.trans hs1, ha2.trans ha1⟩
    · rw [List.map_cons, List.foldlM_cons, h1, Result.returned_bind, h2]
    · intro k
      rw [hl2 k, hl1 k, descriptorsOf, overwritten_append]

/-- Among the descriptors that write a key there is a last one. -/
theorem exists_last_writer (ds : List (Descriptor ε σ)) (k : node ε σ) :
    (∃ d ∈ ds, d.writes k = true) →
      ∃ earlier d later, ds = earlier ++ d :: later ∧ d.writes k = true ∧
        ∀ d' ∈ later, d'.writes k = false := by
  induction ds with
  | nil => intro h; simp at h
  | cons a rest ih =>
    intro h
    by_cases hrest : ∃ d ∈ rest, d.writes k = true
    · obtain ⟨earlier, d, later, hsplit, hd, hlater⟩ := ih hrest
      exact ⟨a :: earlier, d, later, by rw [hsplit]; rfl, hd, hlater⟩
    · have ha : a.writes k = true := by
        obtain ⟨d, hmem, hd⟩ := h
        rcases List.mem_cons.mp hmem with rfl | hmem
        · exact hd
        · exact absurd ⟨d, hmem, hd⟩ hrest
      refine ⟨[], a, rest, rfl, ha, ?_⟩
      intro d' hd'
      by_contra hcon
      exact hrest ⟨d', hd', by simpa using hcon⟩

/-- A key that some descriptor writes has, afterwards, the destination given
by one of the descriptors that write it. -/
theorem overwritten_of_written (ds : List (Descriptor ε σ)) (k : node ε σ)
    (entry : Option (State σ)) (h : ∃ d ∈ ds, d.writes k = true) :
    ∃ d ∈ ds, d.writes k = true ∧ overwritten ds k entry = some (d.dest k) := by
  obtain ⟨earlier, d, later, hsplit, hd, hlater⟩ := exists_last_writer ds k h
  refine ⟨d, by rw [hsplit]; simp, hd, ?_⟩
  rw [hsplit]
  exact overwritten_last earlier later d k entry hd hlater

end table

section construction
variable {ε σ α χ ω : Type} [DecidableEq ε] [DecidableEq σ]

/-- C9: for every list of `WithEvents` and `WithLoops` options given to `New`
and every key, when `d` is the last descriptor in application order that
writes the key, `New` returns a machine, without panic, whose transition table
maps the key to the destination given by `d` (`To` for an event descriptor,
the stay state itself for a loop descriptor), whatever the descriptors before
`d` wrote: a different destination given by an earlier descriptor is not what
the key maps to. -/
theorem New_last_registration_wins (options : List (TableOption ε σ)) (k : node ε σ)
    (earlier later : List (Descriptor ε σ)) (d : Descriptor ε σ)
    (hsplit : descriptorsOf options = earlier ++ d :: later)
    (hd : d.writes k = true)
    (hlater : ∀ d' ∈ later, d'.writes k = false) :
    ∃ sm : StateMachine ε σ α χ ω,
      New (options.map TableOption.option) = .returned sm ∧
      sm.transitions.lookup k = some (d.dest k) ∧
      ∀ d' ∈ earlier, d'.writes k = true → d'.dest k ≠ d.dest k →
        sm.transitions.lookup k ≠ some (d'.dest k) := by
  obtain ⟨sm, hnew, hl, -⟩ := tableOptions_return (α := α) (χ := χ) (ω := ω) options
    zeroStateMachine
  have hk : sm.transitions.lookup k = some (d.dest k) := by
    rw [hl k, hsplit]
    exact overwritten_last earlier later d k _ hd hlater
  refine ⟨sm, hnew, hk, ?_⟩
  intro d' _ _ hne hcon
  rw [hk] at hcon
  exact hne (Option.some.inj hcon).symm

/-- C10: a machine built by `New` from `WithEvents` and `WithLoops` options
has an entry for a key exactly when some event descriptor has the event of
the key and lists its state in `From`, or some loop descriptor has the event
of the key and lists its state in `Stay`. `WithLoops` maps every key that a
loop descriptor lists to the state of the key, `WithEvents` maps every key
that an event descriptor lists to the `To` of a descriptor listing it, and
each of the two leaves as they were the entry of every key that none of its
descriptors lists and the other fields of the machine. -/
theorem New_table_entries :
    (∀ (options : List (TableOption ε σ)) (k : node ε σ),
      ∃ sm : StateMachine ε σ α χ ω,
        New (options.map TableOption.option) = .returned sm ∧
        ((sm.transitions.lookup k).isSome = true ↔
          ((∃ events d, TableOption.withEvents events ∈ options ∧ d ∈ events ∧
              d.Event = k.event ∧ k.from_ ∈ d.From) ∨
           (∃ loops d, TableOption.withLoops loops ∈ options ∧ d ∈ loops ∧
              d.Event = k.event ∧ k.from_ ∈ d.Stay)))) ∧
    (∀ (m : StateMachine ε σ α χ ω) (loops : LoopEvents ε σ),
      ∃ m', WithLoops loops m = .returned m' ∧
        (∀ d ∈ loops, ∀ s ∈ d.Stay, m'.transitions.lookup ⟨d.Event, s⟩ = some s) ∧
        (∀ k : node ε σ, (∀ d ∈ loops, ¬ (d.Event = k.event ∧ k.from_ ∈ d.Stay)) →
          m'.transitions.lookup k = m.transitions.lookup k) ∧
        m'.current = m.current ∧ m'.cbEvent = m.cbEvent ∧ m'.cbState = m.cbState ∧
        m'.cbAfter = m.cbAfter) ∧
    (∀ (m : StateMachine ε σ α χ ω) (events : Events ε σ),
      ∃ m', WithEvents events m = .returned m' ∧
        (∀ d ∈ events, ∀ s ∈ d.From, ∃ d' ∈ events, d'.Event = d.Event ∧ s ∈ d'.From ∧
          m'.transitions.lookup ⟨d.Event, s⟩ = some d'.To) ∧
        (∀ k : node ε σ, (∀ d ∈ events, ¬ (d.Event = k.event ∧ k.from_ ∈ d.From)) →
          m'.transitions.lookup k = m.transitions.lookup k) ∧
        m'.current = m.current ∧ m'.cbEvent = m.cbEvent ∧ m'.cbState = m.cbState ∧
        m'.cbAfter = m.cbAfter) := by
  refine ⟨?_, ?_, ?_⟩
  · intro options k
    obtain ⟨sm, hnew, hl, -⟩ := tableOptions_return (α := α) (χ := χ) (ω := ω) options
      zeroStateMachine
    refine ⟨sm, hnew, ?_⟩
    rw [hl k, overwritten_isSome]
    have hzero : ((zeroStateMachine : StateMachine ε σ α χ ω).transitions.lookup k).isSome
        = false := rfl
    rw [hzero]
    have hmem : ∀ (os : List (TableOption ε σ)) (d : Descriptor ε σ),
        d ∈ descriptorsOf os ↔ ∃ o ∈ os, d ∈ o.descriptors := by
      intro os d
      induction os with
      | nil => simp [descriptorsOf]
      | cons o rest ih => simp [descriptorsOf, ih]
    constructor
    · rintro (h | ⟨d, hd, hw⟩)
      · simp at h
      · obtain ⟨o, ho, hdo⟩ := (hmem options d).mp hd
        cases o with
        | withEvents events =>
          simp only [TableOption.descriptors, List.mem_map] at hdo
          obtain ⟨e, he, rfl⟩ := hdo
          simp only [Descriptor.writes, decide_eq_true_eq] at hw
          exact Or.inl ⟨events, e, ho, he, hw.1, hw.2⟩
        | withLoops loops =>
          simp only [TableOption.descriptors, List.mem_map] at hdo
          obtain ⟨e, he, rfl⟩ := hdo
          simp only [Descriptor.writes, decide_eq_true_eq] at hw
          exact Or.inr ⟨loops, e, ho, he, hw.1, hw.2⟩
    · rintro (⟨events, d, ho, hd, h1, h2⟩ | ⟨loops, d, ho, hd, h1, h2⟩)
      · refine Or.inr ⟨.event d, (hmem options _).mpr ⟨_, ho, ?_⟩, ?_⟩
        · simp only [TableOption.descriptors, List.mem_map]
          exact ⟨d, hd, rfl⟩
        · simp [Descriptor.writes, h1, h2]
      · refine Or.inr ⟨.loop d, (hmem options _).mpr ⟨_, ho, ?_⟩, ?_⟩
        · simp only [TableOption.descriptors, List.mem_map]
          exact ⟨d, hd, rfl⟩
        · simp [Descriptor.writes, h1, h2]
  · intro m loops
    obtain ⟨m', hret, -, hl, hc, he, hs, ha⟩ := (TableOption.withLoops loops).option_returns m
    refine ⟨m', hret, ?_, ?_, hc, he, hs, ha⟩
    · intro d hd s hs
      have hw : ∃ d' ∈ (TableOption.withLoops loops).descriptors,
          d'.writes ⟨d.Event, s⟩ = true :=
        ⟨.loop d, by simp only [TableOption.descriptors, List.mem_map]; exact ⟨d, hd, rfl⟩,
          by simp [Descriptor.writes, hs]⟩
      obtain ⟨d', hd', -, hov⟩ := overwritten_of_written _ ⟨d.Event, s⟩
        (m.transitions.lookup ⟨d.Event, s⟩) hw
      rw [hl, hov]
      simp only [TableOption.descriptors, List.mem_map] at hd'
      obtain ⟨e, -, rfl⟩ := hd'
      rfl
    · intro k hk
      rw [hl k]
      apply overwritten_of_not_written
      intro d' hd'
      simp only [TableOption.descriptors, List.mem_map] at hd'
      obtain ⟨e, he, rfl⟩ := hd'
      simpa [Descriptor.writes] using hk e he
  · intro m events
    obtain ⟨m', hret, -, hl, hc, he, hs, ha⟩ := (TableOption.withEvents events).option_returns m
    refine ⟨m', hret, ?_, ?_, hc, he, hs, ha⟩
    · intro d hd s hs
      have hw : ∃ d' ∈ (TableOption.withEvents events).descriptors,
          d'.writes ⟨d.Event, s⟩ = true :=
        ⟨.event d, by simp only [TableOption.descriptors, List.mem_map]; exact ⟨d, hd, rfl⟩,
          by simp [Descriptor.writes, hs]⟩
      obtain ⟨d', hd', hw', hov⟩ := overwritten_of_written _ ⟨d.Event, s⟩
        (m.transitions.lookup ⟨d.Event, s⟩) hw
      simp only [TableOption.descriptors, List.mem_map] at hd'
      obtain ⟨e, he, rfl⟩ := hd'
      simp only [Descriptor.writes, decide_eq_true_eq] at hw'
      exact ⟨e, he, hw'.1, hw'.2, by rw [hl, hov]; rfl⟩
    · intro k hk
      rw [hl k]
      apply overwritten_of_not_written
      intro d' hd'
      simp only [TableOption.descriptors, List.mem_map] at hd'
      obtain ⟨e, he, rfl⟩ := hd'
      simpa [Descriptor.writes] using hk e he

end construction

/-! ## The claims on the machine of `ssm_test.go` -/

section witnesses
open test

/-- Scenario A of the specification, first step: `Event(loop)` from `StateA`
returns nil, calls no callback and stays in `StateA`. -/
theorem Reset_event_loop :
    ((built Reset).Event .EventLoop [] []).result = .returned none ∧
    ((built Reset).Event .EventLoop [] []).calls = [] ∧
    ((built Reset).Event .EventLoop [] []).sm.Current = some .StateA := by
  decide

/-- Scenario A of the specification, second step, as in `TestTransition`:
`Event(a-b)` from `StateA` returns nil, moves to `StateB`, and prints what
the four registered callbacks print, in the order of the calls. -/
theorem Reset_event_a_b :
    ((built Reset).Event .EventAtoB [⟨"Hello"⟩] []).result = .returned none ∧
    ((built Reset).Event .EventAtoB [⟨"Hello"⟩] []).sm.Current = some .StateB ∧
    ((built Reset).Event .EventAtoB [⟨"Hello"⟩] []).world =
      [("before_a-b", some .StateA), ("enter_b", some .StateA),
       ("after_a-b", some .StateB), ("", some .StateB)] := by
  decide

/-- The test `TestCan`: from `StateA`, `Can(a-b)` is true and `Can(b-c)` is
false with an `InvalidTransitionError`. -/
theorem Reset_can :
    ((built Reset).Can .EventAtoB [] []).result = .returned (true, none) ∧
    ((built Reset).Can .EventBtoC [] []).result =
      .returned (false, some (.InvalidTransitionError .EventBtoC (some .StateA))) := by
  decide

/-- Scenario B of the specification: the `Before` callback of `a-b` returns an
error; `Event(a-b)` from `StateA` returns that error and stays in `StateA`. -/
theorem scenarioB_event_a_b :
    ((built scenarioB).Event .EventAtoB [] []).result = .returned (some (.other "refused")) ∧
    ((built scenarioB).Event .EventAtoB [] []).sm.Current = some .StateA := by
  decide

/-- C1 on the machine of `Reset`: `b-c` has no entry from `StateA`. -/
theorem Event_invalid_transition_witness :
    (built Reset).transitions.lookup ⟨.EventBtoC, (built Reset).Current⟩ = none ∧
    ((built Reset).Event .EventBtoC [] []).result =
      .returned (some (.InvalidTransitionError .EventBtoC (built Reset).Current)) ∧
    ((built Reset).Event .EventBtoC [] []).calls = [] :=
  ⟨by decide,
    (Event_invalid_transition (built Reset) .EventBtoC [] [] (by decide)).1,
    (Event_invalid_transition (built Reset) .EventBtoC [] [] (by decide)).2.1⟩

/-- C2 on the machine of `Reset`: `a-b` from `StateA`, as in
`TestTransition`. -/
theorem Event_reaches_destination_witness :
    (built Reset).transitions.lookup ⟨.EventAtoB, (built Reset).Current⟩ = some (some .StateB) ∧
    (∀ c ∈ ((built Reset).Event .EventAtoB [⟨"Hello"⟩] []).calls, c.ret = .returned none) ∧
    ((built Reset).Event .EventAtoB [⟨"Hello"⟩] []).result = .returned none ∧
    ((built Reset).Event .EventAtoB [⟨"Hello"⟩] []).sm.Current = some .StateB :=
  ⟨by decide, by decide,
    Event_reaches_destination (built Reset) .EventAtoB [⟨"Hello"⟩] [] (some .StateB)
      (by decide) (by decide)⟩

/-- C5 on scenario B: the `Before` callback of `a-b` returns an error. -/
theorem Event_pre_hook_error_witness :
    (built scenarioB).transitions.lookup ⟨.EventAtoB, (built scenarioB).Current⟩ =
      some (some .StateB) ∧
    (⟨.before .EventAtoB, some .StateA, [], .returned (some (.other "refused"))⟩ :
      Call event state Info String) ∈ ((built scenarioB).Event .EventAtoB [] []).calls ∧
    ((built scenarioB).Event .EventAtoB [] []).result = .returned (some (.other "refused")) ∧
    ((built scenarioB).Event .EventAtoB [] []).sm.Current = (built scenarioB).Current :=
  ⟨by decide, by decide,
    (Event_pre_hook_error (built scenarioB) .EventAtoB [] [] (some .StateB)
      ⟨.before .EventAtoB, some .StateA, [], .returned (some (.other "refused"))⟩
      (.other "refused") (by decide) (by decide) (Or.inl rfl) rfl).1,
    (Event_pre_hook_error (built scenarioB) .EventAtoB [] [] (some .StateB)
      ⟨.before .EventAtoB, some .StateA, [], .returned (some (.other "refused"))⟩
      (.other "refused") (by decide) (by decide) (Or.inl rfl) rfl).2.2.2.2.2⟩

/-- C6 on the machine whose `After` callback of `a-b` returns an error. -/
theorem Event_post_hook_error_witness :
    (built afterFails).transitions.lookup ⟨.EventAtoB, (built afterFails).Current⟩ =
      some (some .StateB) ∧
    some state.StateB ≠ (built afterFails).Current ∧
    (⟨.after .EventAtoB, some .StateB, [], .returned (some (.other "too late"))⟩ :
      Call event state Info String) ∈ ((built afterFails).Event .EventAtoB [] []).calls ∧
    ((built afterFails).Event .EventAtoB [] []).result = .returned (some (.other "too late")) ∧
    ((built afterFails).Event .EventAtoB [] []).sm.Current = some .StateB :=
  ⟨by decide, by decide, by decide,
    ((Event_post_hook_error (built afterFails) .EventAtoB [] [] (some .StateB)
      (by decide) (by decide)).1
      ⟨.after .EventAtoB, some .StateB, [], .returned (some (.other "too late"))⟩
      (by decide) (.other "too late") (Or.inl rfl) rfl).1,
    ((Event_post_hook_error (built afterFails) .EventAtoB [] [] (some .StateB)
      (by decide) (by decide)).1
      ⟨.after .EventAtoB, some .StateB, [], .returned (some (.other "too late"))⟩
      (by decide) (.other "too late") (Or.inl rfl) rfl).2.1⟩

/-- C9 on the table options of `Reset` followed by an event descriptor that
writes the key of `loop` in `StateA` again: the later destination `StateC`
replaces the earlier `StateA`. -/
theorem New_last_registration_wins_witness :
    ∃ sm : StateMachine event state Info String Stdout,
      New (rewritten.map TableOption.option) = .returned sm ∧
      sm.transitions.lookup ⟨.EventLoop, some .StateA⟩ = some (some .StateC) ∧
      sm.transitions.lookup ⟨.EventLoop, some .StateA⟩ ≠ some (some .StateA) := by
  obtain ⟨sm, h1, h2, h3⟩ := New_last_registration_wins (α := Info) (χ := String) (ω := Stdout)
    rewritten ⟨.EventLoop, some .StateA⟩
    [.event ⟨.EventAtoB, [some .StateA], some .StateB⟩,
     .event ⟨.EventBtoC, [some .StateB], some .StateC⟩,
     .loop ⟨.EventLoop, [some .StateA, some .StateB]⟩]
    [] (.event ⟨.EventLoop, [some .StateA], some .StateC⟩) rfl (by decide) (by simp)
  exact ⟨sm, h1, h2, h3 (.loop ⟨.EventLoop, [some .StateA, some .StateB]⟩) (by simp)
    (by decide) (by decide)⟩

/-- C10 on the table options of `Reset`: the key of `loop` in `StateB` is
listed by the loop descriptor, so it has an entry. -/
theorem New_table_entries_witness :
    ∃ sm : StateMachine event state Info String Stdout,
      New (tableOptions.map TableOption.option) = .returned sm ∧
      (sm.transitions.lookup ⟨.EventLoop, some .StateB⟩).isSome = true := by
  obtain ⟨sm, h1, h2⟩ := (New_table_entries (α := Info) (χ := String) (ω := Stdout)).1
    tableOptions ⟨.EventLoop, some .StateB⟩
  refine ⟨sm, h1, h2.mpr (Or.inr ⟨[⟨.EventLoop, [some .StateA, some .StateB]⟩],
    ⟨.EventLoop, [some .StateA, some .StateB]⟩, ?_, ?_, rfl, ?_⟩)⟩
  · simp [tableOptions]
  · simp
  · simp

end witnesses


/-! ## What every call is given -/

section given
variable {ε σ α χ ω : Type}

/-- A hook block records at most one call, of its own hook, with the state and
the arguments it was given, and the call answers the slot of the block. -/
theorem hookBlock_calls (slot : Option (callbackFn ε σ α χ ω)) (h : Hook ε σ)
    (cur : State σ) (args : List α) (r : Run ε σ α χ ω) :
    (hookBlock slot h cur args r).1.calls = r.calls ∨
    ∃ c, (hookBlock slot h cur args r).1.calls = r.calls ++ [c] ∧
      c.hook = h ∧ c.current = cur ∧ c.args = args ∧ Answers slot c := by
  unfold hookBlock
  cases slot with
  | none => left; rfl
  | some cb =>
    right
    cases cb with
    | none =>
      exact ⟨⟨h, cur, args, .panicked⟩, rfl, rfl, rfl, rfl, Or.inl ⟨rfl, rfl⟩⟩
    | some f =>
      simp only [callbackFn.call]
      rcases hf : f cur args r.world with ⟨err, w⟩
      refine ⟨⟨h, cur, args, .returned err⟩, ?_, rfl, rfl, rfl, Or.inr ⟨f, r.world, rfl, ?_⟩⟩
      · cases err <;> rfl
      · simp [hf]

/-- Every call recorded by a run of hook blocks was there before the run or is
the call of a hook of the run, with the state due to it and the arguments of
the run, and answers the slot of that hook. -/
theorem runHooks_calls (args : List α) (plan : List (Due ε σ α χ ω)) :
    ∀ (r : Run ε σ α χ ω), ∀ c ∈ (runHooks args plan r).1.calls,
      c ∈ r.calls ∨ ∃ d ∈ plan, c.hook = d.hook ∧ c.current = d.current ∧ c.args = args ∧
        Answers d.slot c := by
  induction plan with
  | nil => intro r c hc; exact Or.inl hc
  | cons d rest ih =>
    intro r c hc
    have hb := hookBlock_calls d.slot d.hook d.current args r
    unfold runHooks at hc
    rcases hblock : hookBlock d.slot d.hook d.current args r with ⟨r1, _ | stop⟩
    · rw [hblock] at hc hb
      simp only at hc hb
      rcases ih r1 c hc with h1 | ⟨d', hd', h'⟩
      · rcases hb with hb | ⟨c', hb, h'⟩
        · exact Or.inl (hb ▸ h1)
        · rw [hb, List.mem_append, List.mem_singleton] at h1
          rcases h1 with h1 | rfl
          · exact Or.inl h1
          · exact Or.inr ⟨d, List.mem_cons_self _ _, h'⟩
      · exact Or.inr ⟨d', List.mem_cons_of_mem _ hd', h'⟩
    · rw [hblock] at hc hb
      simp only at hc hb
      rcases hb with hb | ⟨c', hb, h'⟩
      · exact Or.inl (hb ▸ hc)
      · rw [hb, List.mem_append, List.mem_singleton] at hc
        rcases hc with hc | rfl
        · exact Or.inl hc
        · exact Or.inr ⟨d, List.mem_cons_self _ _, h'⟩

end given

section arguments
variable {ε σ α χ ω : Type} [DecidableEq ε] [DecidableEq σ]

/-- Every call that `Event` makes on a registered transition is the call of a
hook due before or after the change of state; the hooks due after it are
called only when the destination differs from the current state. -/
theorem Event_calls_due (sm : StateMachine ε σ α χ ω) (e : ε) (args : List α) (w : ω)
    (dst : State σ) (hT : sm.transitions.lookup ⟨e, sm.Current⟩ = some dst) :
    ∀ c ∈ (sm.Event e args w).calls,
      (∃ d ∈ sm.preHooks e dst, c.hook = d.hook ∧ c.current = d.current ∧ c.args = args ∧
        Answers d.slot c) ∨
      (dst ≠ sm.Current ∧ ∃ d ∈ sm.postHooks e dst, c.hook = d.hook ∧ c.current = d.current ∧
        c.args = args ∧ Answers d.slot c) := by
  intro c hc
  rw [Event_eq_runHooks sm e args w dst hT] at hc
  have hpre := runHooks_calls args (sm.preHooks e dst) ⟨w, []⟩
  rcases hrun : runHooks args (sm.preHooks e dst) ⟨w, []⟩ with ⟨r, _ | stop⟩
  · rw [hrun] at hc hpre
    simp only at hc hpre
    by_cases hd : dst = sm.Current
    · rw [if_pos hd] at hc
      rcases hpre c hc with h | h
      · simp at h
      · exact Or.inl h
    · rw [if_neg hd] at hc
      have hpost := runHooks_calls args (sm.postHooks e dst) r
      rcases hrun2 : runHooks args (sm.postHooks e dst) r with ⟨r1, _ | stop⟩ <;>
        rw [hrun2] at hc hpost <;> simp only at hc hpost
      all_goals
        rcases hpost c hc with h | h
        · rcases hpre c h with h | h
          · simp at h
          · exact Or.inl h
        · exact Or.inr ⟨hd, h⟩
  · rw [hrun] at hc hpre
    simp only at hc hpre
    rcases hpre c hc with h | h
    · simp at h
    · exact Or.inl h

/-- Every call that `Can` makes on a registered transition is the call of a
hook due before the change of state. -/
theorem Can_calls_due (sm : StateMachine ε σ α χ ω) (e : ε) (args : List α) (w : ω)
    (dst : State σ) (hT : sm.transitions.lookup ⟨e, sm.Current⟩ = some dst) :
    ∀ c ∈ (sm.Can e args w).calls,
      ∃ d ∈ sm.preHooks e dst, c.hook = d.hook ∧ c.current = d.current ∧ c.args = args ∧
        Answers d.slot c := by
  intro c hc
  rw [Can_eq_runHooks sm e args w dst hT] at hc
  have hpre := runHooks_calls args (sm.preHooks e dst) ⟨w, []⟩
  rcases hrun : runHooks args (sm.preHooks e dst) ⟨w, []⟩ with ⟨r, _ | stop⟩ <;>
    rw [hrun] at hc hpre <;> simp only at hc hpre
  all_goals
    rcases hpre c hc with h | h
    · simp at h
    · exact h

/-- With callbacks that do not write the argument slice: on a registered
transition from `src` to `dst`, every call that `Event` makes is given the
arguments of `Event`, and its result is
what the callback registered for its hook does on the state and arguments
recorded for it; the calls of `Before(e)`, `Enter(dst)` and `Leave(src)` are
given `src`, the state before the transition, and the calls of `After(e)` and
of the global after callback, made only when `dst` differs from `src`, are
given `dst`. Every call that `Can` makes is a call of `Before(e)`,
`Enter(dst)` or `Leave(src)` and is given `src` and the arguments of `Can`. -/
theorem Event_calls_given (sm : StateMachine ε σ α χ ω) (e : ε) (args : List α) (w : ω)
    (dst : State σ) (hT : sm.transitions.lookup ⟨e, sm.Current⟩ = some dst) :
    (∀ c ∈ (sm.Event e args w).calls,
      c.args = args ∧ Answers (sm.slot c.hook) c ∧
      (((c.hook = .before e ∨ c.hook = .enter dst ∨ c.hook = .leave sm.Current) ∧
          c.current = sm.Current) ∨
        ((c.hook = .after e ∨ c.hook = .cbAfter) ∧ c.current = dst ∧ dst ≠ sm.Current))) ∧
    (∀ c ∈ (sm.Can e args w).calls,
      c.args = args ∧ Answers (sm.slot c.hook) c ∧
      (c.hook = .before e ∨ c.hook = .enter dst ∨ c.hook = .leave sm.Current) ∧
      c.current = sm.Current) := by
  constructor
  · intro c hc
    rcases Event_calls_due sm e args w dst hT c hc with
      ⟨d, hd, hh, hcur, hargs, hans⟩ | ⟨hne, d, hd, hh, hcur, hargs, hans⟩
    · simp only [StateMachine.preHooks, List.mem_cons, List.mem_singleton,
        List.not_mem_nil, or_false] at hd
      rcases hd with rfl | rfl | rfl
      · exact ⟨hargs, by rw [hh]; exact hans, Or.inl ⟨Or.inl hh, hcur⟩⟩
      · exact ⟨hargs, by rw [hh]; exact hans, Or.inl ⟨Or.inr (Or.inl hh), hcur⟩⟩
      · exact ⟨hargs, by rw [hh]; exact hans, Or.inl ⟨Or.inr (Or.inr hh), hcur⟩⟩
    · simp only [StateMachine.postHooks, List.mem_cons, List.mem_singleton,
        List.not_mem_nil, or_false] at hd
      rcases hd with rfl | rfl
      · exact ⟨hargs, by rw [hh]; exact hans, Or.inr ⟨Or.inl hh, hcur, hne⟩⟩
      · exact ⟨hargs, by rw [hh]; exact hans, Or.inr ⟨Or.inr hh, hcur, hne⟩⟩
  · intro c hc
    obtain ⟨d, hd, hh, hcur, hargs, hans⟩ := Can_calls_due sm e args w dst hT c hc
    simp only [StateMachine.preHooks, List.mem_cons, List.mem_singleton,
      List.not_mem_nil, or_false] at hd
    rcases hd with rfl | rfl | rfl
    · exact ⟨hargs, by rw [hh]; exact hans, Or.inl hh, hcur⟩
    · exact ⟨hargs, by rw [hh]; exact hans, Or.inr (Or.inl hh), hcur⟩
    · exact ⟨hargs, by rw [hh]; exact hans, Or.inr (Or.inr hh), hcur⟩

end arguments

/-! ## How the current state changes -/

section change
variable {ε σ α χ ω : Type} [DecidableEq ε] [DecidableEq σ]

/-- The machine after `Event` is the machine before it, or the machine before
it with the current state set to the destination of the entry used. -/
theorem Event_machine (sm : StateMachine ε σ α χ ω) (e : ε) (args : List α) (w : ω) :
    (sm.Event e args w).sm = sm ∨
    ∃ dst, sm.transitions.lookup ⟨e, sm.Current⟩ = some dst ∧ dst ≠ sm.Current ∧
      (sm.Event e args w).sm = { sm with current := dst } := by
  cases hT : sm.transitions.lookup ⟨e, sm.Current⟩ with
  | none =>
    left
    unfold StateMachine.Event
    simp [hT]
  | some dst =>
    rcases Event_trace sm e args w dst hT with
      ⟨_, -, -, hsm, -⟩ | ⟨-, -, hsm, -⟩ | ⟨hd, _, -, -, hsm, -⟩ | ⟨hd, -, hsm, -⟩
    · exact Or.inl hsm
    · exact Or.inl hsm
    · exact Or.inr ⟨dst, rfl, hd, hsm⟩
    · exact Or.inr ⟨dst, rfl, hd, hsm⟩

/-- C12, as amended: when the current state after `Event` differs from the
current state before it, the table entry used has a destination different
from the source, the current state afterwards is that destination, every call
of `Before`, `Enter` and `Leave` returned the nil error, and `Event` returned
nil or ended with what its last call did, that call being the call of
`After(e)` or of the global after callback and not returning the nil error. -/
theorem Event_state_change (sm : StateMachine ε σ α χ ω) (e : ε) (args : List α) (w : ω)
    (hch : (sm.Event e args w).sm.Current ≠ sm.Current) :
    ∃ dst, sm.transitions.lookup ⟨e, sm.Current⟩ = some dst ∧ dst ≠ sm.Current ∧
      (sm.Event e args w).sm.Current = dst ∧
      (∀ c ∈ (sm.Event e args w).calls, c.hook.pre = true → c.ret = .returned none) ∧
      ((sm.Event e args w).result = .returned none ∨
        ∃ earlier c, (sm.Event e args w).calls = earlier ++ [c] ∧
          (c.hook = .after e ∨ c.hook = .cbAfter) ∧ c.ret ≠ .returned none ∧
          (sm.Event e args w).result = c.ret) := by
  cases hT : sm.transitions.lookup ⟨e, sm.Current⟩ with
  | none =>
    exfalso
    apply hch
    unfold StateMachine.Event
    simp [hT]
  | some dst =>
    rcases Event_trace sm e args w dst hT with
      ⟨_, -, -, hsm, -⟩ | ⟨-, -, hsm, -⟩ | ⟨hd, ret, hret, hres, hsm, hcs⟩ | ⟨hd, hres, hsm, hcs⟩
    · exact absurd (by rw [hsm]) hch
    · exact absurd (by rw [hsm]) hch
    · refine ⟨dst, rfl, hd, by rw [hsm]; rfl, ?_, Or.inr ?_⟩
      · intro c hc hp
        rcases hcs with ⟨-, hcs⟩ | ⟨-, hcs⟩
        · rw [hcs, List.mem_append, List.mem_singleton] at hc
          rcases hc with hc | rfl
          · exact (mem_prePassed hc).1
          · simp [Hook.pre] at hp
        · rw [hcs, List.mem_append, List.mem_append, List.mem_singleton, mem_passed] at hc
          rcases hc with (hc | ⟨-, rfl⟩) | rfl
          · exact (mem_prePassed hc).1
          · rfl
          · simp [Hook.pre] at hp
      · rcases hcs with ⟨-, hcs⟩ | ⟨-, hcs⟩
        · exact ⟨_, ⟨.after e, dst, args, ret⟩, hcs, Or.inl rfl, hret, hres⟩
        · exact ⟨_, ⟨.cbAfter, dst, args, ret⟩, hcs, Or.inr rfl, hret, hres⟩
    · refine ⟨dst, rfl, hd, by rw [hsm]; rfl, ?_, Or.inl hres⟩
      intro c hc _
      rw [hcs, List.mem_append, List.mem_append, mem_passed, mem_passed] at hc
      rcases hc with (hc | ⟨-, rfl⟩) | ⟨-, rfl⟩
      · exact (mem_prePassed hc).1
      · rfl
      · rfl

/-- One call of `Event` or `Can` leaves the transition table, the callback
registries and the global after callback as they were, and the current state
as it was or at a destination stored in the table. -/
theorem step_frame (st : StateMachine ε σ α χ ω × ω) (op : Op ε α) :
    (StateMachine.step st op).1.transitions = st.1.transitions ∧
    (StateMachine.step st op).1.cbEvent = st.1.cbEvent ∧
    (StateMachine.step st op).1.cbState = st.1.cbState ∧
    (StateMachine.step st op).1.cbAfter = st.1.cbAfter ∧
    ((StateMachine.step st op).1.Current = st.1.Current ∨
      ∃ k, st.1.transitions.lookup k = some (StateMachine.step st op).1.Current) := by
  cases op with
  | Event e args =>
    simp only [StateMachine.step]
    rcases Event_machine st.1 e args st.2 with h | ⟨dst, hT, -, h⟩
    · rw [h]; exact ⟨rfl, rfl, rfl, rfl, Or.inl rfl⟩
    · rw [h]; exact ⟨rfl, rfl, rfl, rfl, Or.inr ⟨_, hT⟩⟩
  | Can e args =>
    simp only [StateMachine.step]
    rw [(Can_frame st.1 e args st.2).1]
    exact ⟨rfl, rfl, rfl, rfl, Or.inl rfl⟩

/-- A sequence of calls of `Event` and `Can` leaves the transition table, the
callback registries and the global after callback as they were, and the
current state at the initial state or at a destination stored in the table. -/
theorem run_frame (sm : StateMachine ε σ α χ ω) (ops : List (Op ε α)) :
    ∀ st : StateMachine ε σ α χ ω × ω,
      st.1.transitions = sm.transitions → st.1.cbEvent = sm.cbEvent →
      st.1.cbState = sm.cbState → st.1.cbAfter = sm.cbAfter →
      (st.1.Current = sm.Current ∨ ∃ k, sm.transitions.lookup k = some st.1.Current) →
      (ops.foldl StateMachine.step st).1.transitions = sm.transitions ∧
      (ops.foldl StateMachine.step st).1.cbEvent = sm.cbEvent ∧
      (ops.foldl StateMachine.step st).1.cbState = sm.cbState ∧
      (ops.foldl StateMachine.step st).1.cbAfter = sm.cbAfter ∧
      ((ops.foldl StateMachine.step st).1.Current = sm.Current ∨
        ∃ k, sm.transitions.lookup k = some (ops.foldl StateMachine.step st).1.Current) := by
  induction ops with
  | nil => intro st h1 h2 h3 h4 h5; exact ⟨h1, h2, h3, h4, h5⟩
  | cons op rest ih =>
    intro st h1 h2 h3 h4 h5
    obtain ⟨g1, g2, g3, g4, g5⟩ := step_frame st op
    rw [List.foldl_cons]
    refine ih _ (g1.trans h1) (g2.trans h2) (g3.trans h3) (g4.trans h4) ?_
    rcases g5 with g5 | ⟨k, g5⟩
    · rw [g5]; exact h5
    · rw [h1] at g5; exact Or.inr ⟨k, g5⟩

/-- C18: after any sequence of calls of `Event` and `Can` on a machine, with
any events, arguments and callbacks, the current state is the state the
machine started in or a destination stored in its transition table, and the
table, the registries and the global after callback are those it started
with; and when a further call `Event(e)` changes the current state from `src`
to `dst`, the table maps `(e, src)` to `dst`. -/
theorem run_reachable (sm : StateMachine ε σ α χ ω) (w : ω) (ops : List (Op ε α)) :
    ((sm.run w ops).1.Current = sm.Current ∨
      ∃ k, sm.transitions.lookup k = some (sm.run w ops).1.Current) ∧
    (sm.run w ops).1.transitions = sm.transitions ∧
    (sm.run w ops).1.cbEvent = sm.cbEvent ∧
    (sm.run w ops).1.cbState = sm.cbState ∧
    (sm.run w ops).1.cbAfter = sm.cbAfter ∧
    (∀ (e : ε) (args : List α),
      ((sm.run w ops).1.Event e args (sm.run w ops).2).sm.Current ≠ (sm.run w ops).1.Current →
        sm.transitions.lookup ⟨e, (sm.run w ops).1.Current⟩ =
          some ((sm.run w ops).1.Event e args (sm.run w ops).2).sm.Current) := by
  obtain ⟨h1, h2, h3, h4, h5⟩ := run_frame sm ops (sm, w) rfl rfl rfl rfl (Or.inl rfl)
  refine ⟨h5, h1, h2, h3, h4, ?_⟩
  intro e args hch
  rcases Event_machine (sm.run w ops).1 e args (sm.run w ops).2 with h | ⟨dst, hT, -, h⟩
  · exact absurd (by rw [h]) hch
  · rw [h]
    have : (sm.run w ops).1.transitions = sm.transitions := h1
    rw [← this]
    exact hT

end change

/-! ## `Can` and the first phase of `Event` -/

section agreement
variable {ε σ α χ ω : Type}

/-- A call that answers a slot holding a function of its arguments
returned. -/
theorem Answers.returned {slot : Option (callbackFn ε σ α χ ω)} {c : Call ε σ α χ}
    (h : Answers slot c) (hfun : ∀ cb, slot = some cb → FunctionOfArguments cb) :
    ∃ err, c.ret = .returned err := by
  rcases h with ⟨hs, -⟩ | ⟨f, w, -, hr⟩
  · obtain ⟨f, hf, -⟩ := hfun none hs
    simp at hf
  · exact ⟨_, hr⟩

/-- A hook block whose callback is a function of its arguments records the
same call and stops or falls through alike in every host world. -/
theorem hookBlock_deterministic (slot : Option (callbackFn ε σ α χ ω)) (h : Hook ε σ)
    (cur : State σ) (args : List α) (r r' : Run ε σ α χ ω)
    (hfun : ∀ cb, slot = some cb → FunctionOfArguments cb) (hr : r.calls = r'.calls) :
    (hookBlock slot h cur args r).1.calls = (hookBlock slot h cur args r').1.calls ∧
    (hookBlock slot h cur args r).2 = (hookBlock slot h cur args r').2 := by
  cases slot with
  | none => exact ⟨hr, rfl⟩
  | some cb =>
    obtain ⟨f, rfl, hf⟩ := hfun cb rfl
    have h1 := hf cur args r.world r'.world
    simp only [hookBlock, callbackFn.call]
    rcases hw : f cur args r.world with ⟨err, w1⟩
    rcases hw' : f cur args r'.world with ⟨err', w2⟩
    rw [hw, hw'] at h1
    simp only at h1
    subst h1
    cases err <;> simp [hr]

/-- A run of hook blocks whose callbacks are functions of their arguments
records the same calls and stops or falls through alike in every host
world. -/
theorem runHooks_deterministic (args : List α) (plan : List (Due ε σ α χ ω))
    (hfun : ∀ d ∈ plan, ∀ cb, d.slot = some cb → FunctionOfArguments cb) :
    ∀ r r' : Run ε σ α χ ω, r.calls = r'.calls →
      (runHooks args plan r).1.calls = (runHooks args plan r').1.calls ∧
      (runHooks args plan r).2 = (runHooks args plan r').2 := by
  induction plan with
  | nil => intro r r' hr; exact ⟨hr, rfl⟩
  | cons d rest ih =>
    intro r r' hr
    obtain ⟨h1, h2⟩ := hookBlock_deterministic d.slot d.hook d.current args r r'
      (hfun d (List.mem_cons_self _ _)) hr
    have ih' := ih fun d' hd' => hfun d' (List.mem_cons_of_mem _ hd')
    unfold runHooks
    rcases hb : hookBlock d.slot d.hook d.current args r with ⟨r1, o1⟩
    rcases hb' : hookBlock d.slot d.hook d.current args r' with ⟨r1', o1'⟩
    rw [hb, hb'] at h1 h2
    simp only at h1 h2
    subst h2
    cases o1 with
    | none => exact ih' r1 r1' h1
    | some stop => exact ⟨h1, rfl⟩

/-- The calls of the hooks due before the change of state are not changed by
keeping the calls of those hooks only. -/
theorem filter_pre_prePassed (sm : StateMachine ε σ α χ ω) (e : ε) (dst : State σ)
    (args : List α) :
    (sm.prePassed e dst args).filter (fun c => c.hook.pre) = sm.prePassed e dst args := by
  rw [List.filter_eq_self]
  intro c hc
  obtain ⟨-, -, -, -, hh⟩ := mem_prePassed hc
  rcases hh with hh | hh | hh <;> simp [hh, Hook.pre]

/-- Keeping the calls of the hooks due before the change of state drops the
record of a passed `After` hook or global after callback. -/
theorem filter_pre_passed (sm : StateMachine ε σ α χ ω) (h : Hook ε σ) (s : State σ)
    (args : List α) (hh : h.pre = false) :
    (sm.passed h s args).filter (fun c => c.hook.pre) = [] := by
  unfold StateMachine.passed
  split <;> simp [hh]

end agreement

section agreed
variable {ε σ α χ ω : Type} [DecidableEq ε] [DecidableEq σ]

/-- C16: when every registered callback is a function of its arguments, `Can`
and `Event`, started on the same machine in any two host worlds, make the same
calls of `Before`, `Enter` and `Leave`, with the same state, arguments and
results; when `Can` returns `(false, err)`, `Event` returns the same `err` and
leaves the machine as it was; `Can` returns `(true, nil)` exactly when the
transition is registered and every call of `Before`, `Enter` and `Leave` that
`Event` makes returns the nil error; and then the current state after `Event`
is the destination and `Event` returns nil or the error returned by its last
call, that of `After(e)` or of the global after callback. -/
theorem Can_agrees_with_Event (sm : StateMachine ε σ α χ ω) (e : ε) (args : List α)
    (w w' : ω)
    (hfun : ∀ h cb, sm.slot h = some cb → FunctionOfArguments cb) :
    (sm.Can e args w).calls = (sm.Event e args w').calls.filter (fun c => c.hook.pre) ∧
    (∀ err, (sm.Can e args w).result = .returned (false, err) →
      (sm.Event e args w').result = .returned err ∧ (sm.Event e args w').sm = sm) ∧
    ((sm.Can e args w).result = .returned (true, none) ↔
      ∃ dst, sm.transitions.lookup ⟨e, sm.Current⟩ = some dst ∧
        ∀ c ∈ (sm.Event e args w').calls, c.hook.pre = true → c.ret = .returned none) ∧
    ((sm.Can e args w).result = .returned (true, none) →
      ∃ dst, sm.transitions.lookup ⟨e, sm.Current⟩ = some dst ∧
        (sm.Event e args w').sm.Current = dst ∧
        ((sm.Event e args w').result = .returned none ∨
          ∃ earlier c err, (sm.Event e args w').calls = earlier ++ [c] ∧
            (c.hook = .after e ∨ c.hook = .cbAfter) ∧ c.ret = .returned (some err) ∧
            (sm.Event e args w').result = .returned (some err))) := by
  cases hT : sm.transitions.lookup ⟨e, sm.Current⟩ with
  | none =>
    have hC : sm.Can e args w =
        ⟨sm, w, [], .returned (false, some (.InvalidTransitionError e sm.Current))⟩ := by
      unfold StateMachine.Can; simp [hT]
    have hE : sm.Event e args w' =
        ⟨sm, w', [], .returned (some (.InvalidTransitionError e sm.Current))⟩ := by
      unfold StateMachine.Event; simp [hT]
    rw [hC, hE]
    refine ⟨rfl, ?_, ?_, ?_⟩
    · intro err h
      simp only [Result.returned.injEq, Prod.mk.injEq, true_and] at h
      exact ⟨by rw [h], rfl⟩
    · constructor
      · intro h; simp at h
      · rintro ⟨dst, h, -⟩; simp at h
    · intro h; simp at h
  | some dst =>
    have hplan : ∀ d ∈ sm.preHooks e dst, ∀ cb, d.slot = some cb → FunctionOfArguments cb := by
      intro d hd cb hs
      simp only [StateMachine.preHooks, List.mem_cons, List.mem_singleton,
        List.not_mem_nil, or_false] at hd
      rcases hd with rfl | rfl | rfl <;> exact hfun _ cb (by simpa using hs)
    obtain ⟨hcalls, hstop⟩ := runHooks_deterministic args (sm.preHooks e dst) hplan
      ⟨w, []⟩ ⟨w', []⟩ rfl
    have hC := Can_eq_runHooks sm e args w dst hT
    have hE := Event_eq_runHooks sm e args w' dst hT
    have hdue := Event_calls_due sm e args w' dst hT
    have hret : ∀ c ∈ (sm.Event e args w').calls, ∃ err, c.ret = .returned err := by
      intro c hc
      rcases hdue c hc with ⟨d, hd, -, -, -, hans⟩ | ⟨-, d, hd, -, -, -, hans⟩
      · exact hans.returned (hplan d hd)
      · refine hans.returned ?_
        intro cb hs
        simp only [StateMachine.postHooks, List.mem_cons, List.mem_singleton,
          List.not_mem_nil, or_false] at hd
        rcases hd with rfl | rfl <;> exact hfun _ cb (by simpa using hs)
    rcases hc : runHooks args (sm.preHooks e dst) ⟨w, []⟩ with ⟨rc, oc⟩
    rcases he : runHooks args (sm.preHooks e dst) ⟨w', []⟩ with ⟨re, oe⟩
    rw [hc, he] at hcalls hstop
    simp only at hcalls hstop
    subst hstop
    rw [hc] at hC
    rw [he] at hE
    rcases preHooks_trace sm e dst args w' re oc he with ⟨rfl, hre⟩ | ⟨stop, ret, rfl, hst, hre⟩
    · simp only at hC hE
      replace hre : re.calls = sm.prePassed e dst args := hre
      have hCres : (sm.Can e args w).result = .returned (true, none) := by rw [hC]
      have hCcalls : (sm.Can e args w).calls = sm.prePassed e dst args := by
        rw [hC]; exact hcalls.trans hre
      by_cases hd : dst = sm.Current
      · rw [if_pos hd] at hE
        have hEres : (sm.Event e args w').result = .returned none := by rw [hE]
        have hEcalls : (sm.Event e args w').calls = sm.prePassed e dst args := by
          rw [hE]; exact hre
        have hEsm : (sm.Event e args w').sm = sm := by rw [hE]
        refine ⟨by rw [hCcalls, hEcalls, filter_pre_prePassed], ?_, ?_, ?_⟩
        · intro err h; rw [hCres] at h; simp at h
        · refine ⟨fun _ => ⟨dst, rfl, ?_⟩, fun _ => hCres⟩
          intro c hmem _
          rw [hEcalls] at hmem
          exact (mem_prePassed hmem).1
        · intro _
          exact ⟨dst, rfl, by rw [hEsm, hd], Or.inl hEres⟩
      · rw [if_neg hd] at hE
        rcases hp : runHooks args (sm.postHooks e dst) re with ⟨r1, o1⟩
        rw [hp] at hE
        have hEsm : (sm.Event e args w').sm.Current = dst := by
          rw [hE]; cases o1 <;> rfl
        have hEc : (sm.Event e args w').calls = r1.calls := by
          rw [hE]; cases o1 <;> rfl
        rcases postHooks_trace sm e dst args re r1 o1 hp with
          ⟨rfl, hr1⟩ | ⟨stop, ret, rfl, hst, hr1⟩
        · have hEres : (sm.Event e args w').result = .returned none := by rw [hE]
          rw [hre] at hr1
          rw [hr1] at hEc
          refine ⟨?_, ?_, ?_, ?_⟩
          · rw [hCcalls, hEc, List.filter_append, List.filter_append, filter_pre_prePassed,
              filter_pre_passed sm (.after e) dst args rfl,
              filter_pre_passed sm .cbAfter dst args rfl]
            simp
          · intro err h; rw [hCres] at h; simp at h
          · refine ⟨fun _ => ⟨dst, rfl, ?_⟩, fun _ => hCres⟩
            intro c hmem hpre
            rw [hEc, List.mem_append, List.mem_append, mem_passed, mem_passed] at hmem
            rcases hmem with (hmem | ⟨-, rfl⟩) | ⟨-, rfl⟩
            · exact (mem_prePassed hmem).1
            · rfl
            · rfl
          · intro _
            exact ⟨dst, rfl, hEsm, Or.inl hEres⟩
        · have hEres : (sm.Event e args w').result = ret := by
            rw [hE]; exact hst.event.1
          rw [hre] at hr1
          have hlast : ∃ earlier hk, (hk = Hook.after e ∨ hk = Hook.cbAfter) ∧
              (sm.Event e args w').calls = earlier ++ [⟨hk, dst, args, ret⟩] ∧
              earlier.filter (fun c => c.hook.pre) = sm.prePassed e dst args ∧
              ∀ c ∈ earlier, c.ret = .returned none := by
            rcases hr1 with ⟨-, hr1⟩ | ⟨-, hr1⟩
            · refine ⟨_, .after e, Or.inl rfl, by rw [hEc, hr1], filter_pre_prePassed _ _ _ _, ?_⟩
              intro c hmem
              exact (mem_prePassed hmem).1
            · refine ⟨_, .cbAfter, Or.inr rfl, by rw [hEc, hr1], ?_, ?_⟩
              · rw [List.filter_append, filter_pre_prePassed,
                  filter_pre_passed sm (.after e) dst args rfl]
                simp
              · intro c hmem
                rw [List.mem_append, mem_passed] at hmem
                rcases hmem with hmem | ⟨-, rfl⟩
                · exact (mem_prePassed hmem).1
                · rfl
          obtain ⟨earlier, hk, hkpost, hEcalls, hfilter, hearlier⟩ := hlast
          have hkpre : hk.pre = false := by rcases hkpost with rfl | rfl <;> rfl
          obtain ⟨err, herr⟩ := hret ⟨hk, dst, args, ret⟩ (by rw [hEcalls]; simp)
          simp only at herr
          have herr2 : ∃ x, err = some x := by
            cases err with
            | none => exact absurd herr hst.event.2
            | some x => exact ⟨x, rfl⟩
          obtain ⟨x, rfl⟩ := herr2
          refine ⟨?_, ?_, ?_, ?_⟩
          · rw [hCcalls, hEcalls, List.filter_append, hfilter]
            simp [hkpre]
          · intro err h; rw [hCres] at h; simp at h
          · refine ⟨fun _ => ⟨dst, rfl, ?_⟩, fun _ => hCres⟩
            intro c hmem hpre
            rw [hEcalls, List.mem_append, List.mem_singleton] at hmem
            rcases hmem with hmem | rfl
            · exact hearlier c hmem
            · simp [hkpre] at hpre
          · intro _
            exact ⟨dst, rfl, hEsm, Or.inr ⟨earlier, ⟨hk, dst, args, ret⟩, x, hEcalls,
              hkpost, herr, by rw [hEres, herr]⟩⟩
    · simp only at hC hE
      have hstopped : sm.preStopped e dst args ret re.calls := hre
      obtain ⟨earlier, hk, hsplit, hkpre, hearlier, -⟩ := preStopped_split hstopped
      have hEcalls : (sm.Event e args w').calls = re.calls := by rw [hE]
      have hEsm : (sm.Event e args w').sm = sm := by rw [hE]
      have hEres : (sm.Event e args w').result = ret := by rw [hE]; exact hst.event.1
      have hCcalls : (sm.Can e args w).calls = re.calls := by rw [hC]; exact hcalls
      have hCres : (sm.Can e args w).result = (ret.bind fun err => .returned (false, err)) := by
        rw [hC]; exact hst.can.1
      obtain ⟨err, herr⟩ := hret ⟨hk, sm.Current, args, ret⟩ (by rw [hEcalls, hsplit]; simp)
      simp only at herr
      have herr2 : ∃ x, err = some x := by
        cases err with
        | none => exact absurd herr hst.event.2
        | some x => exact ⟨x, rfl⟩
      obtain ⟨x, rfl⟩ := herr2
      have hkp : hk.pre = true := by rcases hkpre with rfl | rfl | rfl <;> rfl
      rw [herr] at hCres hEres
      have hCres' : (sm.Can e args w).result = .returned (false, some x) := hCres
      refine ⟨?_, ?_, ?_, ?_⟩
      · rw [hCcalls, hEcalls, List.filter_eq_self.mpr]
        intro c hmem
        rw [hsplit, List.mem_append, List.mem_singleton] at hmem
        rcases hmem with hmem | rfl
        · obtain ⟨-, -, -, -, hh⟩ := mem_prePassed (hearlier c hmem)
          rcases hh with hh | hh | hh <;> simp [hh, Hook.pre]
        · exact hkp
      · intro err h
        rw [hCres'] at h
        simp only [Result.returned.injEq, Prod.mk.injEq, true_and] at h
        exact ⟨by rw [hEres, h], hEsm⟩
      · constructor
        · intro h; rw [hCres'] at h; simp at h
        · rintro ⟨dst', -, hall⟩
          have := hall ⟨hk, sm.Current, args, ret⟩ (by rw [hEcalls, hsplit]; simp) hkp
          rw [herr] at this
          simp at this
      · intro h; rw [hCres'] at h; simp at h

end agreed

/-! ## Registries of callbacks -/

section touched
variable {κ ν : Type}

/-- The kinds touched by two lists of registrations. -/
theorem touches_append (ds1 ds2 : List (Registration κ ν)) (kind : Int) :
    touches (ds1 ++ ds2) kind = (touches ds1 kind || touches ds2 kind) := by
  simp [touches, List.any_append]

/-- The last element of a list with one more element in front. -/
theorem getLast_getD_cons {β : Type} (a d : β) (l : List β) :
    (a :: l).getLast?.getD d = l.getLast?.getD a := by
  induction l generalizing a d with
  | nil => rfl
  | cons b rest ih => rw [List.getLast?_cons_cons, ih b d, ih b a]

/-- The slots do not depend on the current state. -/
theorem slot_of_current {ε σ α χ ω : Type} (sm : StateMachine ε σ α χ ω) (s : State σ) (h : Hook ε σ) :
    ({ sm with current := s } : StateMachine ε σ α χ ω).slot h = sm.slot h := by
  cases h <;> rfl

/-- The slots depend on the two registries and the global after callback
only. -/
theorem slot_congr {ε σ α χ ω : Type} (m1 m2 : StateMachine ε σ α χ ω)
    (a : m1.cbEvent = m2.cbEvent) (b : m1.cbState = m2.cbState) (c : m1.cbAfter = m2.cbAfter)
    (h : Hook ε σ) : m1.slot h = m2.slot h := by
  cases h <;> simp only [StateMachine.slot, a, b, c]

end touched

section registry
variable {κ ν : Type} [DecidableEq κ]

/-- An allocated map is given by its entries. -/
theorem GoMap.eq_of_lookup {κ ν : Type} (m : GoMap κ ν) (g : κ → Option ν)
    (hm : m.isNil = false) (h : ∀ k, m.lookup k = g k) : m = ⟨some g⟩ := by
  rcases m with ⟨_ | f⟩
  · simp [GoMap.isNil] at hm
  · have : f = g := funext h
    rw [this]

/-- The callback held after two lists of registrations made one after the
other. -/
theorem registeredAfter_append (ds1 ds2 : List (Registration κ ν)) (kind : Int) (key : κ)
    (entry : Option ν) :
    registeredAfter (ds1 ++ ds2) kind key entry =
      registeredAfter ds2 kind key (registeredAfter ds1 kind key entry) := by
  simp [registeredAfter, List.foldl_append]

/-- Registrations of other kinds or keys leave what is held. -/
theorem registeredAfter_of_not_written (ds : List (Registration κ ν)) (kind : Int) (key : κ) :
    ∀ entry : Option ν, (∀ d ∈ ds, ¬ (d.1 = kind ∧ d.2.1 = key)) →
      registeredAfter ds kind key entry = entry := by
  induction ds with
  | nil => intro entry _; rfl
  | cons d rest ih =>
    intro entry h
    have hd := h d (List.mem_cons_self _ _)
    have hrest := ih entry fun d' hd' => h d' (List.mem_cons_of_mem _ hd')
    simpa [registeredAfter, hd] using hrest

/-- Registrations that do not touch a kind leave what is held under it. -/
theorem registeredAfter_of_not_touched (ds : List (Registration κ ν)) (kind : Int) (key : κ)
    (entry : Option ν) (h : touches ds kind = false) :
    registeredAfter ds kind key entry = entry := by
  apply registeredAfter_of_not_written
  intro d hd hcon
  have : touches ds kind = true := by
    simp only [touches, List.any_eq_true, decide_eq_true_eq]
    exact ⟨d, hd, hcon.1⟩
  rw [h] at this
  exact Bool.noConfusion this

/-- The last registration with a kind and a key decides what is held. -/
theorem registeredAfter_last (earlier later : List (Registration κ ν)) (d : Registration κ ν)
    (kind : Int) (key : κ) (entry : Option ν) (hd : d.1 = kind ∧ d.2.1 = key)
    (hlater : ∀ d' ∈ later, ¬ (d'.1 = kind ∧ d'.2.1 = key)) :
    registeredAfter (earlier ++ d :: later) kind key entry = some d.2.2 := by
  rw [registeredAfter_append]
  have : registeredAfter (d :: later) kind key (registeredAfter earlier kind key entry) =
      registeredAfter later kind key (some d.2.2) := by
    simp [registeredAfter, hd]
  rw [this, registeredAfter_of_not_written later kind key _ hlater]

/-- What is held after the registrations is what the last of them with the
kind and the key gives, or what was held when there is none. -/
theorem registeredAfter_eq (ds : List (Registration κ ν)) (kind : Int) (key : κ)
    (entry : Option ν) :
    registeredAfter ds kind key entry =
      match (ds.filter fun d => decide (d.1 = kind ∧ d.2.1 = key)).getLast? with
      | some d => some d.2.2
      | none => entry := by
  induction ds using List.reverseRecOn with
  | nil => rfl
  | append_singleton rest d ih =>
    rw [registeredAfter_append, ih, List.filter_append]
    by_cases hd : d.1 = kind ∧ d.2.1 = key
    · simp [registeredAfter, List.filter_cons, hd]
    · simp [registeredAfter, List.filter_cons, hd]

/-- What is held after the same registrations made twice is what is held after
they are made once. -/
theorem registeredAfter_twice (ds : List (Registration κ ν)) (kind : Int) (key : κ)
    (entry : Option ν) :
    registeredAfter ds kind key (registeredAfter ds kind key entry) =
      registeredAfter ds kind key entry := by
  rw [registeredAfter_eq ds kind key (registeredAfter ds kind key entry),
    registeredAfter_eq ds kind key entry]
  cases (ds.filter fun d => decide (d.1 = kind ∧ d.2.1 = key)).getLast? <;> rfl

/-- Reading a registry after registrations: what `Event` finds under a kind
and a key is what `registeredAfter` says. -/
theorem registryAfter_read (ds : List (Registration κ ν)) (reg : GoMap Int (GoMap κ ν))
    (kind : Int) (key : κ) :
    ((registryAfter ds reg).index kind).lookup key =
      registeredAfter ds kind key ((reg.index kind).lookup key) := by
  by_cases ht : touches ds kind = true
  · simp [registryAfter, GoMap.index, GoMap.lookup, ht]
  · have ht' : touches ds kind = false := by simpa using ht
    rw [registeredAfter_of_not_touched ds kind key _ ht']
    simp only [registryAfter, GoMap.index, GoMap.lookup, ht']
    rfl

/-- The inner map of a kind after registrations. -/
theorem registryAfter_lookup (ds : List (Registration κ ν)) (reg : GoMap Int (GoMap κ ν))
    (kind : Int) :
    (registryAfter ds reg).lookup kind =
      if touches ds kind then
        some ⟨some fun key => registeredAfter ds kind key ((reg.index kind).lookup key)⟩
      else reg.lookup kind := rfl

/-- Registrations made in two batches, one after the other, leave the registry
that they leave when made in one batch. -/
theorem registryAfter_append (ds1 ds2 : List (Registration κ ν))
    (reg : GoMap Int (GoMap κ ν)) :
    registryAfter (ds1 ++ ds2) reg = registryAfter ds2 (registryAfter ds1 reg) := by
  unfold registryAfter
  congr 2
  funext kind
  rw [touches_append]
  have hread := fun key => registryAfter_read ds1 reg kind key
  unfold registryAfter at hread
  by_cases h2 : touches ds2 kind = true
  · simp only [h2, Bool.or_true, if_true]
    congr 3
    funext key
    rw [registeredAfter_append, hread key]
  · have h2' : touches ds2 kind = false := by simpa using h2
    simp only [h2', Bool.or_false]
    by_cases h1 : touches ds1 kind = true
    · simp only [h1, if_true, Bool.false_eq_true, if_false, GoMap.lookup]
      congr 3
      funext key
      rw [registeredAfter_append, registeredAfter_of_not_touched ds2 kind key _ h2']
    · have h1' : touches ds1 kind = false := by simpa using h1
      simp only [h1', Bool.false_eq_true, if_false, GoMap.lookup]

/-- No registration leaves an allocated registry as it is. -/
theorem registryAfter_nil (reg : GoMap Int (GoMap κ ν)) (h : reg.isNil = false) :
    registryAfter [] reg = reg := by
  rcases reg with ⟨_ | f⟩
  · simp [GoMap.isNil] at h
  · rfl

/-- Registrations find the same in the nil registry and in the empty one. -/
theorem registryAfter_allocated (ds : List (Registration κ ν)) (reg : GoMap Int (GoMap κ ν)) :
    registryAfter ds (if reg.isNil then GoMap.make else reg) = registryAfter ds reg := by
  rcases reg with ⟨_ | f⟩
  · rfl
  · rfl

/-- The loop body of `WithEventCallbacks` and of `WithStateCallbacks`, on an
allocated registry, returns the registry after one registration. -/
theorem register_returns (reg : GoMap Int (GoMap κ ν)) (kind : Int) (key : κ) (cb : ν)
    (h : reg.isNil = false) :
    ((if (reg.index kind).isNil then reg.store kind GoMap.make else .returned reg).bind
      fun reg1 => ((reg1.index kind).store key cb).bind fun inner => reg1.store kind inner) =
      .returned (registryAfter [(kind, key, cb)] reg) := by
  rcases reg with ⟨_ | f⟩
  · simp [GoMap.isNil] at h
  · have hclosed : ∀ g : κ → Option ν, (∀ k, g k = (GoMap.index ⟨some f⟩ kind).lookup k) →
        (⟨some fun kind' => if kind' = kind then
            some ⟨some fun k => if k = key then some cb else g k⟩ else f kind'⟩ :
          GoMap Int (GoMap κ ν)) = registryAfter [(kind, key, cb)] ⟨some f⟩ := by
      intro g hg
      unfold registryAfter
      congr 2
      funext kind'
      by_cases hk : kind' = kind
      · subst hk
        simp only [touches, List.any_cons, List.any_nil, decide_True, Bool.or_false, if_true]
        congr 3
        funext k
        by_cases hkey : k = key
        · subst hkey; simp [registeredAfter]
        · have hkey' : ¬ key = k := fun h => hkey h.symm
          simp [registeredAfter, hkey, hkey', hg]
      · have hk' : ¬ kind = kind' := fun h => hk h.symm
        simp [touches, hk, hk', GoMap.lookup]
    cases hf : f kind with
    | none =>
      have hidx : GoMap.index (⟨some f⟩ : GoMap Int (GoMap κ ν)) kind = GoMap.nil := by
        simp [GoMap.index, GoMap.lookup, hf]
      rw [hidx]
      simp only [GoMap.nil, GoMap.isNil, Option.isNone_none, if_true, GoMap.store,
        Result.bind, GoMap.index, GoMap.lookup, GoMap.make]
      rw [← hclosed (fun _ => none) (by intro k; rw [hidx]; rfl)]
      congr 3
      funext kind'
      by_cases hk : kind' = kind <;> simp [hk]
    | some inner =>
      rcases inner with ⟨_ | g⟩
      · have hidx : GoMap.index (⟨some f⟩ : GoMap Int (GoMap κ ν)) kind = GoMap.nil := by
          simp [GoMap.index, GoMap.lookup, hf, GoMap.nil]
        rw [hidx]
        simp only [GoMap.nil, GoMap.isNil, Option.isNone_none, if_true, GoMap.store,
          Result.bind, GoMap.index, GoMap.lookup, GoMap.make]
        rw [← hclosed (fun _ => none) (by intro k; rw [hidx]; rfl)]
        congr 3
        funext kind'
        by_cases hk : kind' = kind <;> simp [hk]
      · have hidx : GoMap.index (⟨some f⟩ : GoMap Int (GoMap κ ν)) kind = ⟨some g⟩ := by
          simp [GoMap.index, GoMap.lookup, hf]
        rw [hidx]
        simp only [GoMap.isNil, Option.isNone_some, Bool.false_eq_true, if_false, GoMap.store,
          Result.bind, GoMap.index, GoMap.lookup, hf]
        rw [← hclosed g (by intro k; rw [hidx]; rfl)]

/-- A loop of such bodies over registrations, on an allocated registry,
returns the registry after the registrations. -/
theorem register_all_returns {δ : Type} (proj : δ → Registration κ ν)
    (body : GoMap Int (GoMap κ ν) → δ → Result (GoMap Int (GoMap κ ν)))
    (hbody : ∀ reg d, reg.isNil = false →
      body reg d = .returned (registryAfter [proj d] reg))
    (ds : List δ) :
    ∀ reg : GoMap Int (GoMap κ ν), reg.isNil = false →
      ds.foldlM body reg = .returned (registryAfter (ds.map proj) reg) := by
  induction ds with
  | nil =>
    intro reg h
    rw [List.map_nil, registryAfter_nil reg h]
    rfl
  | cons d rest ih =>
    intro reg h
    have halloc : (registryAfter [proj d] reg).isNil = false := rfl
    rw [List.foldlM_cons, hbody reg d h, Result.returned_bind, ih _ halloc, List.map_cons,
      ← registryAfter_append]
    rfl

/-- The registry left by the same registrations made twice is the registry
they leave when made once. -/
theorem registryAfter_twice (ds : List (Registration κ ν))
    (reg : GoMap Int (GoMap κ ν)) :
    registryAfter ds (registryAfter ds reg) = registryAfter ds reg := by
  have hread := fun kind key => registryAfter_read ds reg kind key
  have hlook := fun kind => registryAfter_lookup ds reg kind
  unfold registryAfter at hread hlook ⊢
  congr 2
  funext kind
  by_cases ht : touches ds kind = true
  · simp only [ht, if_true]
    congr 3
    funext key
    rw [hread kind key, registeredAfter_twice]
  · have ht' : touches ds kind = false := by simpa using ht
    simp only [ht', Bool.false_eq_true, if_false]
    rw [hlook kind]
    simp [ht']

/-- What a kind and a key hold after the registrations asked for by
descriptors, in a registry that held nothing there: the callback of the last
descriptor with that kind and that key. -/
theorem registeredAfter_descriptors {δ : Type} (proj : δ → Registration κ ν)
    (ds : List δ) (kind : Int) (key : κ) :
    registeredAfter (ds.map proj) kind key none =
      ((ds.filter fun d => decide ((proj d).1 = kind ∧ (proj d).2.1 = key)).getLast?).map
        fun d => (proj d).2.2 := by
  rw [registeredAfter_eq, List.filter_map, List.getLast?_map]
  show (match Option.map proj
      (List.filter (fun d => decide ((proj d).1 = kind ∧ (proj d).2.1 = key)) ds).getLast? with
    | some d => some d.2.2
    | none => none) = _
  cases (List.filter (fun d => decide ((proj d).1 = kind ∧ (proj d).2.1 = key)) ds).getLast? <;>
    rfl

/-- A registration of another kind does not change what a kind and a key
hold. -/
theorem registeredAfter_without (earlier later : List (Registration κ ν)) (d : Registration κ ν) (kind : Int) (key : κ)
    (entry : Option ν) (hd : d.1 ≠ kind) :
    registeredAfter (earlier ++ d :: later) kind key entry =
      registeredAfter (earlier ++ later) kind key entry := by
  rw [registeredAfter_append, registeredAfter_append]
  have : ¬ (d.1 = kind ∧ d.2.1 = key) := fun h => hd h.1
  simp [registeredAfter, this]

end registry

/-! ## The options in closed form -/

section options
variable {ε σ α χ ω : Type} [DecidableEq ε] [DecidableEq σ]

/-- Each of the six options returns, without panic, the machine that
`Config.apply` describes. -/
theorem Config.option_closed (c : Config ε σ α χ ω) (m : StateMachine ε σ α χ ω) :
    c.option m = .returned (Config.apply m c) := by
  cases c with
  | initial s => rfl
  | afterCallback cb => rfl
  | events es =>
    obtain ⟨hn0, hl0⟩ := allocated_table m.transitions
    obtain ⟨t, ht, hn, hl⟩ := WithEvents_batch es _ hn0
    have heq : t = tableAfter (es.map .event) m.transitions :=
      GoMap.eq_of_lookup t _ hn fun k => by rw [hl k, hl0 k]
    simp only [Config.option, WithEvents, ht, Config.apply, heq]
  | loops ls =>
    obtain ⟨hn0, hl0⟩ := allocated_table m.transitions
    obtain ⟨t, ht, hn, hl⟩ := WithLoops_batch ls _ hn0
    have heq : t = tableAfter (ls.map .loop) m.transitions :=
      GoMap.eq_of_lookup t _ hn fun k => by rw [hl k, hl0 k]
    simp only [Config.option, WithLoops, ht, Config.apply, heq]
  | eventCallbacks cbs =>
    have hn0 : (if m.cbEvent.isNil then GoMap.make else m.cbEvent).isNil = false := by
      rcases m.cbEvent with ⟨_ | f⟩ <;> rfl
    have hfold := register_all_returns registrationOfEvent
      (WithEventCallbacks.body (ε := ε) (σ := σ) (α := α) (χ := χ) (ω := ω))
      (fun reg d h => register_returns reg d.Type_ d.Event d.Callback h) cbs _ hn0
    simp only [Config.option, WithEventCallbacks, hfold, Config.apply,
      registryAfter_allocated]
  | stateCallbacks cbs =>
    have hn0 : (if m.cbState.isNil then GoMap.make else m.cbState).isNil = false := by
      rcases m.cbState with ⟨_ | f⟩ <;> rfl
    have hfold := register_all_returns registrationOfState
      (WithStateCallbacks.body (ε := ε) (σ := σ) (α := α) (χ := χ) (ω := ω))
      (fun reg d h => register_returns reg d.Type_ d.State d.Callback h) cbs _ hn0
    simp only [Config.option, WithStateCallbacks, hfold, Config.apply,
      registryAfter_allocated]

/-- Options applied in order to a machine return, without panic, the machine
left by their closed forms applied in order. -/
theorem options_return (cs : List (Config ε σ α χ ω)) :
    ∀ m : StateMachine ε σ α χ ω,
      (cs.map Config.option).foldlM (fun sm option => option sm) m =
        .returned (cs.foldl Config.apply m) := by
  induction cs with
  | nil => intro m; rfl
  | cons c rest ih =>
    intro m
    rw [List.map_cons, List.foldlM_cons, Config.option_closed, Result.returned_bind, ih]
    rfl

/-- The function `New` on any list of the six options returns, without
panic. -/
theorem New_returns (cs : List (Config ε σ α χ ω)) :
    New (cs.map Config.option) = .returned (cs.foldl Config.apply zeroStateMachine) :=
  options_return cs zeroStateMachine

/-- What can be read from the machine left by options applied in order: the
current state is the state of the last `WithInitial`, the global after
callback that of the last `WithAfterCallback`, each key of the table holds
what the table descriptors leave, and each kind and key of the two registries
holds what the registrations leave. -/
theorem foldl_apply_reads (cs : List (Config ε σ α χ ω)) :
    ∀ m : StateMachine ε σ α χ ω,
      (cs.foldl Config.apply m).current = (initialsOf cs).getLast?.getD m.current ∧
      (cs.foldl Config.apply m).cbAfter = (afterCallbacksOf cs).getLast?.getD m.cbAfter ∧
      (∀ k, (cs.foldl Config.apply m).transitions.lookup k =
        overwritten (tableDescriptorsOf cs) k (m.transitions.lookup k)) ∧
      (∀ kind e, ((cs.foldl Config.apply m).cbEvent.index kind).lookup e =
        registeredAfter ((eventCallbacksOf cs).map registrationOfEvent) kind e
          ((m.cbEvent.index kind).lookup e)) ∧
      (∀ kind s, ((cs.foldl Config.apply m).cbState.index kind).lookup s =
        registeredAfter ((stateCallbacksOf cs).map registrationOfState) kind s
          ((m.cbState.index kind).lookup s)) := by
  induction cs with
  | nil => intro m; exact ⟨rfl, rfl, fun _ => rfl, fun _ _ => rfl, fun _ _ => rfl⟩
  | cons c rest ih =>
    intro m
    obtain ⟨h1, h2, h3, h4, h5⟩ := ih (Config.apply m c)
    rw [List.foldl_cons]
    cases c with
    | initial s =>
      refine ⟨?_, h2, h3, h4, h5⟩
      rw [h1, initialsOf, getLast_getD_cons]
      rfl
    | afterCallback cb =>
      refine ⟨h1, ?_, h3, h4, h5⟩
      rw [h2, afterCallbacksOf, getLast_getD_cons]
      rfl
    | events es =>
      refine ⟨h1, h2, ?_, h4, h5⟩
      intro k
      rw [h3 k, tableDescriptorsOf, overwritten_append]
      rfl
    | loops ls =>
      refine ⟨h1, h2, ?_, h4, h5⟩
      intro k
      rw [h3 k, tableDescriptorsOf, overwritten_append]
      rfl
    | eventCallbacks cbs =>
      refine ⟨h1, h2, h3, ?_, h5⟩
      intro kind e
      rw [h4 kind e, eventCallbacksOf, List.map_append, registeredAfter_append]
      simp only [Config.apply, registryAfter_read]
    | stateCallbacks cbs =>
      refine ⟨h1, h2, h3, h4, ?_⟩
      intro kind s
      rw [h5 kind s, stateCallbacksOf, List.map_append, registeredAfter_append]
      simp only [Config.apply, registryAfter_read]

end options

/-! ## The initial state, `SetCurrent`, and options applied twice -/

section configured
variable {ε σ α χ ω : Type} [DecidableEq ε] [DecidableEq σ]

/-- C11: `SetCurrent(s)`, which takes nothing but the machine and the state,
so reads no table and calls no callback, and which always returns, leaves a
machine whose current state is `s`, whatever `s` is, and whose transition
table, callback registries and global after callback are those it had; and
`New` on any list of options returns a machine whose current state is the
state given to the last `WithInitial` of the list, the nil state when there
is none. -/
theorem SetCurrent_overrides :
    (∀ (sm : StateMachine ε σ α χ ω) (s : State σ),
      (sm.SetCurrent s).Current = s ∧
      (sm.SetCurrent s).transitions = sm.transitions ∧
      (sm.SetCurrent s).cbEvent = sm.cbEvent ∧
      (sm.SetCurrent s).cbState = sm.cbState ∧
      (sm.SetCurrent s).cbAfter = sm.cbAfter) ∧
    (∀ cs : List (Config ε σ α χ ω),
      ∃ sm, New (cs.map Config.option) = .returned sm ∧
        sm.Current = (initialsOf cs).getLast?.getD none) := by
  refine ⟨fun sm s => ⟨rfl, rfl, rfl, rfl, rfl⟩, fun cs => ⟨_, New_returns cs, ?_⟩⟩
  exact (foldl_apply_reads cs zeroStateMachine).1

/-- The table left by the same descriptors applied twice is the table they
leave when applied once. -/
theorem tableAfter_twice (ds : List (Descriptor ε σ)) (t : transitions ε σ) :
    tableAfter ds (tableAfter ds t) = tableAfter ds t := by
  unfold tableAfter
  congr 2
  funext k
  simp only [GoMap.lookup]
  by_cases hw : ∃ d ∈ ds, d.writes k = true
  · obtain ⟨earlier, d, later, hsplit, hd, hlater⟩ := exists_last_writer ds k hw
    rw [hsplit, overwritten_last earlier later d k _ hd hlater,
      overwritten_last earlier later d k _ hd hlater]
  · have hnone : ∀ d ∈ ds, d.writes k = false := by
      intro d hd
      by_contra hcon
      exact hw ⟨d, hd, by simpa using hcon⟩
    rw [overwritten_of_not_written ds k _ hnone, overwritten_of_not_written ds k _ hnone]

/-- C19: each of the six options, for any argument, is idempotent: applying
it a second time returns the machine that the first application returned,
with the same current state, transition table, callback registries and global
after callback. -/
theorem option_idempotent (c : Config ε σ α χ ω) (m : StateMachine ε σ α χ ω) :
    ∃ m1, c.option m = .returned m1 ∧ c.option m1 = .returned m1 := by
  refine ⟨Config.apply m c, Config.option_closed c m, ?_⟩
  rw [Config.option_closed]
  congr 1
  cases c with
  | initial s => rfl
  | afterCallback cb => rfl
  | events es => simp only [Config.apply, tableAfter_twice]
  | loops ls => simp only [Config.apply, tableAfter_twice]
  | eventCallbacks cbs => simp only [Config.apply, registryAfter_twice]
  | stateCallbacks cbs => simp only [Config.apply, registryAfter_twice]

end configured

/-! ## Which callback a hook finds -/

section found
variable {ε σ α χ ω : Type} [DecidableEq ε] [DecidableEq σ]

/-- C17: in the machine that `New` returns for any list of options, the
callback that `Event` finds for `Before(e)` is that of the last descriptor,
among those given to `WithEventCallbacks` in application order, whose kind is
`Before` and whose event is `e`, and none when there is no such descriptor;
likewise `After(e)` with kind `After`, and `Enter(s)` and `Leave(s)` among
the descriptors given to `WithStateCallbacks` with kind `Enter` and `Leave`
and state `s`. So a descriptor fires only for its own kind and key, in its own
registry, whatever the values of the keys. The global after callback is the
argument of the last `WithAfterCallback`, nil when there is none. -/
theorem New_callbacks_found (cs : List (Config ε σ α χ ω)) :
    ∃ sm, New (cs.map Config.option) = .returned sm ∧
      (∀ e, sm.slot (.before e) =
        (((eventCallbacksOf cs).filter fun d =>
          decide (d.Type_ = Before ∧ d.Event = e)).getLast?).map fun d => d.Callback) ∧
      (∀ e, sm.slot (.after e) =
        (((eventCallbacksOf cs).filter fun d =>
          decide (d.Type_ = After ∧ d.Event = e)).getLast?).map fun d => d.Callback) ∧
      (∀ s, sm.slot (.enter s) =
        (((stateCallbacksOf cs).filter fun d =>
          decide (d.Type_ = Enter ∧ d.State = s)).getLast?).map fun d => d.Callback) ∧
      (∀ s, sm.slot (.leave s) =
        (((stateCallbacksOf cs).filter fun d =>
          decide (d.Type_ = Leave ∧ d.State = s)).getLast?).map fun d => d.Callback) ∧
      sm.cbAfter = (afterCallbacksOf cs).getLast?.getD none := by
  obtain ⟨-, h2, -, h4, h5⟩ := foldl_apply_reads cs (zeroStateMachine : StateMachine ε σ α χ ω)
  refine ⟨_, New_returns cs, ?_, ?_, ?_, ?_, h2⟩
  · intro e
    exact (h4 Before e).trans (registeredAfter_descriptors registrationOfEvent _ Before e)
  · intro e
    exact (h4 After e).trans (registeredAfter_descriptors registrationOfEvent _ After e)
  · intro s
    exact (h5 Enter s).trans (registeredAfter_descriptors registrationOfState _ Enter s)
  · intro s
    exact (h5 Leave s).trans (registeredAfter_descriptors registrationOfState _ Leave s)

end found

/-! ## Machines that behave alike -/

section alike
variable {ε σ α χ ω : Type} [DecidableEq ε] [DecidableEq σ]

/-- On machines that are alike, `Event` returns the same, makes the same
calls, leaves the same host world, and leaves machines that are alike. -/
theorem Alike.same_event {sm sm' : StateMachine ε σ α χ ω} (h : Alike sm sm') (e : ε)
    (args : List α) (w : ω) :
    (sm.Event e args w).result = (sm'.Event e args w).result ∧
    (sm.Event e args w).calls = (sm'.Event e args w).calls ∧
    (sm.Event e args w).world = (sm'.Event e args w).world ∧
    Alike (sm.Event e args w).sm (sm'.Event e args w).sm := by
  obtain ⟨hcur, htab, hslot⟩ := h
  cases hT : sm.transitions.lookup ⟨e, sm.Current⟩ with
  | none =>
    have hT' : sm'.transitions.lookup ⟨e, sm'.Current⟩ = none := by
      rw [← hcur, ← htab]; exact hT
    have h1 : sm.Event e args w =
        ⟨sm, w, [], .returned (some (.InvalidTransitionError e sm.Current))⟩ := by
      unfold StateMachine.Event; simp [hT]
    have h2 : sm'.Event e args w =
        ⟨sm', w, [], .returned (some (.InvalidTransitionError e sm'.Current))⟩ := by
      unfold StateMachine.Event; simp [hT']
    rw [h1, h2]
    exact ⟨by rw [hcur], rfl, rfl, hcur, htab, hslot⟩
  | some dst =>
    have hT' : sm'.transitions.lookup ⟨e, sm'.Current⟩ = some dst := by
      rw [← hcur, ← htab]; exact hT
    have hpre : sm.preHooks e dst = sm'.preHooks e dst := by
      simp only [StateMachine.preHooks, hslot, hcur]
    have hpost : sm.postHooks e dst = sm'.postHooks e dst := by
      simp only [StateMachine.postHooks, hslot]
    have halike : Alike ({ sm with current := dst } : StateMachine ε σ α χ ω)
        { sm' with current := dst } :=
      ⟨rfl, htab, fun h =>
        (slot_of_current sm dst h).trans ((hslot h).trans (slot_of_current sm' dst h).symm)⟩
    rw [Event_eq_runHooks sm e args w dst hT, Event_eq_runHooks sm' e args w dst hT', hpre,
      hpost]
    rcases runHooks args (sm'.preHooks e dst) ⟨w, []⟩ with ⟨r, _ | stop⟩
    · simp only []
      by_cases hd : dst = sm.Current
      · have hd' : dst = sm'.Current := by rw [← hcur]; exact hd
        rw [if_pos hd, if_pos hd']
        exact ⟨rfl, rfl, rfl, hcur, htab, hslot⟩
      · have hd' : ¬ dst = sm'.Current := by rw [← hcur]; exact hd
        rw [if_neg hd, if_neg hd']
        rcases runHooks args (sm'.postHooks e dst) r with ⟨r1, _ | stop⟩
        · exact ⟨rfl, rfl, rfl, halike⟩
        · exact ⟨rfl, rfl, rfl, halike⟩
    · exact ⟨rfl, rfl, rfl, hcur, htab, hslot⟩

/-- On machines that are alike, `Can` returns the same, makes the same calls,
leaves the same host world, and leaves machines that are alike. -/
theorem Alike.same_can {sm sm' : StateMachine ε σ α χ ω} (h : Alike sm sm') (e : ε)
    (args : List α) (w : ω) :
    (sm.Can e args w).result = (sm'.Can e args w).result ∧
    (sm.Can e args w).calls = (sm'.Can e args w).calls ∧
    (sm.Can e args w).world = (sm'.Can e args w).world ∧
    Alike (sm.Can e args w).sm (sm'.Can e args w).sm := by
  obtain ⟨hcur, htab, hslot⟩ := h
  cases hT : sm.transitions.lookup ⟨e, sm.Current⟩ with
  | none =>
    have hT' : sm'.transitions.lookup ⟨e, sm'.Current⟩ = none := by
      rw [← hcur, ← htab]; exact hT
    have h1 : sm.Can e args w =
        ⟨sm, w, [], .returned (false, some (.InvalidTransitionError e sm.Current))⟩ := by
      unfold StateMachine.Can; simp [hT]
    have h2 : sm'.Can e args w =
        ⟨sm', w, [], .returned (false, some (.InvalidTransitionError e sm'.Current))⟩ := by
      unfold StateMachine.Can; simp [hT']
    rw [h1, h2]
    exact ⟨by rw [hcur], rfl, rfl, hcur, htab, hslot⟩
  | some dst =>
    have hT' : sm'.transitions.lookup ⟨e, sm'.Current⟩ = some dst := by
      rw [← hcur, ← htab]; exact hT
    have hpre : sm.preHooks e dst = sm'.preHooks e dst := by
      simp only [StateMachine.preHooks, hslot, hcur]
    rw [Can_eq_runHooks sm e args w dst hT, Can_eq_runHooks sm' e args w dst hT', hpre]
    rcases runHooks args (sm'.preHooks e dst) ⟨w, []⟩ with ⟨r, _ | stop⟩
    · exact ⟨rfl, rfl, rfl, hcur, htab, hslot⟩
    · exact ⟨rfl, rfl, rfl, hcur, htab, hslot⟩

/-- A sequence of calls on machines that are alike, started in the same host
world, leaves the same host world and machines that are alike. -/
theorem Alike.run (ops : List (Op ε α)) :
    ∀ (st st' : StateMachine ε σ α χ ω × ω), Alike st.1 st'.1 → st.2 = st'.2 →
      (ops.foldl StateMachine.step st).2 = (ops.foldl StateMachine.step st').2 ∧
      Alike (ops.foldl StateMachine.step st).1 (ops.foldl StateMachine.step st').1 := by
  induction ops with
  | nil => intro st st' h hw; exact ⟨hw, h⟩
  | cons op rest ih =>
    intro st st' h hw
    rw [List.foldl_cons, List.foldl_cons]
    apply ih
    · cases op with
      | Event e args =>
        simp only [StateMachine.step]
        rw [hw]
        exact (h.same_event e args st'.2).2.2.2
      | Can e args =>
        simp only [StateMachine.step]
        rw [hw]
        exact (h.same_can e args st'.2).2.2.2
    · cases op with
      | Event e args =>
        simp only [StateMachine.step]
        rw [hw]
        exact (h.same_event e args st'.2).2.2.1
      | Can e args =>
        simp only [StateMachine.step]
        rw [hw]
        exact (h.same_can e args st'.2).2.2.1

/-- Machines that are alike behave alike. -/
theorem Alike.behave {sm sm' : StateMachine ε σ α χ ω} (h : Alike sm sm') (w : ω)
    (ops : List (Op ε α)) (e : ε) (args : List α) : BehaveAlike sm sm' w ops e args := by
  obtain ⟨hw, ha⟩ := Alike.run ops (sm, w) (sm', w) h rfl
  have hw' : (sm.run w ops).2 = (sm'.run w ops).2 := hw
  have ha' : Alike (sm.run w ops).1 (sm'.run w ops).1 := ha
  unfold BehaveAlike
  rw [hw']
  obtain ⟨e1, e2, e3, e4⟩ := ha'.same_event e args (sm'.run w ops).2
  obtain ⟨c1, c2, c3, -⟩ := ha'.same_can e args (sm'.run w ops).2
  exact ⟨rfl, ha'.1, e1, e2, e3, e4.1, c1, c2, c3⟩

end alike

section misfiled
variable {ε σ α χ ω : Type} [DecidableEq ε] [DecidableEq σ]

/-- An option applied to machines that are alike leaves machines that are
alike. -/
theorem Alike.apply {m m' : StateMachine ε σ α χ ω} (h : Alike m m') (c : Config ε σ α χ ω) :
    Alike (Config.apply m c) (Config.apply m' c) := by
  obtain ⟨hcur, htab, hslot⟩ := h
  cases c with
  | initial s =>
    exact ⟨rfl, htab, fun h =>
      (slot_congr (Config.apply m (.initial s)) m rfl rfl rfl h).trans
        ((hslot h).trans
          (slot_congr m' (Config.apply m' (.initial s)) rfl rfl rfl h))⟩
  | afterCallback cb =>
    refine ⟨hcur, htab, fun h => ?_⟩
    cases h with
    | before e => exact hslot (.before e)
    | after e => exact hslot (.after e)
    | enter s => exact hslot (.enter s)
    | leave s => exact hslot (.leave s)
    | cbAfter => rfl
  | events es =>
    refine ⟨hcur, ?_, fun h =>
      (slot_congr (Config.apply m (.events es)) m rfl rfl rfl h).trans
        ((hslot h).trans
          (slot_congr m' (Config.apply m' (.events es)) rfl rfl rfl h))⟩
    intro k
    simp only [Config.apply, tableAfter, GoMap.lookup]
    exact congrArg _ (htab k)
  | loops ls =>
    refine ⟨hcur, ?_, fun h =>
      (slot_congr (Config.apply m (.loops ls)) m rfl rfl rfl h).trans
        ((hslot h).trans
          (slot_congr m' (Config.apply m' (.loops ls)) rfl rfl rfl h))⟩
    intro k
    simp only [Config.apply, tableAfter, GoMap.lookup]
    exact congrArg _ (htab k)
  | eventCallbacks cbs =>
    refine ⟨hcur, htab, fun h => ?_⟩
    cases h with
    | before e =>
      simp only [StateMachine.slot, Config.apply, registryAfter_read]
      exact congrArg _ (hslot (.before e))
    | after e =>
      simp only [StateMachine.slot, Config.apply, registryAfter_read]
      exact congrArg _ (hslot (.after e))
    | enter s => exact hslot (.enter s)
    | leave s => exact hslot (.leave s)
    | cbAfter => exact hslot .cbAfter
  | stateCallbacks cbs =>
    refine ⟨hcur, htab, fun h => ?_⟩
    cases h with
    | before e => exact hslot (.before e)
    | after e => exact hslot (.after e)
    | enter s =>
      simp only [StateMachine.slot, Config.apply, registryAfter_read]
      exact congrArg _ (hslot (.enter s))
    | leave s =>
      simp only [StateMachine.slot, Config.apply, registryAfter_read]
      exact congrArg _ (hslot (.leave s))
    | cbAfter => exact hslot .cbAfter

/-- Options applied in order to machines that are alike leave machines that
are alike. -/
theorem Alike.foldl (cs : List (Config ε σ α χ ω)) :
    ∀ m m' : StateMachine ε σ α χ ω, Alike m m' →
      Alike (cs.foldl Config.apply m) (cs.foldl Config.apply m') := by
  induction cs with
  | nil => intro m m' h; exact h
  | cons c rest ih => intro m m' h; exact ih _ _ (h.apply c)

/-- C20: a descriptor given to `WithEventCallbacks` with a kind other than
`Before` and `After`, or to `WithStateCallbacks` with a kind other than
`Enter` and `Leave`, is accepted, `New` returning without panic, and changes
nothing that can be observed: the machine built with the descriptor and the
machine built without it, used from the same host world for any sequence of
calls of `Event` and `Can` and one more call of either, leave the same host
world and current state, return the same and make the same calls of
callbacks, so the callback of the descriptor is never called. -/
theorem misfiled_callback_ignored (pre post : List (Config ε σ α χ ω)) (w : ω)
    (ops : List (Op ε α)) (e : ε) (args : List α) :
    (∀ (earlier later : EventCallbacks ε σ α χ ω) (d : eventCallbackDesc ε σ α χ ω),
      d.Type_ ≠ Before → d.Type_ ≠ After →
      ∃ sm sm',
        New ((pre ++ .eventCallbacks (earlier ++ d :: later) :: post).map Config.option) =
          .returned sm ∧
        New ((pre ++ .eventCallbacks (earlier ++ later) :: post).map Config.option) =
          .returned sm' ∧
        BehaveAlike sm sm' w ops e args) ∧
    (∀ (earlier later : StateCallbacks ε σ α χ ω) (d : stateCallbackDesc ε σ α χ ω),
      d.Type_ ≠ Enter → d.Type_ ≠ Leave →
      ∃ sm sm',
        New ((pre ++ .stateCallbacks (earlier ++ d :: later) :: post).map Config.option) =
          .returned sm ∧
        New ((pre ++ .stateCallbacks (earlier ++ later) :: post).map Config.option) =
          .returned sm' ∧
        BehaveAlike sm sm' w ops e args) := by
  constructor
  · intro earlier later d hb ha
    refine ⟨_, _, New_returns _, New_returns _, Alike.behave ?_ w ops e args⟩
    rw [List.foldl_append, List.foldl_append, List.foldl_cons, List.foldl_cons]
    apply Alike.foldl
    refine ⟨rfl, fun _ => rfl, fun h => ?_⟩
    cases h with
    | before e' =>
      simp only [StateMachine.slot, Config.apply, registryAfter_read, List.map_append,
        List.map_cons]
      exact registeredAfter_without _ _ _ Before e' _ hb
    | after e' =>
      simp only [StateMachine.slot, Config.apply, registryAfter_read, List.map_append,
        List.map_cons]
      exact registeredAfter_without _ _ _ After e' _ ha
    | enter s => rfl
    | leave s => rfl
    | cbAfter => rfl
  · intro earlier later d hb ha
    refine ⟨_, _, New_returns _, New_returns _, Alike.behave ?_ w ops e args⟩
    rw [List.foldl_append, List.foldl_append, List.foldl_cons, List.foldl_cons]
    apply Alike.foldl
    refine ⟨rfl, fun _ => rfl, fun h => ?_⟩
    cases h with
    | before e' => rfl
    | after e' => rfl
    | enter s =>
      simp only [StateMachine.slot, Config.apply, registryAfter_read, List.map_append,
        List.map_cons]
      exact registeredAfter_without _ _ _ Enter s _ hb
    | leave s =>
      simp only [StateMachine.slot, Config.apply, registryAfter_read, List.map_append,
        List.map_cons]
      exact registeredAfter_without _ _ _ Leave s _ ha
    | cbAfter => rfl

end misfiled

/-! ## The order of the options -/

section order
variable {ε σ α χ ω : Type} [DecidableEq ε] [DecidableEq σ]

/-- Two lists of descriptors that do not both write a key can be applied in
either order. -/
theorem overwritten_comm (ds1 ds2 : List (Descriptor ε σ)) (k : node ε σ)
    (entry : Option (State σ))
    (h : ¬ ((∃ d ∈ ds1, d.writes k = true) ∧ (∃ d ∈ ds2, d.writes k = true))) :
    overwritten ds2 k (overwritten ds1 k entry) = overwritten ds1 k (overwritten ds2 k entry) := by
  by_cases h1 : ∃ d ∈ ds1, d.writes k = true
  · have h2 : ∀ d ∈ ds2, d.writes k = false := by
      intro d hd
      by_contra hcon
      exact h ⟨h1, d, hd, by simpa using hcon⟩
    rw [overwritten_of_not_written ds2 k _ h2, overwritten_of_not_written ds2 k _ h2]
  · have h1' : ∀ d ∈ ds1, d.writes k = false := by
      intro d hd
      by_contra hcon
      exact h1 ⟨d, hd, by simpa using hcon⟩
    rw [overwritten_of_not_written ds1 k _ h1', overwritten_of_not_written ds1 k _ h1']

/-- Two lists of descriptors that write no common key leave the same table in
either order. -/
theorem tableAfter_comm (ds1 ds2 : List (Descriptor ε σ)) (t : transitions ε σ)
    (h : ∀ k, ¬ ((∃ d ∈ ds1, d.writes k = true) ∧ (∃ d ∈ ds2, d.writes k = true))) :
    tableAfter ds2 (tableAfter ds1 t) = tableAfter ds1 (tableAfter ds2 t) := by
  unfold tableAfter
  congr 2
  funext k
  exact overwritten_comm ds1 ds2 k _ (h k)

end order

section orderOfRegistrations
variable {κ ν : Type} [DecidableEq κ]

/-- Two lists of registrations that do not both write a kind and a key can be
made in either order. -/
theorem registeredAfter_comm (ds1 ds2 : List (Registration κ ν)) (kind : Int) (key : κ)
    (entry : Option ν)
    (h : ¬ ((∃ d ∈ ds1, d.1 = kind ∧ d.2.1 = key) ∧ (∃ d ∈ ds2, d.1 = kind ∧ d.2.1 = key))) :
    registeredAfter ds2 kind key (registeredAfter ds1 kind key entry) =
      registeredAfter ds1 kind key (registeredAfter ds2 kind key entry) := by
  by_cases h1 : ∃ d ∈ ds1, d.1 = kind ∧ d.2.1 = key
  · have h2 : ∀ d ∈ ds2, ¬ (d.1 = kind ∧ d.2.1 = key) := fun d hd hcon => h ⟨h1, d, hd, hcon⟩
    rw [registeredAfter_of_not_written ds2 kind key _ h2,
      registeredAfter_of_not_written ds2 kind key _ h2]
  · have h1' : ∀ d ∈ ds1, ¬ (d.1 = kind ∧ d.2.1 = key) := fun d hd hcon => h1 ⟨d, hd, hcon⟩
    rw [registeredAfter_of_not_written ds1 kind key _ h1',
      registeredAfter_of_not_written ds1 kind key _ h1']

/-- Two lists of registrations that write no common kind and key leave the
same registry in either order. -/
theorem registryAfter_comm (ds1 ds2 : List (Registration κ ν)) (reg : GoMap Int (GoMap κ ν))
    (h : ∀ kind key,
      ¬ ((∃ d ∈ ds1, d.1 = kind ∧ d.2.1 = key) ∧ (∃ d ∈ ds2, d.1 = kind ∧ d.2.1 = key))) :
    registryAfter ds2 (registryAfter ds1 reg) = registryAfter ds1 (registryAfter ds2 reg) := by
  rw [← registryAfter_append, ← registryAfter_append]
  unfold registryAfter
  congr 2
  funext kind
  rw [touches_append, touches_append, Bool.or_comm]
  by_cases ht : (touches ds2 kind || touches ds1 kind) = true
  · simp only [ht, if_true]
    congr 3
    funext key
    rw [registeredAfter_append, registeredAfter_append]
    exact registeredAfter_comm ds1 ds2 kind key _ (h kind key)
  · simp only [ht, Bool.false_eq_true, if_false]

end orderOfRegistrations

section permuted
variable {ε σ α χ ω : Type} [DecidableEq ε] [DecidableEq σ]

/-- Two disjoint options leave the same machine in either order. -/
theorem Config.apply_comm (c1 c2 : Config ε σ α χ ω) (h : Config.Disjoint c1 c2)
    (m : StateMachine ε σ α χ ω) :
    Config.apply (Config.apply m c1) c2 = Config.apply (Config.apply m c2) c1 := by
  have htable : ∀ (ds1 ds2 : List (Descriptor ε σ)),
      (∀ k, ¬ ((∃ d ∈ ds1, d.writes k = true) ∧ (∃ d ∈ ds2, d.writes k = true))) →
      ({ m with transitions := tableAfter ds2 (tableAfter ds1 m.transitions) } :
        StateMachine ε σ α χ ω) =
        { m with transitions := tableAfter ds1 (tableAfter ds2 m.transitions) } := by
    intro ds1 ds2 hk
    rw [tableAfter_comm ds1 ds2 _ hk]
  cases c1 with
  | initial s1 =>
    cases c2 with
    | initial s2 => exact absurd ⟨rfl, rfl⟩ (h .initial)
    | events es2 => rfl
    | loops ls2 => rfl
    | eventCallbacks cbs2 => rfl
    | stateCallbacks cbs2 => rfl
    | afterCallback cb2 => rfl
  | afterCallback cb1 =>
    cases c2 with
    | initial s2 => rfl
    | events es2 => rfl
    | loops ls2 => rfl
    | eventCallbacks cbs2 => rfl
    | stateCallbacks cbs2 => rfl
    | afterCallback cb2 => exact absurd ⟨rfl, rfl⟩ (h .afterCallback)
  | events es1 =>
    cases c2 with
    | initial s2 => rfl
    | events es2 =>
      refine htable (es1.map .event) (es2.map .event) fun k hk => h (.transition k) ?_
      obtain ⟨⟨d1, hd1, hw1⟩, ⟨d2, hd2, hw2⟩⟩ := hk
      simp only [List.mem_map] at hd1 hd2
      obtain ⟨e1, he1, rfl⟩ := hd1
      obtain ⟨e2, he2, rfl⟩ := hd2
      simp only [Config.writes, List.any_eq_true]
      exact ⟨⟨e1, he1, hw1⟩, ⟨e2, he2, hw2⟩⟩
    | loops ls2 =>
      refine htable (es1.map .event) (ls2.map .loop) fun k hk => h (.transition k) ?_
      obtain ⟨⟨d1, hd1, hw1⟩, ⟨d2, hd2, hw2⟩⟩ := hk
      simp only [List.mem_map] at hd1 hd2
      obtain ⟨e1, he1, rfl⟩ := hd1
      obtain ⟨e2, he2, rfl⟩ := hd2
      simp only [Config.writes, List.any_eq_true]
      exact ⟨⟨e1, he1, hw1⟩, ⟨e2, he2, hw2⟩⟩
    | eventCallbacks cbs2 => rfl
    | stateCallbacks cbs2 => rfl
    | afterCallback cb2 => rfl
  | loops ls1 =>
    cases c2 with
    | initial s2 => rfl
    | events es2 =>
      refine htable (ls1.map .loop) (es2.map .event) fun k hk => h (.transition k) ?_
      obtain ⟨⟨d1, hd1, hw1⟩, ⟨d2, hd2, hw2⟩⟩ := hk
      simp only [List.mem_map] at hd1 hd2
      obtain ⟨e1, he1, rfl⟩ := hd1
      obtain ⟨e2, he2, rfl⟩ := hd2
      simp only [Config.writes, List.any_eq_true]
      exact ⟨⟨e1, he1, hw1⟩, ⟨e2, he2, hw2⟩⟩
    | loops ls2 =>
      refine htable (ls1.map .loop) (ls2.map .loop) fun k hk => h (.transition k) ?_
      obtain ⟨⟨d1, hd1, hw1⟩, ⟨d2, hd2, hw2⟩⟩ := hk
      simp only [List.mem_map] at hd1 hd2
      obtain ⟨e1, he1, rfl⟩ := hd1
      obtain ⟨e2, he2, rfl⟩ := hd2
      simp only [Config.writes, List.any_eq_true]
      exact ⟨⟨e1, he1, hw1⟩, ⟨e2, he2, hw2⟩⟩
    | eventCallbacks cbs2 => rfl
    | stateCallbacks cbs2 => rfl
    | afterCallback cb2 => rfl
  | eventCallbacks cbs1 =>
    cases c2 with
    | initial s2 => rfl
    | events es2 => rfl
    | loops ls2 => rfl
    | eventCallbacks cbs2 =>
      have hreg := registryAfter_comm (cbs1.map registrationOfEvent)
        (cbs2.map registrationOfEvent) m.cbEvent (by
          intro kind key hk
          apply h (.eventCallback kind key)
          obtain ⟨⟨d1, hd1, hw1⟩, ⟨d2, hd2, hw2⟩⟩ := hk
          simp only [List.mem_map] at hd1 hd2
          obtain ⟨e1, he1, rfl⟩ := hd1
          obtain ⟨e2, he2, rfl⟩ := hd2
          simp only [Config.writes, List.any_eq_true, decide_eq_true_eq]
          exact ⟨⟨e1, he1, hw1⟩, ⟨e2, he2, hw2⟩⟩)
      simp only [Config.apply, hreg]
    | stateCallbacks cbs2 => rfl
    | afterCallback cb2 => rfl
  | stateCallbacks cbs1 =>
    cases c2 with
    | initial s2 => rfl
    | events es2 => rfl
    | loops ls2 => rfl
    | eventCallbacks cbs2 => rfl
    | stateCallbacks cbs2 =>
      have hreg := registryAfter_comm (cbs1.map registrationOfState)
        (cbs2.map registrationOfState) m.cbState (by
          intro kind key hk
          apply h (.stateCallback kind key)
          obtain ⟨⟨d1, hd1, hw1⟩, ⟨d2, hd2, hw2⟩⟩ := hk
          simp only [List.mem_map] at hd1 hd2
          obtain ⟨e1, he1, rfl⟩ := hd1
          obtain ⟨e2, he2, rfl⟩ := hd2
          simp only [Config.writes, List.any_eq_true, decide_eq_true_eq]
          exact ⟨⟨e1, he1, hw1⟩, ⟨e2, he2, hw2⟩⟩)
      simp only [Config.apply, hreg]
    | afterCallback cb2 => rfl

/-- In a list of pairwise disjoint options, any two options are equal or
disjoint. -/
theorem disjoint_of_pairwise (cs : List (Config ε σ α χ ω))
    (h : cs.Pairwise Config.Disjoint) :
    ∀ x ∈ cs, ∀ y ∈ cs, x = y ∨ Config.Disjoint x y := by
  induction cs with
  | nil => intro x hx; simp at hx
  | cons c rest ih =>
    rw [List.pairwise_cons] at h
    intro x hx y hy
    rcases List.mem_cons.mp hx with rfl | hx'
    · rcases List.mem_cons.mp hy with rfl | hy'
      · exact Or.inl rfl
      · exact Or.inr (h.1 y hy')
    · rcases List.mem_cons.mp hy with rfl | hy'
      · right
        intro s hs
        exact h.1 x hx' s ⟨hs.2, hs.1⟩
      · exact ih h.2 x hx' y hy'

/-- C14: when no two options of a list write the same slot (the initial state,
a key of the transition table, a kind and key of a callback registry, or the
global after callback), `New` on the list and `New` on any permutation of it
return, without panic, the same machine: the same current state, transition
table, callback registries and global after callback. -/
theorem New_permutation (cs cs' : List (Config ε σ α χ ω)) (hperm : cs.Perm cs')
    (hdisjoint : cs.Pairwise Config.Disjoint) :
    ∃ sm, New (cs.map Config.option) = .returned sm ∧
      New (cs'.map Config.option) = .returned sm := by
  refine ⟨_, New_returns cs, ?_⟩
  rw [New_returns cs']
  congr 1
  symm
  apply hperm.foldl_eq'
  intro x hx y hy z
  rcases disjoint_of_pairwise cs hdisjoint x hx y hy with rfl | hd
  · rfl
  · exact Config.apply_comm x y hd z

end permuted

/-! ## Panics -/

section panics
variable {ε σ α χ ω : Type} [DecidableEq ε] [DecidableEq σ]

/-- Without an entry for the event and the current state, `Event` and `Can`
return an `InvalidTransitionError`. -/
theorem Event_invalid_transition_aux (sm : StateMachine ε σ α χ ω) (e : ε) (args : List α)
    (w : ω) (hT : sm.transitions.lookup ⟨e, sm.Current⟩ = none) :
    (sm.Event e args w).result = .returned (some (.InvalidTransitionError e sm.Current)) ∧
    (sm.Can e args w).result =
      .returned (false, some (.InvalidTransitionError e sm.Current)) := by
  constructor
  · unfold StateMachine.Event; simp [hT]
  · unfold StateMachine.Can; simp [hT]

/-- The calls of `Event` and of `Can` return, without panic, on every machine
in which no slot holds the nil function value. -/
theorem returns_unless_nil (sm : StateMachine ε σ α χ ω) (e : ε) (args : List α) (w : ω)
    (hnil : ∀ h, sm.slot h ≠ some none) :
    (∃ r, (sm.Event e args w).result = .returned r) ∧
    (∃ r, (sm.Can e args w).result = .returned r) := by
  have hpre : ∀ dst, ∀ d ∈ sm.preHooks e dst, d.slot ≠ some none := by
    intro dst d hd
    simp only [StateMachine.preHooks, List.mem_cons, List.mem_singleton,
      List.not_mem_nil, or_false] at hd
    rcases hd with rfl | rfl | rfl <;> (simp only; exact hnil _)
  have hpost : ∀ dst, ∀ d ∈ sm.postHooks e dst, d.slot ≠ some none := by
    intro dst d hd
    simp only [StateMachine.postHooks, List.mem_cons, List.mem_singleton,
      List.not_mem_nil, or_false] at hd
    rcases hd with rfl | rfl <;> (simp only; exact hnil _)
  have hans : ∀ (slot : Option (callbackFn ε σ α χ ω)) (c : Call ε σ α χ),
      slot ≠ some none → Answers slot c → c.ret ≠ .panicked := by
    intro slot c hs ha hp
    rcases ha with ⟨h1, -⟩ | ⟨f, w1, -, h2⟩
    · exact hs h1
    · rw [h2] at hp; simp at hp
  cases hT : sm.transitions.lookup ⟨e, sm.Current⟩ with
  | none =>
    constructor
    · exact ⟨_, (Event_invalid_transition_aux sm e args w hT).1⟩
    · exact ⟨_, (Event_invalid_transition_aux sm e args w hT).2⟩
  | some dst =>
    constructor
    · rcases Event_trace sm e args w dst hT with
        ⟨ret, -, hres, -, hcs⟩ | ⟨-, hres, -⟩ | ⟨-, ret, -, hres, -, hcs⟩ | ⟨-, hres, -⟩
      · obtain ⟨earlier, hk, hcs, -⟩ := preStopped_split hcs
        rcases Event_calls_due sm e args w dst hT ⟨hk, sm.Current, args, ret⟩
          (by rw [hcs]; simp) with ⟨d, hd, -, -, -, ha⟩ | ⟨-, d, hd, -, -, -, ha⟩
        · have := hans _ _ (hpre dst d hd) ha
          cases ret with
          | returned r => exact ⟨r, hres⟩
          | panicked => exact absurd rfl this
        · have := hans _ _ (hpost dst d hd) ha
          cases ret with
          | returned r => exact ⟨r, hres⟩
          | panicked => exact absurd rfl this
      · exact ⟨_, hres⟩
      · have hmem : ∃ hk, (⟨hk, dst, args, ret⟩ : Call ε σ α χ) ∈ (sm.Event e args w).calls := by
          rcases hcs with ⟨-, hcs⟩ | ⟨-, hcs⟩
          · exact ⟨.after e, by rw [hcs]; simp⟩
          · exact ⟨.cbAfter, by rw [hcs]; simp⟩
        obtain ⟨hk, hmem⟩ := hmem
        rcases Event_calls_due sm e args w dst hT _ hmem with
          ⟨d, hd, -, -, -, ha⟩ | ⟨-, d, hd, -, -, -, ha⟩
        · have := hans _ _ (hpre dst d hd) ha
          cases ret with
          | returned r => exact ⟨r, hres⟩
          | panicked => exact absurd rfl this
        · have := hans _ _ (hpost dst d hd) ha
          cases ret with
          | returned r => exact ⟨r, hres⟩
          | panicked => exact absurd rfl this
      · exact ⟨_, hres⟩
    · rcases Can_trace sm e args w dst hT with ⟨ret, -, hres, -, hcs⟩ | ⟨hres, -⟩
      · obtain ⟨earlier, hk, hcs, -⟩ := preStopped_split hcs
        obtain ⟨d, hd, -, -, -, ha⟩ := Can_calls_due sm e args w dst hT
          ⟨hk, sm.Current, args, ret⟩ (by rw [hcs]; simp)
        have := hans _ _ (hpre dst d hd) ha
        cases ret with
        | returned r => exact ⟨_, hres⟩
        | panicked => exact absurd rfl this
      · exact ⟨_, hres⟩

end panics

/-! ## The later claims on the machines of the tests -/

section laterWitnesses
open test

/-- C12 as first stated fails on the machine whose `After` callback of `a-b`
returns an error: `Event(a-b)` from `StateA` changes the current state to
`StateB` and yet returns the error, not nil. -/
theorem Event_changes_state_and_fails :
    ((built afterFails).Event .EventAtoB [] []).sm.Current ≠ (built afterFails).Current ∧
    (built afterFails).Current = some .StateA ∧
    ((built afterFails).Event .EventAtoB [] []).sm.Current = some .StateB ∧
    ((built afterFails).Event .EventAtoB [] []).result = .returned (some (.other "too late")) ∧
    ((built afterFails).Event .EventAtoB [] []).result ≠ .returned none := by
  decide

/-- C12 as amended, on the machine whose `After` callback of `a-b` returns an
error. -/
theorem Event_state_change_witness :
    ((built afterFails).Event .EventAtoB [] []).sm.Current ≠ (built afterFails).Current ∧
    ∃ dst, (built afterFails).transitions.lookup ⟨.EventAtoB, (built afterFails).Current⟩ =
        some dst ∧ dst ≠ (built afterFails).Current ∧
      ((built afterFails).Event .EventAtoB [] []).sm.Current = dst :=
  ⟨by decide, by
    obtain ⟨dst, h1, h2, h3, -⟩ :=
      Event_state_change (built afterFails) .EventAtoB [] [] (by decide)
    exact ⟨dst, h1, h2, h3⟩⟩

/-- C13 fails on a machine that `New` builds with a nil callback registered for
`Before(a-b)`: `New` returns, and `Event(a-b)` and `Can(a-b)` panic, having
called the nil function value; with the nil function value given to
`WithAfterCallback` instead, `Event(a-b)` returns nil, the source testing
`sm.cbAfter != nil` before the call. -/
theorem nil_callback_panics :
    (∃ sm, nilBefore = .returned sm) ∧
    ((built nilBefore).Event .EventAtoB [] []).result = .panicked ∧
    ((built nilBefore).Can .EventAtoB [] []).result = .panicked ∧
    ((built nilBefore).Event .EventAtoB [] []).calls =
      [⟨.before .EventAtoB, some .StateA, [], .panicked⟩] ∧
    (∃ sm, nilAfter = .returned sm) ∧
    ((built nilAfter).Event .EventAtoB [] []).result = .returned none ∧
    ((built nilAfter).Event .EventAtoB [] []).calls = [] := by
  have h1 := New_returns (ε := event) (σ := state) (α := Info) (χ := String) (ω := Stdout)
    [.initial (some .StateA), .events [⟨.EventAtoB, [some .StateA], some .StateB⟩],
      .eventCallbacks [⟨Before, .EventAtoB, none⟩]]
  have h2 := New_returns (ε := event) (σ := state) (α := Info) (χ := String) (ω := Stdout)
    [.initial (some .StateA), .events [⟨.EventAtoB, [some .StateA], some .StateB⟩],
      .afterCallback none]
  exact ⟨⟨_, h1⟩, by decide, by decide, by decide, ⟨_, h2⟩, by decide, by decide⟩

/-- C14 on three options that write different slots, taken in the opposite
order. -/
theorem New_permutation_witness :
    disjointOptions.Perm disjointOptions.reverse ∧
    disjointOptions.Pairwise Config.Disjoint ∧
    ∃ sm, New (disjointOptions.map Config.option) = .returned sm ∧
      New (disjointOptions.reverse.map Config.option) = .returned sm := by
  have hperm : disjointOptions.Perm disjointOptions.reverse :=
    (List.reverse_perm disjointOptions).symm
  have hdisjoint : disjointOptions.Pairwise Config.Disjoint := by
    unfold disjointOptions
    refine List.Pairwise.cons ?_ (List.Pairwise.cons ?_ (List.Pairwise.cons ?_ List.Pairwise.nil))
    · intro c hc
      simp only [List.mem_cons, List.mem_singleton, List.not_mem_nil, or_false] at hc
      rcases hc with rfl | rfl
      · intro s
        cases s with
        | transition k =>
          simp only [Config.writes, List.any_cons, List.any_nil, Bool.or_false,
            decide_eq_true_eq]
          rintro ⟨⟨h1, -⟩, h2, -⟩
          rw [← h1] at h2
          exact absurd h2 (by decide)
        | initial => simp [Config.writes]
        | eventCallback kind e => simp [Config.writes]
        | stateCallback kind s => simp [Config.writes]
        | afterCallback => simp [Config.writes]
      · intro s
        cases s <;> simp [Config.writes]
    · intro c hc
      simp only [List.mem_singleton] at hc
      subst hc
      intro s
      cases s <;> simp [Config.writes]
    · intro c hc
      simp at hc
  exact ⟨hperm, hdisjoint, New_permutation disjointOptions disjointOptions.reverse hperm hdisjoint⟩

/-- C17 on a machine where `StateB` is both an event and a state: the callback
registered for the event under `Enter` is not found for `Enter(StateB)` and
the callback registered for the state under `Before` is not found for
`Before(StateB)`. -/
theorem New_callbacks_found_witness :
    ∃ sm, New (crossedOptions.map Config.option) = .returned sm ∧
      sm.slot (.enter (some .StateB)) = none ∧ sm.slot (.before (some .StateB)) = none := by
  obtain ⟨sm, h1, h2, -, h3, -⟩ := New_callbacks_found crossedOptions
  exact ⟨sm, h1, (h3 (some .StateB)).trans rfl, (h2 (some .StateB)).trans rfl⟩

/-- C18 on the machine of `Reset` and the calls of scenario A of the
specification. -/
theorem run_reachable_witness :
    ((built Reset).run []
        [.Event .EventLoop [], .Event .EventAtoB [], .Can .EventBtoC [],
          .Event .EventBtoC []]).1.Current = (built Reset).Current ∨
      ∃ k, (built Reset).transitions.lookup k =
        some ((built Reset).run []
          [.Event .EventLoop [], .Event .EventAtoB [], .Can .EventBtoC [],
            .Event .EventBtoC []]).1.Current :=
  (run_reachable (built Reset) []
    [.Event .EventLoop [], .Event .EventAtoB [], .Can .EventBtoC [], .Event .EventBtoC []]).1

/-- C20 on the options of `Reset` with one more descriptor, given to
`WithEventCallbacks` with the kind `Enter`, whose callback returns an error:
`Event(a-b)` behaves as on the machine of `Reset`. -/
theorem misfiled_callback_ignored_witness :
    misfiled.Type_ ≠ Before ∧ misfiled.Type_ ≠ After ∧
    ∃ sm sm',
      New ((resetOptions ++ [Config.eventCallbacks ([] ++ [misfiled])]).map Config.option) =
        .returned sm ∧
      New ((resetOptions ++ [Config.eventCallbacks ([] ++ [])]).map Config.option) =
        .returned sm' ∧
      BehaveAlike sm sm' [] [] .EventAtoB [] :=
  ⟨by decide, by decide,
    (misfiled_callback_ignored resetOptions [] [] [] .EventAtoB []).1 [] [] misfiled
      (by decide) (by decide)⟩

/-- C16 on the machine of `Reset`, whose callbacks print and return the nil
error in every host world: `Can(a-b)` in one host world and `Event(a-b)` in
another make the same calls of `Before`, `Enter` and `Leave`. -/
theorem Can_agrees_with_Event_witness :
    (∀ h cb, (built Reset).slot h = some cb → FunctionOfArguments cb) ∧
    ((built Reset).Can .EventAtoB [] []).calls =
      ((built Reset).Event .EventAtoB [] [("earlier output", none)]).calls.filter
        (fun c => c.hook.pre) := by
  have hprint : ∀ label, FunctionOfArguments (printing label) :=
    fun label => ⟨_, rfl, fun _ _ _ _ => rfl⟩
  have hfun : ∀ h cb, (built Reset).slot h = some cb → FunctionOfArguments cb := by
    intro h cb hs
    cases h with
    | before e =>
      cases e
      · obtain rfl : printing "before_a-b" = cb := Option.some.inj hs
        exact hprint _
      · exact Option.noConfusion (show (none : Option _) = some cb from hs)
      · exact Option.noConfusion (show (none : Option _) = some cb from hs)
    | after e =>
      cases e
      · obtain rfl : printing "after_a-b" = cb := Option.some.inj hs
        exact hprint _
      · exact Option.noConfusion (show (none : Option _) = some cb from hs)
      · exact Option.noConfusion (show (none : Option _) = some cb from hs)
    | enter s =>
      rcases s with _ | s
      · exact Option.noConfusion (show (none : Option _) = some cb from hs)
      · cases s
        · exact Option.noConfusion (show (none : Option _) = some cb from hs)
        · obtain rfl : printing "enter_b" = cb := Option.some.inj hs
          exact hprint _
        · exact Option.noConfusion (show (none : Option _) = some cb from hs)
    | leave s =>
      rcases s with _ | s
      · exact Option.noConfusion (show (none : Option _) = some cb from hs)
      · cases s
        · exact Option.noConfusion (show (none : Option _) = some cb from hs)
        · obtain rfl : printing "leave_b" = cb := Option.some.inj hs
          exact hprint _
        · exact Option.noConfusion (show (none : Option _) = some cb from hs)
    | cbAfter =>
      obtain rfl : printing "" = cb := Option.some.inj hs
      exact hprint _
  exact ⟨hfun,
    (Can_agrees_with_Event (built Reset) .EventAtoB [] [] [("earlier output", none)] hfun).1⟩

end laterWitnesses

/-! ## Callbacks applied one after the other -/

section applied
variable {ε σ α χ ω : Type}

/-- The callbacks of two lists of due hooks succeed one list after the other
exactly when those of the first succeed and those of the second succeed in the
world that the first leave. -/
theorem passes_append (args : List α) (a b : List (Due ε σ α χ ω)) (w : ω) :
    passes args (a ++ b) w = (passes args a w && passes args b (worldThrough args a w)) := by
  induction a generalizing w with
  | nil => simp [passes, worldThrough]
  | cons d rest ih =>
    simp only [List.cons_append, passes, worldThrough]
    rcases d.slot with _ | _ | f
    · exact ih w
    · rfl
    · exact (congrArg (fun t => (f d.current args w).1.isNone && t) (ih _)).trans
        (Bool.and_assoc _ _ _).symm

/-- The world left by the callbacks of two lists of due hooks, applied one list
after the other. -/
theorem worldThrough_append (args : List α) (a b : List (Due ε σ α χ ω)) (w : ω) :
    worldThrough args (a ++ b) w = worldThrough args b (worldThrough args a w) := by
  induction a generalizing w with
  | nil => rfl
  | cons d rest ih =>
    simp only [List.cons_append, worldThrough]
    rcases d.slot with _ | _ | f
    · exact ih w
    · exact ih w
    · exact ih _

/-- When control falls through a run of hook blocks, the callbacks of the run
all succeed, applied one after the other; the world left is the one they leave,
and every call recorded by the run returned the nil error. -/
theorem runHooks_next (args : List α) (plan : List (Due ε σ α χ ω)) :
    ∀ (r r1 : Run ε σ α χ ω), runHooks args plan r = (r1, none) →
      passes args plan r.world = true ∧ r1.world = worldThrough args plan r.world ∧
      ∀ c ∈ r1.calls, c ∈ r.calls ∨ c.ret = .returned none := by
  induction plan with
  | nil =>
    intro r r1 h
    simp only [runHooks, Prod.mk.injEq, and_true] at h
    subst h
    exact ⟨rfl, rfl, fun c hc => Or.inl hc⟩
  | cons d rest ih =>
    intro r r1 h
    unfold runHooks at h
    rcases hb : hookBlock d.slot d.hook d.current args r with ⟨r2, _ | stop⟩
    · rw [hb] at h
      simp only at h
      obtain ⟨hp, hw, hc⟩ := ih r2 r1 h
      rcases hookBlock_next hb with ⟨hs, rfl⟩ | ⟨f, w, hs, hf, rfl⟩
      · refine ⟨?_, ?_, hc⟩
        · simp only [passes, hs]; exact hp
        · simp only [worldThrough, hs]; exact hw
      · refine ⟨?_, ?_, ?_⟩
        · simp only [passes, hs, hf, Option.isNone_none, Bool.true_and]; exact hp
        · simp only [worldThrough, hs, hf]; exact hw
        · intro c hmem
          rcases hc c hmem with h1 | h1
          · simp only [List.mem_append, List.mem_singleton] at h1
            rcases h1 with h1 | rfl
            · exact Or.inl h1
            · exact Or.inr rfl
          · exact Or.inr h1
    · rw [hb] at h
      simp at h

/-- When the callbacks of a run of hook blocks all succeed, applied one after
the other, control falls through the run. -/
theorem runHooks_of_passes (args : List α) (plan : List (Due ε σ α χ ω)) :
    ∀ (r : Run ε σ α χ ω), passes args plan r.world = true →
      ∃ r1, runHooks args plan r = (r1, none) := by
  induction plan with
  | nil => intro r _; exact ⟨r, rfl⟩
  | cons d rest ih =>
    intro r hp
    unfold runHooks hookBlock
    unfold passes at hp
    rcases hs : d.slot with _ | _ | f
    · rw [hs] at hp
      exact ih r hp
    · rw [hs] at hp
      simp at hp
    · rw [hs] at hp
      simp only [Bool.and_eq_true, Option.isNone_iff_eq_none] at hp
      simp only [callbackFn.call]
      rcases hf : f d.current args r.world with ⟨err, w⟩
      rw [hf] at hp
      obtain ⟨rfl, hp⟩ := hp
      exact ih ⟨w, r.calls ++ [⟨d.hook, d.current, args, .returned none⟩]⟩ hp

/-- When a run of hook blocks stops the call, the last call recorded did not
return the nil error, and the callbacks of the run do not all succeed. -/
theorem runHooks_stop (args : List α) (plan : List (Due ε σ α χ ω)) :
    ∀ (r r1 : Run ε σ α χ ω) (stop : Result (error ε σ χ)),
      runHooks args plan r = (r1, some stop) →
      (∃ c ∈ r1.calls, c.ret ≠ .returned none) ∧ passes args plan r.world = false := by
  intro r r1 stop h
  constructor
  · induction plan generalizing r with
    | nil => simp [runHooks] at h
    | cons d rest ih =>
      unfold runHooks at h
      rcases hb : hookBlock d.slot d.hook d.current args r with ⟨r2, _ | s⟩
      · rw [hb] at h
        exact ih r2 h
      · rw [hb] at h
        simp only [Prod.mk.injEq, Option.some.injEq] at h
        obtain ⟨rfl, rfl⟩ := h
        obtain ⟨cb, w, ret, -, rfl, hst⟩ := hookBlock_stop hb
        exact ⟨⟨d.hook, d.current, args, ret⟩, by simp, hst.event.2⟩
  · cases hp : passes args plan r.world with
    | false => rfl
    | true =>
      obtain ⟨r2, h2⟩ := runHooks_of_passes args plan r hp
      rw [h2] at h
      simp at h

/-- When the callbacks of the first hooks of a run succeed and the callback of
the next, applied in the world they leave, returns the error `err`, the run is
stopped with `err` in the world that this callback leaves, its call being the
last one recorded. -/
theorem runHooks_fails (args : List α) (earlier : List (Due ε σ α χ ω)) (d : Due ε σ α χ ω)
    (later : List (Due ε σ α χ ω)) (f : State σ → List α → ω → Option (error ε σ χ) × ω)
    (err : error ε σ χ) (w1 : ω) (hs : d.slot = some (some f)) :
    ∀ (r : Run ε σ α χ ω), passes args earlier r.world = true →
      f d.current args (worldThrough args earlier r.world) = (some err, w1) →
      ∃ r1, runHooks args (earlier ++ d :: later) r = (r1, some (.returned err)) ∧
        r1.world = w1 ∧
        r1.calls.getLast? = some ⟨d.hook, d.current, args, .returned (some err)⟩ := by
  induction earlier with
  | nil =>
    intro r _ hf
    simp only [worldThrough] at hf
    refine ⟨⟨w1, r.calls ++ [⟨d.hook, d.current, args, .returned (some err)⟩]⟩, ?_, rfl, by simp⟩
    simp only [List.nil_append, runHooks, hookBlock, hs, callbackFn.call, hf]
  | cons d0 rest ih =>
    intro r hp hf
    simp only [List.cons_append]
    unfold runHooks hookBlock
    unfold passes at hp
    unfold worldThrough at hf
    rcases hs0 : d0.slot with _ | _ | f0
    · rw [hs0] at hp hf
      exact ih r hp hf
    · rw [hs0] at hp
      simp at hp
    · rw [hs0] at hp hf
      simp only [Bool.and_eq_true, Option.isNone_iff_eq_none] at hp
      simp only [callbackFn.call] at hf ⊢
      rcases hf0 : f0 d0.current args r.world with ⟨err0, w0⟩
      rw [hf0] at hp hf
      obtain ⟨rfl, hp⟩ := hp
      exact ih ⟨w0, r.calls ++ [⟨d0.hook, d0.current, args, .returned none⟩]⟩ hp hf

end applied

section appliedDispatch
variable {ε σ α χ ω : Type} [DecidableEq ε] [DecidableEq σ]

/-- On a transition to another state, the calls that `Event` makes all return
the nil error exactly when the callbacks registered for the five hooks all
succeed, applied one after the other in the order `Before(e)`, `Enter(dst)`,
`Leave(src)`, `After(e)`, global after callback. -/
theorem Event_succeeds_iff (sm : StateMachine ε σ α χ ω) (e : ε) (args : List α) (w : ω)
    (dst : State σ) (hT : sm.transitions.lookup ⟨e, sm.Current⟩ = some dst)
    (hne : dst ≠ sm.Current) :
    (∀ c ∈ (sm.Event e args w).calls, c.ret = .returned none) ↔
      passes args (sm.preHooks e dst ++ sm.postHooks e dst) w = true := by
  rw [Event_eq_runHooks sm e args w dst hT, passes_append, Bool.and_eq_true]
  rcases hpre : runHooks args (sm.preHooks e dst) ⟨w, []⟩ with ⟨r, _ | stop⟩
  · obtain ⟨hp, hw, hc⟩ := runHooks_next args _ _ _ hpre
    simp only [if_neg hne]
    simp only at hw
    rcases hpost : runHooks args (sm.postHooks e dst) r with ⟨r1, _ | stop⟩
    · obtain ⟨hp1, -, hc1⟩ := runHooks_next args _ _ _ hpost
      simp only
      refine ⟨fun _ => ⟨hp, by rw [← hw]; exact hp1⟩, fun _ c hmem => ?_⟩
      rcases hc1 c hmem with h1 | h1
      · rcases hc c h1 with h2 | h2
        · simp at h2
        · exact h2
      · exact h1
    · obtain ⟨⟨c, hmem, hret⟩, hp1⟩ := runHooks_stop args _ _ _ _ hpost
      simp only
      constructor
      · intro hok
        exact absurd (hok c hmem) hret
      · rintro ⟨-, h2⟩
        rw [← hw, hp1] at h2
        simp at h2
  · obtain ⟨⟨c, hmem, hret⟩, hp⟩ := runHooks_stop args _ _ _ _ hpre
    simp only at hp ⊢
    constructor
    · intro hok
      exact absurd (hok c hmem) hret
    · rintro ⟨h1, -⟩
      rw [hp] at h1
      simp at h1

/-- On a transition to another state, when the callbacks registered for the
five hooks all succeed, `Event` leaves the host world that they leave, applied
one after the other in the order of the hooks. -/
theorem Event_world_of_passes (sm : StateMachine ε σ α χ ω) (e : ε) (args : List α) (w : ω)
    (dst : State σ) (hT : sm.transitions.lookup ⟨e, sm.Current⟩ = some dst)
    (hne : dst ≠ sm.Current)
    (hp : passes args (sm.preHooks e dst ++ sm.postHooks e dst) w = true) :
    (sm.Event e args w).world =
      worldThrough args (sm.preHooks e dst ++ sm.postHooks e dst) w := by
  rw [passes_append, Bool.and_eq_true] at hp
  obtain ⟨r, hpre⟩ := runHooks_of_passes args (sm.preHooks e dst) ⟨w, []⟩ hp.1
  obtain ⟨-, hw, -⟩ := runHooks_next args _ _ _ hpre
  simp only at hw
  obtain ⟨r1, hpost⟩ := runHooks_of_passes args (sm.postHooks e dst) r (by rw [hw]; exact hp.2)
  obtain ⟨-, hw1, -⟩ := runHooks_next args _ _ _ hpost
  rw [Event_eq_runHooks sm e args w dst hT, hpre]
  simp only [if_neg hne, hpost]
  rw [worldThrough_append, hw1, hw]

/-- On a registered transition, when the callbacks registered for `Before(e)`,
`Enter(dst)` and `Leave(current)` all succeed, applied one after the other,
`Can` returns `(true, nil)` and leaves the host world that they leave. -/
theorem Can_of_passes (sm : StateMachine ε σ α χ ω) (e : ε) (args : List α) (w : ω)
    (dst : State σ) (hT : sm.transitions.lookup ⟨e, sm.Current⟩ = some dst)
    (hp : passes args (sm.preHooks e dst) w = true) :
    (sm.Can e args w).result = .returned (true, none) ∧
    (sm.Can e args w).world = worldThrough args (sm.preHooks e dst) w := by
  obtain ⟨r, hpre⟩ := runHooks_of_passes args (sm.preHooks e dst) ⟨w, []⟩ hp
  obtain ⟨-, hw, -⟩ := runHooks_next args _ _ _ hpre
  rw [Can_eq_runHooks sm e args w dst hT, hpre]
  exact ⟨rfl, hw⟩

/-- On a registered transition, when the callback registered for one of
`Before(e)`, `Enter(dst)`, `Leave(current)` returns the error `err`, applied in
the world left by the callbacks of the hooks before it, which succeed, `Can`
returns `(false, err)` and leaves the world that this callback leaves, its call
being the last one made. -/
theorem Can_of_fails (sm : StateMachine ε σ α χ ω) (e : ε) (args : List α) (w : ω)
    (dst : State σ) (hT : sm.transitions.lookup ⟨e, sm.Current⟩ = some dst)
    (earlier : List (Due ε σ α χ ω)) (d : Due ε σ α χ ω) (later : List (Due ε σ α χ ω))
    (f : State σ → List α → ω → Option (error ε σ χ) × ω) (err : error ε σ χ) (w1 : ω)
    (hsplit : sm.preHooks e dst = earlier ++ d :: later)
    (hp : passes args earlier w = true) (hs : d.slot = some (some f))
    (hf : f d.current args (worldThrough args earlier w) = (some err, w1)) :
    (sm.Can e args w).result = .returned (false, some err) ∧
    (sm.Can e args w).world = w1 ∧
    (sm.Can e args w).calls.getLast? =
      some ⟨d.hook, d.current, args, .returned (some err)⟩ := by
  obtain ⟨r1, hrun, hw, hlast⟩ :=
    runHooks_fails args earlier d later f err w1 hs ⟨w, []⟩ hp hf
  rw [Can_eq_runHooks sm e args w dst hT, hsplit, hrun]
  exact ⟨rfl, hw, hlast⟩

end appliedDispatch

/-! ## Callbacks that write the argument slice -/

section slice
variable {ε σ α χ ω : Type}

/-- A linked list of calls stays linked when a call is added that is handed
the elements left by the list, and the elements left are then those that the
added call leaves. -/
theorem Linked_append (args : List α) (calls : List (SliceCall ε σ α χ))
    (c : SliceCall ε σ α χ) (h : Linked args calls) (hc : c.args = leftAfter args calls) :
    Linked args (calls ++ [c]) ∧ leftAfter args (calls ++ [c]) = c.left := by
  induction calls generalizing args with
  | nil => exact ⟨⟨hc, trivial⟩, rfl⟩
  | cons c0 rest ih =>
    obtain ⟨h0, h1⟩ := h
    obtain ⟨h2, h3⟩ := ih c0.left h1 hc
    exact ⟨⟨h0, h2⟩, h3⟩

/-- In a linked list of calls none of which writes the slice, every call is
handed the elements that the first was handed, and these are left. -/
theorem Linked_unwritten (args : List α) (calls : List (SliceCall ε σ α χ))
    (h : Linked args calls) (hleft : ∀ c ∈ calls, c.left = c.args) :
    (∀ c ∈ calls, c.args = args) ∧ leftAfter args calls = args := by
  induction calls generalizing args with
  | nil => exact ⟨fun c hc => absurd hc (List.not_mem_nil c), rfl⟩
  | cons c0 rest ih =>
    obtain ⟨h0, h1⟩ := h
    have hl : c0.left = args := (hleft c0 (List.mem_cons_self _ _)).trans h0
    rw [hl] at h1
    obtain ⟨h2, h3⟩ := ih args h1 (fun c hc => hleft c (List.mem_cons_of_mem _ hc))
    refine ⟨?_, ?_⟩
    · intro c hc
      rcases List.mem_cons.mp hc with rfl | hc
      · exact h0
      · exact h2 c hc
    · show leftAfter c0.left rest = args
      rw [hl]
      exact h3

/-- A hook block for callbacks that may write the slice records at most one
call, of its own hook, with the state it was given; the call is handed the
elements that the slice holds, it answers the slot of the block, and the slice
holds afterwards what the call left. -/
theorem hookBlockSlice_calls (slot : Option (callbackFn ε σ α χ (List α × ω))) (h : Hook ε σ)
    (cur : State σ) (r : SliceRun ε σ α χ ω) :
    (hookBlockSlice slot h cur r).1 = r ∨
    ∃ c, (hookBlockSlice slot h cur r).1.calls = r.calls ++ [c] ∧
      (hookBlockSlice slot h cur r).1.args = c.left ∧
      c.hook = h ∧ c.current = cur ∧ c.args = r.args ∧ AnswersSlice slot c := by
  unfold hookBlockSlice
  cases slot with
  | none => left; rfl
  | some cb =>
    right
    cases cb with
    | none =>
      exact ⟨⟨h, cur, r.args, r.args, .panicked⟩, rfl, rfl, rfl, rfl, rfl,
        Or.inl ⟨rfl, rfl, rfl⟩⟩
    | some f =>
      simp only [callbackFn.callSlice]
      rcases hf : f cur r.args (r.args, r.world) with ⟨err, left, w⟩
      refine ⟨⟨h, cur, r.args, left, .returned err⟩, ?_, ?_, rfl, rfl, rfl,
        Or.inr ⟨f, r.world, rfl, ?_, ?_⟩⟩
      · cases err <;> rfl
      · cases err <;> rfl
      · simp [hf]
      · simp [hf]

/-- A run of hook blocks for callbacks that may write the slice keeps the
recorded calls linked from the elements that the call was given, the slice
holding what the last call left; every call it adds is the call of a hook of
the run, with the state due to it, and answers the slot of that hook. -/
theorem runHooksSlice_calls (args : List α) (Q : SliceCall ε σ α χ → Prop)
    (plan : List (Due ε σ α χ (List α × ω)))
    (hQ : ∀ d ∈ plan, ∀ c : SliceCall ε σ α χ, c.hook = d.hook → c.current = d.current →
      AnswersSlice d.slot c → Q c) :
    ∀ (r : SliceRun ε σ α χ ω), Linked args r.calls → r.args = leftAfter args r.calls →
      (∀ c ∈ r.calls, Q c) →
      Linked args (runHooksSlice plan r).1.calls ∧
      (runHooksSlice plan r).1.args = leftAfter args (runHooksSlice plan r).1.calls ∧
      ∀ c ∈ (runHooksSlice plan r).1.calls, Q c := by
  induction plan with
  | nil => intro r h1 h2 h3; exact ⟨h1, h2, h3⟩
  | cons d rest ih =>
    intro r h1 h2 h3
    have hb := hookBlockSlice_calls d.slot d.hook d.current r
    have step : Linked args (hookBlockSlice d.slot d.hook d.current r).1.calls ∧
        (hookBlockSlice d.slot d.hook d.current r).1.args =
          leftAfter args (hookBlockSlice d.slot d.hook d.current r).1.calls ∧
        ∀ c ∈ (hookBlockSlice d.slot d.hook d.current r).1.calls, Q c := by
      rcases hb with hb | ⟨c, hcalls, hargs, hh, hcur, hgiven, hans⟩
      · rw [hb]; exact ⟨h1, h2, h3⟩
      · obtain ⟨hl, hleft⟩ := Linked_append args r.calls c h1 (hgiven.trans h2)
        rw [hcalls, hargs]
        refine ⟨hl, hleft.symm, ?_⟩
        intro c' hc'
        rcases List.mem_append.mp hc' with hc' | hc'
        · exact h3 c' hc'
        · rw [List.mem_singleton.mp hc']
          exact hQ d (List.mem_cons_self _ _) c hh hcur hans
    unfold runHooksSlice
    rcases hblock : hookBlockSlice d.slot d.hook d.current r with ⟨r1, _ | stop⟩
    · rw [hblock] at step
      exact ih (fun d' hd' => hQ d' (List.mem_cons_of_mem _ hd')) r1 step.1 step.2.1 step.2.2
    · rw [hblock] at step
      exact step

/-- Reading a map with a function applied to its values. -/
theorem GoMap.lookup_map {κ ν μ : Type} (g : ν → μ) (m : GoMap κ ν) (k : κ) :
    (m.map g).lookup k = (m.lookup k).map g := by
  unfold GoMap.map GoMap.lookup
  cases m.cells <;> rfl

/-- Reading a map of maps with a function applied to the values of the inner
maps. -/
theorem GoMap.index_map {κ κ' ν μ : Type} (g : ν → μ) (m : GoMap κ (GoMap κ' ν)) (k : κ) :
    (m.map (GoMap.map g)).index k = (m.index k).map g := by
  unfold GoMap.index
  rw [GoMap.lookup_map]
  cases m.lookup k <;> rfl

/-- The slots of a machine whose callbacks do not write the slice, seen as a
machine whose callbacks may write it. -/
theorem slot_unwriting (sm : StateMachine ε σ α χ ω) (h : Hook ε σ) :
    sm.unwriting.slot h = (sm.slot h).map callbackFn.unwriting := by
  cases h with
  | before e => simp only [StateMachine.slot, StateMachine.unwriting, GoMap.index_map,
      GoMap.lookup_map]
  | enter s => simp only [StateMachine.slot, StateMachine.unwriting, GoMap.index_map,
      GoMap.lookup_map]
  | leave s => simp only [StateMachine.slot, StateMachine.unwriting, GoMap.index_map,
      GoMap.lookup_map]
  | after e => simp only [StateMachine.slot, StateMachine.unwriting, GoMap.index_map,
      GoMap.lookup_map]
  | cbAfter =>
    simp only [StateMachine.slot, StateMachine.unwriting]
    cases sm.cbAfter <;> rfl

/-- A hook block whose callback does not write the slice does the same with
and without the slice carried along: the same world, the same record, the same
way out, and the slice left as it was. -/
theorem hookBlockSlice_unwriting (slot : Option (callbackFn ε σ α χ ω)) (h : Hook ε σ)
    (cur : State σ) (args : List α) (r : Run ε σ α χ ω) (rs : SliceRun ε σ α χ ω)
    (hw : rs.world = r.world) (ha : rs.args = args)
    (hc : rs.calls.map SliceCall.call = r.calls) (hl : ∀ c ∈ rs.calls, c.left = c.args) :
    (hookBlockSlice (slot.map callbackFn.unwriting) h cur rs).2 =
      (hookBlock slot h cur args r).2 ∧
    (hookBlockSlice (slot.map callbackFn.unwriting) h cur rs).1.world =
      (hookBlock slot h cur args r).1.world ∧
    (hookBlockSlice (slot.map callbackFn.unwriting) h cur rs).1.args = args ∧
    (hookBlockSlice (slot.map callbackFn.unwriting) h cur rs).1.calls.map SliceCall.call =
      (hookBlock slot h cur args r).1.calls ∧
    ∀ c ∈ (hookBlockSlice (slot.map callbackFn.unwriting) h cur rs).1.calls,
      c.left = c.args := by
  cases slot with
  | none => exact ⟨rfl, hw, ha, hc, hl⟩
  | some cb =>
    cases cb with
    | none =>
      simp only [hookBlockSlice, hookBlock, callbackFn.callSlice, callbackFn.call,
        callbackFn.unwriting, Option.map_some', Option.map_none']
      refine ⟨by trivial, hw, ha, ?_, ?_⟩
      · simp [SliceCall.call, hc, ha]
      · intro c hmem
        rcases List.mem_append.mp hmem with hmem | hmem
        · exact hl c hmem
        · rw [List.mem_singleton.mp hmem]
    | some f =>
      simp only [hookBlockSlice, hookBlock, callbackFn.callSlice, callbackFn.call,
        callbackFn.unwriting, Option.map_some', hw, ha]
      rcases f cur args r.world with ⟨_ | err, w⟩
      · refine ⟨rfl, rfl, rfl, ?_, ?_⟩
        · simp [SliceCall.call, hc, ha]
        · intro c hmem
          rcases List.mem_append.mp hmem with hmem | hmem
          · exact hl c hmem
          · rw [List.mem_singleton.mp hmem]
      · refine ⟨rfl, rfl, rfl, ?_, ?_⟩
        · simp [SliceCall.call, hc, ha]
        · intro c hmem
          rcases List.mem_append.mp hmem with hmem | hmem
          · exact hl c hmem
          · rw [List.mem_singleton.mp hmem]

/-- A run of hook blocks whose callbacks do not write the slice does the same
with and without the slice carried along. -/
theorem runHooksSlice_unwriting (args : List α) (plan : List (Due ε σ α χ ω)) :
    ∀ (r : Run ε σ α χ ω) (rs : SliceRun ε σ α χ ω), rs.world = r.world → rs.args = args →
      rs.calls.map SliceCall.call = r.calls → (∀ c ∈ rs.calls, c.left = c.args) →
      (runHooksSlice (plan.map Due.unwriting) rs).2 = (runHooks args plan r).2 ∧
      (runHooksSlice (plan.map Due.unwriting) rs).1.world = (runHooks args plan r).1.world ∧
      (runHooksSlice (plan.map Due.unwriting) rs).1.args = args ∧
      (runHooksSlice (plan.map Due.unwriting) rs).1.calls.map SliceCall.call =
        (runHooks args plan r).1.calls ∧
      ∀ c ∈ (runHooksSlice (plan.map Due.unwriting) rs).1.calls, c.left = c.args := by
  induction plan with
  | nil => intro r rs hw ha hc hl; exact ⟨rfl, hw, ha, hc, hl⟩
  | cons d rest ih =>
    intro r rs hw ha hc hl
    obtain ⟨h2, hw1, ha1, hc1, hl1⟩ :=
      hookBlockSlice_unwriting d.slot d.hook d.current args r rs hw ha hc hl
    simp only [List.map_cons, runHooksSlice, runHooks, Due.unwriting]
    rcases hb : hookBlock d.slot d.hook d.current args r with ⟨r1, o⟩
    rcases hbs : hookBlockSlice (d.slot.map callbackFn.unwriting) d.hook d.current rs
      with ⟨rs1, os⟩
    rw [hb, hbs] at h2 hw1 hc1
    rw [hbs] at ha1 hl1
    simp only at h2 hw1 ha1 hc1 hl1
    subst h2
    cases os with
    | none => exact ih r1 rs1 hw1 ha1 hc1 hl1
    | some stop => exact ⟨rfl, hw1, ha1, hc1, hl1⟩

/-- The hooks due before the change of state on a machine whose callbacks do
not write the slice, seen as a machine whose callbacks may write it. -/
theorem preHooks_unwriting (sm : StateMachine ε σ α χ ω) (e : ε) (dst : State σ) :
    sm.unwriting.preHooks e dst = (sm.preHooks e dst).map Due.unwriting := by
  simp only [StateMachine.preHooks, List.map_cons, List.map_nil, Due.unwriting, slot_unwriting]
  rfl

/-- The hooks due after the change of state on a machine whose callbacks do
not write the slice, seen as a machine whose callbacks may write it. -/
theorem postHooks_unwriting (sm : StateMachine ε σ α χ ω) (e : ε) (dst : State σ) :
    sm.unwriting.postHooks e dst = (sm.postHooks e dst).map Due.unwriting := by
  simp only [StateMachine.postHooks, List.map_cons, List.map_nil, Due.unwriting,
    slot_unwriting]

/-- The slots of a machine whose callbacks take the elements of the slice from
the world they are called in. -/
theorem slot_threaded (sm : StateMachine ε σ α χ (List α × ω)) (h : Hook ε σ) :
    sm.threaded.slot h = (sm.slot h).map callbackFn.threaded := by
  cases h with
  | before e => simp only [StateMachine.slot, StateMachine.threaded, GoMap.index_map,
      GoMap.lookup_map]
  | enter s => simp only [StateMachine.slot, StateMachine.threaded, GoMap.index_map,
      GoMap.lookup_map]
  | leave s => simp only [StateMachine.slot, StateMachine.threaded, GoMap.index_map,
      GoMap.lookup_map]
  | after e => simp only [StateMachine.slot, StateMachine.threaded, GoMap.index_map,
      GoMap.lookup_map]
  | cbAfter =>
    simp only [StateMachine.slot, StateMachine.threaded]
    cases sm.cbAfter <;> rfl

/-- The hooks due before the change of state on a machine whose callbacks take
the elements of the slice from the world they are called in. -/
theorem preHooks_threaded (sm : StateMachine ε σ α χ (List α × ω)) (e : ε) (dst : State σ) :
    sm.threaded.preHooks e dst = (sm.preHooks e dst).map Due.threaded := by
  simp only [StateMachine.preHooks, List.map_cons, List.map_nil, Due.threaded, slot_threaded]
  rfl

/-- The hooks due after the change of state on a machine whose callbacks take
the elements of the slice from the world they are called in. -/
theorem postHooks_threaded (sm : StateMachine ε σ α χ (List α × ω)) (e : ε) (dst : State σ) :
    sm.threaded.postHooks e dst = (sm.postHooks e dst).map Due.threaded := by
  simp only [StateMachine.postHooks, List.map_cons, List.map_nil, Due.threaded,
    slot_threaded]

/-- A hook block for a callback that may write the slice is the hook block of
the callback that takes the elements of the slice from the host world: the
same way out, the same slice and world afterwards, the same hook, state and
result recorded. -/
theorem hookBlockSlice_threaded (slot : Option (callbackFn ε σ α χ (List α × ω)))
    (h : Hook ε σ) (cur : State σ) (args : List α) (r : Run ε σ α χ (List α × ω))
    (rs : SliceRun ε σ α χ ω) (hw : r.world = (rs.args, rs.world))
    (hc : rs.calls.map (fun c => (c.hook, c.current, c.ret)) =
      r.calls.map (fun c => (c.hook, c.current, c.ret))) :
    (hookBlockSlice slot h cur rs).2 =
      (hookBlock (slot.map callbackFn.threaded) h cur args r).2 ∧
    (hookBlock (slot.map callbackFn.threaded) h cur args r).1.world =
      ((hookBlockSlice slot h cur rs).1.args, (hookBlockSlice slot h cur rs).1.world) ∧
    (hookBlockSlice slot h cur rs).1.calls.map (fun c => (c.hook, c.current, c.ret)) =
      (hookBlock (slot.map callbackFn.threaded) h cur args r).1.calls.map
        (fun c => (c.hook, c.current, c.ret)) := by
  cases slot with
  | none => exact ⟨rfl, hw, hc⟩
  | some cb =>
    cases cb with
    | none =>
      simp only [hookBlockSlice, hookBlock, callbackFn.callSlice, callbackFn.call,
        callbackFn.threaded, Option.map_some', Option.map_none', List.map_append, hc]
      exact ⟨by trivial, hw, by trivial⟩
    | some f =>
      simp only [hookBlockSlice, hookBlock, callbackFn.callSlice, callbackFn.call,
        callbackFn.threaded, Option.map_some', hw]
      rcases f cur rs.args (rs.args, rs.world) with ⟨_ | err, left, w⟩
      · simp only [List.map_append, hc]
        exact ⟨by trivial, by trivial, by trivial⟩
      · simp only [List.map_append, hc]
        exact ⟨by trivial, by trivial, by trivial⟩

/-- A run of hook blocks for callbacks that may write the slice is the run of
the callbacks that take the elements of the slice from the host world. -/
theorem runHooksSlice_threaded (args : List α) (plan : List (Due ε σ α χ (List α × ω))) :
    ∀ (r : Run ε σ α χ (List α × ω)) (rs : SliceRun ε σ α χ ω),
      r.world = (rs.args, rs.world) →
      rs.calls.map (fun c => (c.hook, c.current, c.ret)) =
        r.calls.map (fun c => (c.hook, c.current, c.ret)) →
      (runHooksSlice plan rs).2 = (runHooks args (plan.map Due.threaded) r).2 ∧
      (runHooks args (plan.map Due.threaded) r).1.world =
        ((runHooksSlice plan rs).1.args, (runHooksSlice plan rs).1.world) ∧
      (runHooksSlice plan rs).1.calls.map (fun c => (c.hook, c.current, c.ret)) =
        (runHooks args (plan.map Due.threaded) r).1.calls.map
          (fun c => (c.hook, c.current, c.ret)) := by
  induction plan with
  | nil => intro r rs hw hc; exact ⟨rfl, hw, hc⟩
  | cons d rest ih =>
    intro r rs hw hc
    obtain ⟨h2, hw1, hc1⟩ := hookBlockSlice_threaded d.slot d.hook d.current args r rs hw hc
    simp only [List.map_cons, runHooksSlice, runHooks, Due.threaded]
    rcases hb : hookBlock (d.slot.map callbackFn.threaded) d.hook d.current args r
      with ⟨r1, o⟩
    rcases hbs : hookBlockSlice d.slot d.hook d.current rs with ⟨rs1, os⟩
    rw [hb, hbs] at h2 hw1 hc1
    simp only at h2 hw1 hc1
    subst h2
    cases os with
    | none => exact ih r1 rs1 hw1 hc1
    | some stop => exact ⟨rfl, hw1, hc1⟩

end slice

section sliceDispatch
variable {ε σ α χ ω : Type} [DecidableEq ε] [DecidableEq σ]

/-- The method `Event`, for callbacks that may write the slice, as two runs of
hook blocks around the change of state. -/
theorem EventSlice_eq_runHooks (sm : StateMachine ε σ α χ (List α × ω)) (e : ε)
    (args : List α) (w : ω) (dst : State σ)
    (hT : sm.transitions.lookup ⟨e, sm.Current⟩ = some dst) :
    sm.EventSlice e args w =
      match runHooksSlice (sm.preHooks e dst) ⟨w, args, []⟩ with
      | (r, some stop) =>
        ⟨sm, r.world, r.args, r.calls, stop.bind fun err => .returned (some err)⟩
      | (r, none) =>
        if dst = sm.Current then ⟨sm, r.world, r.args, r.calls, .returned none⟩
        else
          match runHooksSlice (sm.postHooks e dst) r with
          | (r1, some stop) =>
            ⟨{ sm with current := dst }, r1.world, r1.args, r1.calls,
              stop.bind fun err => .returned (some err)⟩
          | (r1, none) =>
            ⟨{ sm with current := dst }, r1.world, r1.args, r1.calls, .returned none⟩ := by
  unfold StateMachine.EventSlice
  simp only [hT, runHooksSlice, StateMachine.preHooks, StateMachine.postHooks,
    StateMachine.slot]
  rcases hookBlockSlice ((sm.cbEvent.index Before).lookup e) (.before e) sm.Current
    ⟨w, args, []⟩ with ⟨r1, _ | s1⟩ <;> simp only []
  rcases hookBlockSlice ((sm.cbState.index Enter).lookup dst) (.enter dst) sm.Current r1
    with ⟨r2, _ | s2⟩ <;> simp only []
  rcases hookBlockSlice ((sm.cbState.index Leave).lookup sm.Current) (.leave sm.Current)
    sm.Current r2 with ⟨r3, _ | s3⟩ <;> simp only []
  by_cases hd : dst = sm.Current
  · simp only [hd, if_true]
  · simp only [hd, if_false]
    simp only [StateMachine.Current]
    rcases hookBlockSlice ((sm.cbEvent.index After).lookup e) (.after e) dst r3
      with ⟨r4, _ | s4⟩ <;> simp only []
    cases sm.cbAfter with
    | none => simp only [hookBlockSlice]
    | some f =>
      simp only [hookBlockSlice, callbackFn.callSlice]
      rcases f dst r4.args (r4.args, r4.world) with ⟨_ | err, left, w5⟩ <;> simp [Result.bind]

/-- The method `Can`, for callbacks that may write the slice, as one run of
hook blocks. -/
theorem CanSlice_eq_runHooks (sm : StateMachine ε σ α χ (List α × ω)) (e : ε)
    (args : List α) (w : ω) (dst : State σ)
    (hT : sm.transitions.lookup ⟨e, sm.Current⟩ = some dst) :
    sm.CanSlice e args w =
      match runHooksSlice (sm.preHooks e dst) ⟨w, args, []⟩ with
      | (r, some stop) =>
        ⟨sm, r.world, r.args, r.calls, stop.bind fun err => .returned (false, some err)⟩
      | (r, none) => ⟨sm, r.world, r.args, r.calls, .returned (true, none)⟩ := by
  unfold StateMachine.CanSlice
  simp only [hT, runHooksSlice, StateMachine.preHooks, StateMachine.slot]
  rcases hookBlockSlice ((sm.cbEvent.index Before).lookup e) (.before e) sm.Current
    ⟨w, args, []⟩ with ⟨r1, _ | s1⟩ <;> simp only []
  rcases hookBlockSlice ((sm.cbState.index Enter).lookup dst) (.enter dst) sm.Current r1
    with ⟨r2, _ | s2⟩ <;> simp only []
  rcases hookBlockSlice ((sm.cbState.index Leave).lookup sm.Current) (.leave sm.Current)
    sm.Current r2 with ⟨r3, _ | s3⟩ <;> simp only []

/-- On callbacks that do not write the argument slice, `EventSlice` is `Event`:
the same result, host world, machine and calls, every call being handed the
arguments of `Event` and leaving them in the slice. -/
theorem EventSlice_unwriting (sm : StateMachine ε σ α χ ω) (e : ε) (args : List α) (w : ω) :
    (sm.unwriting.EventSlice e args w).result = (sm.Event e args w).result ∧
    (sm.unwriting.EventSlice e args w).world = (sm.Event e args w).world ∧
    (sm.unwriting.EventSlice e args w).args = args ∧
    (sm.unwriting.EventSlice e args w).calls.map SliceCall.call = (sm.Event e args w).calls ∧
    (∀ c ∈ (sm.unwriting.EventSlice e args w).calls, c.left = c.args) ∧
    (sm.unwriting.EventSlice e args w).sm = (sm.Event e args w).sm.unwriting := by
  cases hT : sm.transitions.lookup ⟨e, sm.Current⟩ with
  | none =>
    have hT' : sm.unwriting.transitions.lookup ⟨e, sm.unwriting.Current⟩ = none := hT
    unfold StateMachine.EventSlice StateMachine.Event
    simp only [hT, hT']
    exact ⟨by trivial, by trivial, by trivial, by trivial,
      fun c hc => absurd hc (List.not_mem_nil c), by trivial⟩
  | some dst =>
    have hT' : sm.unwriting.transitions.lookup ⟨e, sm.unwriting.Current⟩ = some dst := hT
    have hcur : sm.unwriting.Current = sm.Current := rfl
    rw [EventSlice_eq_runHooks sm.unwriting e args w dst hT',
      Event_eq_runHooks sm e args w dst hT, preHooks_unwriting, postHooks_unwriting, hcur]
    obtain ⟨h2, hw1, ha1, hc1, hl1⟩ := runHooksSlice_unwriting args (sm.preHooks e dst)
      ⟨w, []⟩ ⟨w, args, []⟩ rfl rfl rfl (fun c hc => absurd hc (List.not_mem_nil c))
    rcases hpre : runHooks args (sm.preHooks e dst) ⟨w, []⟩ with ⟨r, o⟩
    rcases hpres : runHooksSlice ((sm.preHooks e dst).map Due.unwriting) ⟨w, args, []⟩
      with ⟨rs, os⟩
    rw [hpre, hpres] at h2 hw1 hc1
    rw [hpres] at ha1 hl1
    simp only at h2 hw1 ha1 hc1 hl1
    subst h2
    cases os with
    | some stop => exact ⟨rfl, hw1, ha1, hc1, hl1, rfl⟩
    | none =>
      by_cases hd : dst = sm.Current
      · simp only [if_pos hd]
        exact ⟨by trivial, hw1, ha1, hc1, hl1, by trivial⟩
      · simp only [if_neg hd]
        obtain ⟨h3, hw2, ha2, hc2, hl2⟩ := runHooksSlice_unwriting args (sm.postHooks e dst)
          r rs hw1 ha1 hc1 hl1
        rcases hpost : runHooks args (sm.postHooks e dst) r with ⟨r1, o1⟩
        rcases hposts : runHooksSlice ((sm.postHooks e dst).map Due.unwriting) rs
          with ⟨rs1, os1⟩
        rw [hpost, hposts] at h3 hw2 hc2
        rw [hposts] at ha2 hl2
        simp only at h3 hw2 ha2 hc2 hl2
        subst h3
        cases os1 with
        | some stop => exact ⟨rfl, hw2, ha2, hc2, hl2, rfl⟩
        | none => exact ⟨rfl, hw2, ha2, hc2, hl2, rfl⟩

/-- On callbacks that do not write the argument slice, `CanSlice` is `Can`. -/
theorem CanSlice_unwriting (sm : StateMachine ε σ α χ ω) (e : ε) (args : List α) (w : ω) :
    (sm.unwriting.CanSlice e args w).result = (sm.Can e args w).result ∧
    (sm.unwriting.CanSlice e args w).world = (sm.Can e args w).world ∧
    (sm.unwriting.CanSlice e args w).args = args ∧
    (sm.unwriting.CanSlice e args w).calls.map SliceCall.call = (sm.Can e args w).calls ∧
    (∀ c ∈ (sm.unwriting.CanSlice e args w).calls, c.left = c.args) ∧
    (sm.unwriting.CanSlice e args w).sm = (sm.Can e args w).sm.unwriting := by
  cases hT : sm.transitions.lookup ⟨e, sm.Current⟩ with
  | none =>
    have hT' : sm.unwriting.transitions.lookup ⟨e, sm.unwriting.Current⟩ = none := hT
    unfold StateMachine.CanSlice StateMachine.Can
    simp only [hT, hT']
    exact ⟨by trivial, by trivial, by trivial, by trivial,
      fun c hc => absurd hc (List.not_mem_nil c), by trivial⟩
  | some dst =>
    have hT' : sm.unwriting.transitions.lookup ⟨e, sm.unwriting.Current⟩ = some dst := hT
    rw [CanSlice_eq_runHooks sm.unwriting e args w dst hT',
      Can_eq_runHooks sm e args w dst hT, preHooks_unwriting]
    obtain ⟨h2, hw1, ha1, hc1, hl1⟩ := runHooksSlice_unwriting args (sm.preHooks e dst)
      ⟨w, []⟩ ⟨w, args, []⟩ rfl rfl rfl (fun c hc => absurd hc (List.not_mem_nil c))
    rcases hpre : runHooks args (sm.preHooks e dst) ⟨w, []⟩ with ⟨r, o⟩
    rcases hpres : runHooksSlice ((sm.preHooks e dst).map Due.unwriting) ⟨w, args, []⟩
      with ⟨rs, os⟩
    rw [hpre, hpres] at h2 hw1 hc1
    rw [hpres] at ha1 hl1
    simp only at h2 hw1 ha1 hc1 hl1
    subst h2
    cases os with
    | some stop => exact ⟨rfl, hw1, ha1, hc1, hl1, rfl⟩
    | none => exact ⟨rfl, hw1, ha1, hc1, hl1, rfl⟩

/-- With callbacks that may write the argument slice, `EventSlice` is `Event`
on the callbacks that take the elements of the slice from the host world, the
slice being part of that world: the same result, the same hooks called in the
same order with the same states and the same results, the same machine, the
same world and elements of the slice afterwards. What is proved of `Event` for
every machine and host world, the arguments handed apart, holds therefore of
callbacks that write the slice. -/
theorem EventSlice_threaded (sm : StateMachine ε σ α χ (List α × ω)) (e : ε) (args : List α)
    (w : ω) :
    (sm.EventSlice e args w).result = (sm.threaded.Event e args (args, w)).result ∧
    (sm.threaded.Event e args (args, w)).world =
      ((sm.EventSlice e args w).args, (sm.EventSlice e args w).world) ∧
    (sm.EventSlice e args w).calls.map (fun c => (c.hook, c.current, c.ret)) =
      (sm.threaded.Event e args (args, w)).calls.map (fun c => (c.hook, c.current, c.ret)) ∧
    (sm.EventSlice e args w).sm.threaded = (sm.threaded.Event e args (args, w)).sm := by
  cases hT : sm.transitions.lookup ⟨e, sm.Current⟩ with
  | none =>
    have hT' : sm.threaded.transitions.lookup ⟨e, sm.threaded.Current⟩ = none := hT
    unfold StateMachine.EventSlice StateMachine.Event
    simp only [hT, hT']
    exact ⟨by trivial, by trivial, by trivial, by trivial⟩
  | some dst =>
    have hT' : sm.threaded.transitions.lookup ⟨e, sm.threaded.Current⟩ = some dst := hT
    have hcur : sm.threaded.Current = sm.Current := rfl
    rw [EventSlice_eq_runHooks sm e args w dst hT,
      Event_eq_runHooks sm.threaded e args (args, w) dst hT', preHooks_threaded,
      postHooks_threaded, hcur]
    obtain ⟨h2, hw1, hc1⟩ := runHooksSlice_threaded args (sm.preHooks e dst)
      ⟨(args, w), []⟩ ⟨w, args, []⟩ rfl rfl
    rcases hpre : runHooks args ((sm.preHooks e dst).map Due.threaded) ⟨(args, w), []⟩
      with ⟨r, o⟩
    rcases hpres : runHooksSlice (sm.preHooks e dst) ⟨w, args, []⟩ with ⟨rs, os⟩
    rw [hpre, hpres] at h2 hw1 hc1
    simp only at h2 hw1 hc1
    subst h2
    cases os with
    | some stop => exact ⟨rfl, hw1, hc1, rfl⟩
    | none =>
      by_cases hd : dst = sm.Current
      · simp only [if_pos hd]
        exact ⟨by trivial, hw1, hc1, by trivial⟩
      · simp only [if_neg hd]
        obtain ⟨h3, hw2, hc2⟩ := runHooksSlice_threaded args (sm.postHooks e dst)
          r rs hw1 hc1
        rcases hpost : runHooks args ((sm.postHooks e dst).map Due.threaded) r with ⟨r1, o1⟩
        rcases hposts : runHooksSlice (sm.postHooks e dst) rs with ⟨rs1, os1⟩
        rw [hpost, hposts] at h3 hw2 hc2
        simp only at h3 hw2 hc2
        subst h3
        cases os1 with
        | some stop => exact ⟨rfl, hw2, hc2, rfl⟩
        | none => exact ⟨rfl, hw2, hc2, rfl⟩

/-- With callbacks that may write the argument slice, `CanSlice` is `Can` on
the callbacks that take the elements of the slice from the host world. -/
theorem CanSlice_threaded (sm : StateMachine ε σ α χ (List α × ω)) (e : ε) (args : List α)
    (w : ω) :
    (sm.CanSlice e args w).result = (sm.threaded.Can e args (args, w)).result ∧
    (sm.threaded.Can e args (args, w)).world =
      ((sm.CanSlice e args w).args, (sm.CanSlice e args w).world) ∧
    (sm.CanSlice e args w).calls.map (fun c => (c.hook, c.current, c.ret)) =
      (sm.threaded.Can e args (args, w)).calls.map (fun c => (c.hook, c.current, c.ret)) ∧
    (sm.CanSlice e args w).sm.threaded = (sm.threaded.Can e args (args, w)).sm := by
  cases hT : sm.transitions.lookup ⟨e, sm.Current⟩ with
  | none =>
    have hT' : sm.threaded.transitions.lookup ⟨e, sm.threaded.Current⟩ = none := hT
    unfold StateMachine.CanSlice StateMachine.Can
    simp only [hT, hT']
    exact ⟨by trivial, by trivial, by trivial, by trivial⟩
  | some dst =>
    have hT' : sm.threaded.transitions.lookup ⟨e, sm.threaded.Current⟩ = some dst := hT
    rw [CanSlice_eq_runHooks sm e args w dst hT,
      Can_eq_runHooks sm.threaded e args (args, w) dst hT', preHooks_threaded]
    obtain ⟨h2, hw1, hc1⟩ := runHooksSlice_threaded args (sm.preHooks e dst)
      ⟨(args, w), []⟩ ⟨w, args, []⟩ rfl rfl
    rcases hpre : runHooks args ((sm.preHooks e dst).map Due.threaded) ⟨(args, w), []⟩
      with ⟨r, o⟩
    rcases hpres : runHooksSlice (sm.preHooks e dst) ⟨w, args, []⟩ with ⟨rs, os⟩
    rw [hpre, hpres] at h2 hw1 hc1
    simp only at h2 hw1 hc1
    subst h2
    cases os with
    | some stop => exact ⟨rfl, hw1, hc1, rfl⟩
    | none => exact ⟨rfl, hw1, hc1, rfl⟩

/-- Every call that `EventSlice` makes on a registered transition is the call
of a hook due before or after the change of state, with the state due to it,
and answers the slot of its hook; the calls are linked from the arguments of
`EventSlice`, and the slice holds at the end what the last call left. -/
theorem EventSlice_calls (sm : StateMachine ε σ α χ (List α × ω)) (e : ε) (args : List α)
    (w : ω) (dst : State σ) (hT : sm.transitions.lookup ⟨e, sm.Current⟩ = some dst) :
    Linked args (sm.EventSlice e args w).calls ∧
    (sm.EventSlice e args w).args = leftAfter args (sm.EventSlice e args w).calls ∧
    ∀ c ∈ (sm.EventSlice e args w).calls, AnswersSlice (sm.slot c.hook) c ∧
      (((c.hook = .before e ∨ c.hook = .enter dst ∨ c.hook = .leave sm.Current) ∧
          c.current = sm.Current) ∨
        ((c.hook = .after e ∨ c.hook = .cbAfter) ∧ c.current = dst ∧ dst ≠ sm.Current)) := by
  have hQpre : ∀ d ∈ sm.preHooks e dst, ∀ c : SliceCall ε σ α χ, c.hook = d.hook →
      c.current = d.current → AnswersSlice d.slot c →
      AnswersSlice (sm.slot c.hook) c ∧
      (((c.hook = .before e ∨ c.hook = .enter dst ∨ c.hook = .leave sm.Current) ∧
          c.current = sm.Current) ∨
        ((c.hook = .after e ∨ c.hook = .cbAfter) ∧ c.current = dst ∧ dst ≠ sm.Current)) := by
    intro d hd c hh hcur hans
    simp only [StateMachine.preHooks, List.mem_cons, List.mem_singleton,
      List.not_mem_nil, or_false] at hd
    rcases hd with rfl | rfl | rfl
    · exact ⟨by rw [hh]; exact hans, Or.inl ⟨Or.inl hh, hcur⟩⟩
    · exact ⟨by rw [hh]; exact hans, Or.inl ⟨Or.inr (Or.inl hh), hcur⟩⟩
    · exact ⟨by rw [hh]; exact hans, Or.inl ⟨Or.inr (Or.inr hh), hcur⟩⟩
  have hpre := runHooksSlice_calls args _ (sm.preHooks e dst) hQpre ⟨w, args, []⟩
    trivial rfl (fun c hc => absurd hc (List.not_mem_nil c))
  rw [EventSlice_eq_runHooks sm e args w dst hT]
  rcases hrun : runHooksSlice (sm.preHooks e dst) ⟨w, args, []⟩ with ⟨r, _ | stop⟩
  · rw [hrun] at hpre
    simp only at hpre
    by_cases hd : dst = sm.Current
    · simp only [if_pos hd]
      exact hpre
    · simp only [if_neg hd]
      have hQpost : ∀ d ∈ sm.postHooks e dst, ∀ c : SliceCall ε σ α χ, c.hook = d.hook →
          c.current = d.current → AnswersSlice d.slot c →
          AnswersSlice (sm.slot c.hook) c ∧
          (((c.hook = .before e ∨ c.hook = .enter dst ∨ c.hook = .leave sm.Current) ∧
              c.current = sm.Current) ∨
            ((c.hook = .after e ∨ c.hook = .cbAfter) ∧ c.current = dst ∧
              dst ≠ sm.Current)) := by
        intro d hmem c hh hcur hans
        simp only [StateMachine.postHooks, List.mem_cons, List.mem_singleton,
          List.not_mem_nil, or_false] at hmem
        rcases hmem with rfl | rfl
        · exact ⟨by rw [hh]; exact hans, Or.inr ⟨Or.inl hh, hcur, hd⟩⟩
        · exact ⟨by rw [hh]; exact hans, Or.inr ⟨Or.inr hh, hcur, hd⟩⟩
      have hpost := runHooksSlice_calls args _ (sm.postHooks e dst) hQpost r
        hpre.1 hpre.2.1 hpre.2.2
      rcases hrun2 : runHooksSlice (sm.postHooks e dst) r with ⟨r1, _ | stop⟩ <;>
        rw [hrun2] at hpost <;> exact hpost
  · rw [hrun] at hpre
    exact hpre

/-- Every call that `CanSlice` makes on a registered transition is the call of
a hook due before the change of state, with the current state, and answers
the slot of its hook; the calls are linked from the arguments of `CanSlice`,
and the slice holds at the end what the last call left. -/
theorem CanSlice_calls (sm : StateMachine ε σ α χ (List α × ω)) (e : ε) (args : List α)
    (w : ω) (dst : State σ) (hT : sm.transitions.lookup ⟨e, sm.Current⟩ = some dst) :
    Linked args (sm.CanSlice e args w).calls ∧
    (sm.CanSlice e args w).args = leftAfter args (sm.CanSlice e args w).calls ∧
    ∀ c ∈ (sm.CanSlice e args w).calls, AnswersSlice (sm.slot c.hook) c ∧
      (c.hook = .before e ∨ c.hook = .enter dst ∨ c.hook = .leave sm.Current) ∧
      c.current = sm.Current := by
  have hQpre : ∀ d ∈ sm.preHooks e dst, ∀ c : SliceCall ε σ α χ, c.hook = d.hook →
      c.current = d.current → AnswersSlice d.slot c →
      AnswersSlice (sm.slot c.hook) c ∧
      (c.hook = .before e ∨ c.hook = .enter dst ∨ c.hook = .leave sm.Current) ∧
      c.current = sm.Current := by
    intro d hd c hh hcur hans
    simp only [StateMachine.preHooks, List.mem_cons, List.mem_singleton,
      List.not_mem_nil, or_false] at hd
    rcases hd with rfl | rfl | rfl
    · exact ⟨by rw [hh]; exact hans, Or.inl hh, hcur⟩
    · exact ⟨by rw [hh]; exact hans, Or.inr (Or.inl hh), hcur⟩
    · exact ⟨by rw [hh]; exact hans, Or.inr (Or.inr hh), hcur⟩
  have hpre := runHooksSlice_calls args _ (sm.preHooks e dst) hQpre ⟨w, args, []⟩
    trivial rfl (fun c hc => absurd hc (List.not_mem_nil c))
  rw [CanSlice_eq_runHooks sm e args w dst hT]
  rcases hrun : runHooksSlice (sm.preHooks e dst) ⟨w, args, []⟩ with ⟨r, _ | stop⟩ <;>
    rw [hrun] at hpre <;> exact hpre

end sliceDispatch

/-! ## The order of the hooks, the answer of `Can`, and what a hook is handed -/

section hooks
variable {ε σ α χ ω : Type} [DecidableEq ε] [DecidableEq σ]

/-- C3: on a transition from `src` to another state `dst`, the calls that
`Event` makes all return the nil error exactly when the callbacks registered
for `Before(e)`, `Enter(dst)`, `Leave(src)`, `After(e)` and the global after
callback all succeed, applied one after the other in that order, the first
three to `src` and the last two to `dst`, each in the host world left by the
one before it. Then the calls made are the registered hooks among these five,
in that order and once each, the first three given `src` and the last two
`dst`, so the state changes between `Leave` and `After`, and with all five
registered all five are called; every call recorded is the application of the
callback in the slot of its hook; the host world afterwards is the world that
these callbacks leave, applied in that order; the current state is `dst` and
`Event` returns nil. -/
theorem Event_hook_order (sm : StateMachine ε σ α χ ω) (e : ε) (args : List α) (w : ω)
    (dst : State σ)
    (hT : sm.transitions.lookup ⟨e, sm.Current⟩ = some dst)
    (hne : dst ≠ sm.Current) :
    ((∀ c ∈ (sm.Event e args w).calls, c.ret = .returned none) ↔
      passes args (sm.preHooks e dst ++ sm.postHooks e dst) w = true) ∧
    ((∀ c ∈ (sm.Event e args w).calls, c.ret = .returned none) →
      (sm.Event e args w).calls =
        ([⟨.before e, sm.Current, args, .returned none⟩,
          ⟨.enter dst, sm.Current, args, .returned none⟩,
          ⟨.leave sm.Current, sm.Current, args, .returned none⟩,
          ⟨.after e, dst, args, .returned none⟩,
          ⟨.cbAfter, dst, args, .returned none⟩] : List (Call ε σ α χ)).filter
          (fun c => sm.registered c.hook) ∧
      ((∀ h ∈ [Hook.before e, .enter dst, .leave sm.Current, .after e, .cbAfter],
          sm.registered h = true) →
        (sm.Event e args w).calls.map (fun c => c.hook) =
          [.before e, .enter dst, .leave sm.Current, .after e, .cbAfter]) ∧
      (sm.Event e args w).sm.Current = dst ∧
      (sm.Event e args w).result = .returned none ∧
      (sm.Event e args w).world =
        worldThrough args (sm.preHooks e dst ++ sm.postHooks e dst) w ∧
      ∀ c ∈ (sm.Event e args w).calls, Answers (sm.slot c.hook) c) := by
  have hiff := Event_succeeds_iff sm e args w dst hT hne
  refine ⟨hiff, fun hok => ?_⟩
  obtain ⟨h1, h2, h3, h4⟩ := Event_calls_in_order sm e args w dst hT hne hok
  exact ⟨h1, h2, h3, h4, Event_world_of_passes sm e args w dst hT hne (hiff.mp hok),
    fun c hc => ((Event_calls_given sm e args w dst hT).1 c hc).2.1⟩

/-- C7: `Can` returns `(false, InvalidTransitionError)` with the event and the
current state, and calls nothing, when the table has no entry. On a registered
transition it returns `(false, err)` when the callback registered for one of
`Before(e)`, `Enter(dst)`, `Leave(current)` returns the error `err` after the
callbacks of the hooks before it have succeeded, each applied to the current
state in the host world left by the one before it; the host world is then the
one that the failing callback leaves and its call is the last one made. It
returns `(true, nil)` when the registered callbacks of the three hooks all
succeed, and leaves the host world that they leave. In terms of the calls
made: a call that returns `err` is the last one, after calls that returned the
nil error, and `Can` returns `(false, err)`; when every call made returns the
nil error `Can` returns `(true, nil)`, every registered one of the three hooks
having been called in order; no hook is called out of order. Whenever `Can`
returns, the boolean is true exactly when the error is nil. -/
theorem Can_result (sm : StateMachine ε σ α χ ω) (e : ε) (args : List α) (w : ω) :
    (sm.transitions.lookup ⟨e, sm.Current⟩ = none →
      (sm.Can e args w).result =
        .returned (false, some (.InvalidTransitionError e sm.Current)) ∧
      (sm.Can e args w).calls = []) ∧
    (∀ dst, sm.transitions.lookup ⟨e, sm.Current⟩ = some dst →
      (∀ (earlier : List (Due ε σ α χ ω)) (d : Due ε σ α χ ω) (later : List (Due ε σ α χ ω))
          (f : State σ → List α → ω → Option (error ε σ χ) × ω) (err : error ε σ χ) (w1 : ω),
        sm.preHooks e dst = earlier ++ d :: later →
        passes args earlier w = true →
        d.slot = some (some f) →
        f d.current args (worldThrough args earlier w) = (some err, w1) →
          (sm.Can e args w).result = .returned (false, some err) ∧
          (sm.Can e args w).world = w1 ∧
          (sm.Can e args w).calls.getLast? =
            some ⟨d.hook, d.current, args, .returned (some err)⟩) ∧
      (passes args (sm.preHooks e dst) w = true →
        (sm.Can e args w).result = .returned (true, none) ∧
        (sm.Can e args w).world = worldThrough args (sm.preHooks e dst) w) ∧
      (∀ c ∈ (sm.Can e args w).calls, ∀ err : error ε σ χ, c.ret = .returned (some err) →
        (sm.Can e args w).result = .returned (false, some err) ∧
        ∃ earlier, (sm.Can e args w).calls = earlier ++ [c] ∧
          ∀ c' ∈ earlier, c'.ret = .returned none) ∧
      ((∀ c ∈ (sm.Can e args w).calls, c.ret = .returned none) →
        (sm.Can e args w).result = .returned (true, none) ∧
        (sm.Can e args w).calls.map (fun c => c.hook) =
          [Hook.before e, Hook.enter dst, Hook.leave sm.Current].filter sm.registered) ∧
      (sm.Can e args w).calls.map (fun c => c.hook) <+:
        [Hook.before e, Hook.enter dst, Hook.leave sm.Current].filter sm.registered) ∧
    (∀ b err, (sm.Can e args w).result = .returned (b, err) → (b = true ↔ err = none)) := by
  obtain ⟨h1, h2, h3⟩ := Can_result_by_calls sm e args w
  refine ⟨h1, fun dst hT => ?_, h3⟩
  obtain ⟨a, b, c⟩ := h2 dst hT
  exact ⟨fun earlier d later f err w1 hsplit hp hs hf =>
      Can_of_fails sm e args w dst hT earlier d later f err w1 hsplit hp hs hf,
    Can_of_passes sm e args w dst hT, a, b, c⟩

/-- C15, with hooks that may assign to the elements of the argument slice: on
a registered transition from `src` to `dst`, the first call that `Event` makes
is handed the arguments of `Event` and every later call the elements that the
call before it left in the slice, so that every call is handed the arguments
of `Event` unchanged when no call made writes the slice; what a call returns
and leaves is what the callback registered for its hook does on the state and
elements recorded for it; the calls of `Before(e)`, `Enter(dst)` and
`Leave(src)` are given `src`, the state before the transition, and the calls
of `After(e)` and of the global after callback, made only when `dst` differs
from `src`, are given `dst`. The same holds of `Can`, whose calls are calls of
`Before(e)`, `Enter(dst)` or `Leave(src)` and are given `src`. -/
theorem EventSlice_arguments (sm : StateMachine ε σ α χ (List α × ω)) (e : ε)
    (args : List α) (w : ω) (dst : State σ)
    (hT : sm.transitions.lookup ⟨e, sm.Current⟩ = some dst) :
    (Linked args (sm.EventSlice e args w).calls ∧
      ((∀ c ∈ (sm.EventSlice e args w).calls, c.left = c.args) →
        ∀ c ∈ (sm.EventSlice e args w).calls, c.args = args) ∧
      (∀ c ∈ (sm.EventSlice e args w).calls, AnswersSlice (sm.slot c.hook) c ∧
        (((c.hook = .before e ∨ c.hook = .enter dst ∨ c.hook = .leave sm.Current) ∧
            c.current = sm.Current) ∨
          ((c.hook = .after e ∨ c.hook = .cbAfter) ∧ c.current = dst ∧
            dst ≠ sm.Current)))) ∧
    (Linked args (sm.CanSlice e args w).calls ∧
      ((∀ c ∈ (sm.CanSlice e args w).calls, c.left = c.args) →
        ∀ c ∈ (sm.CanSlice e args w).calls, c.args = args) ∧
      (∀ c ∈ (sm.CanSlice e args w).calls, AnswersSlice (sm.slot c.hook) c ∧
        (c.hook = .before e ∨ c.hook = .enter dst ∨ c.hook = .leave sm.Current) ∧
        c.current = sm.Current)) := by
  obtain ⟨h1, -, h3⟩ := EventSlice_calls sm e args w dst hT
  obtain ⟨k1, -, k3⟩ := CanSlice_calls sm e args w dst hT
  exact ⟨⟨h1, fun hl => (Linked_unwritten args _ h1 hl).1, h3⟩,
    ⟨k1, fun hl => (Linked_unwritten args _ k1 hl).1, k3⟩⟩

end hooks

section hooksOnTests
open test

/-- C3 on the machine of `Reset` with a callback for `Leave(StateA)` too:
`Event(a-b)` from `StateA` calls the five hooks in order, and the output is
what the five callbacks print, in that order, the first three with `StateA`
and the last two with `StateB`. -/
theorem Event_hook_order_witness :
    (built fiveHooks).transitions.lookup ⟨.EventAtoB, (built fiveHooks).Current⟩ =
      some (some .StateB) ∧
    some state.StateB ≠ (built fiveHooks).Current ∧
    (∀ c ∈ ((built fiveHooks).Event .EventAtoB [⟨"Hello"⟩] []).calls, c.ret = .returned none) ∧
    passes [⟨"Hello"⟩] ((built fiveHooks).preHooks .EventAtoB (some .StateB) ++
      (built fiveHooks).postHooks .EventAtoB (some .StateB)) [] = true ∧
    ((built fiveHooks).Event .EventAtoB [⟨"Hello"⟩] []).calls.map (fun c => c.hook) =
      [.before .EventAtoB, .enter (some .StateB), .leave (built fiveHooks).Current,
        .after .EventAtoB, .cbAfter] ∧
    ((built fiveHooks).Event .EventAtoB [⟨"Hello"⟩] []).world =
      [("before_a-b", some .StateA), ("enter_b", some .StateA), ("leave_a", some .StateA),
        ("after_a-b", some .StateB), ("", some .StateB)] ∧
    ((built fiveHooks).Event .EventAtoB [⟨"Hello"⟩] []).sm.Current = some .StateB :=
  ⟨by decide, by decide, by decide,
    (Event_hook_order (built fiveHooks) .EventAtoB [⟨"Hello"⟩] [] (some .StateB)
      (by decide) (by decide)).1.mp (by decide),
    ((Event_hook_order (built fiveHooks) .EventAtoB [⟨"Hello"⟩] [] (some .StateB)
      (by decide) (by decide)).2 (by decide)).2.1 (by decide),
    ((Event_hook_order (built fiveHooks) .EventAtoB [⟨"Hello"⟩] [] (some .StateB)
      (by decide) (by decide)).2 (by decide)).2.2.2.2.1.trans (by decide),
    ((Event_hook_order (built fiveHooks) .EventAtoB [⟨"Hello"⟩] [] (some .StateB)
      (by decide) (by decide)).2 (by decide)).2.2.1⟩

/-- C7 on the machines of the tests. On the machine of `Reset`, as in
`TestCan`: `b-c` has no entry from `StateA`, and the callbacks of `Before(a-b)`
and `Enter(b)` succeed, so `Can(a-b)` is true and the output is what they
print. On scenario B of the specification: the callback registered for
`Before(a-b)` returns an error, and `Can(a-b)` returns false with that
error. -/
theorem Can_result_witness :
    (built Reset).transitions.lookup ⟨.EventBtoC, (built Reset).Current⟩ = none ∧
    ((built Reset).Can .EventBtoC [] []).result =
      .returned (false, some (.InvalidTransitionError .EventBtoC (built Reset).Current)) ∧
    (built Reset).transitions.lookup ⟨.EventAtoB, (built Reset).Current⟩ = some (some .StateB) ∧
    passes [] ((built Reset).preHooks .EventAtoB (some .StateB)) [] = true ∧
    ((built Reset).Can .EventAtoB [] []).result = .returned (true, none) ∧
    ((built Reset).Can .EventAtoB [] []).world =
      [("before_a-b", some .StateA), ("enter_b", some .StateA)] ∧
    (built scenarioB).transitions.lookup ⟨.EventAtoB, (built scenarioB).Current⟩ =
      some (some .StateB) ∧
    (built scenarioB).slot (.before .EventAtoB) = some (failing "refused") ∧
    ((built scenarioB).Can .EventAtoB [] []).result =
      .returned (false, some (.other "refused")) ∧
    ((built scenarioB).Can .EventAtoB [] []).world = [] ∧
    ((built scenarioB).Can .EventAtoB [] []).calls.getLast? =
      some ⟨.before .EventAtoB, some .StateA, [], .returned (some (.other "refused"))⟩ :=
  ⟨by decide,
    ((Can_result (built Reset) .EventBtoC [] []).1 (by decide)).1,
    by decide, by decide,
    (((Can_result (built Reset) .EventAtoB [] []).2.1 (some .StateB) (by decide)).2.1
      (by decide)).1,
    (((Can_result (built Reset) .EventAtoB [] []).2.1 (some .StateB) (by decide)).2.1
      (by decide)).2.trans (by decide),
    by decide, rfl,
    (((Can_result (built scenarioB) .EventAtoB [] []).2.1 (some .StateB) (by decide)).1
      [] ⟨.before .EventAtoB, (built scenarioB).slot (.before .EventAtoB), some .StateA⟩
      [⟨.enter (some .StateB), (built scenarioB).slot (.enter (some .StateB)), some .StateA⟩,
        ⟨.leave (some .StateA), (built scenarioB).slot (.leave (some .StateA)), some .StateA⟩]
      (fun _ _ out => (some (.other "refused"), out)) (.other "refused") []
      rfl rfl rfl rfl).1,
    (((Can_result (built scenarioB) .EventAtoB [] []).2.1 (some .StateB) (by decide)).1
      [] ⟨.before .EventAtoB, (built scenarioB).slot (.before .EventAtoB), some .StateA⟩
      [⟨.enter (some .StateB), (built scenarioB).slot (.enter (some .StateB)), some .StateA⟩,
        ⟨.leave (some .StateA), (built scenarioB).slot (.leave (some .StateA)), some .StateA⟩]
      (fun _ _ out => (some (.other "refused"), out)) (.other "refused") []
      rfl rfl rfl rfl).2.1,
    (((Can_result (built scenarioB) .EventAtoB [] []).2.1 (some .StateB) (by decide)).1
      [] ⟨.before .EventAtoB, (built scenarioB).slot (.before .EventAtoB), some .StateA⟩
      [⟨.enter (some .StateB), (built scenarioB).slot (.enter (some .StateB)), some .StateA⟩,
        ⟨.leave (some .StateA), (built scenarioB).slot (.leave (some .StateA)), some .StateA⟩]
      (fun _ _ out => (some (.other "refused"), out)) (.other "refused") []
      rfl rfl rfl rfl).2.2⟩

/-- C15 as first stated fails on a machine whose `Before(a-b)` callback assigns
to `args[0]`: `Event(a-b, Info{"Hello"})` from `StateA` hands `Info{"Hello"}`
to `Before(a-b)` and `Info{"Bye"}` to `Enter(b)`, which prints it; both are
given `StateA`. -/
theorem EventSlice_arguments_changed :
    writer.transitions.lookup ⟨.EventAtoB, writer.Current⟩ = some (some .StateB) ∧
    (writer.EventSlice .EventAtoB [⟨"Hello"⟩] []).calls =
      [⟨.before .EventAtoB, some .StateA, [⟨"Hello"⟩], [⟨"Bye"⟩], .returned none⟩,
       ⟨.enter (some .StateB), some .StateA, [⟨"Bye"⟩], [⟨"Bye"⟩], .returned none⟩] ∧
    (∃ c ∈ (writer.EventSlice .EventAtoB [⟨"Hello"⟩] []).calls, c.args ≠ [⟨"Hello"⟩]) ∧
    ¬ (∀ c ∈ (writer.EventSlice .EventAtoB [⟨"Hello"⟩] []).calls, c.args = [⟨"Hello"⟩]) ∧
    (writer.EventSlice .EventAtoB [⟨"Hello"⟩] []).world = [("Bye", some .StateA)] ∧
    (writer.EventSlice .EventAtoB [⟨"Hello"⟩] []).result = .returned none ∧
    (writer.CanSlice .EventAtoB [⟨"Hello"⟩] []).calls =
      [⟨.before .EventAtoB, some .StateA, [⟨"Hello"⟩], [⟨"Bye"⟩], .returned none⟩,
       ⟨.enter (some .StateB), some .StateA, [⟨"Bye"⟩], [⟨"Bye"⟩], .returned none⟩] := by
  decide

/-- C15 as amended, on the machine whose `Before(a-b)` callback assigns to
`args[0]`, where `Enter(b)` is handed what `Before(a-b)` left and both are
given `StateA`, and on the machine of `Reset`, whose callbacks do not write the
slice, where every call that `Event(a-b, Info{"Hello"})` makes is handed
`Info{"Hello"}`. -/
theorem EventSlice_arguments_witness :
    writer.transitions.lookup ⟨.EventAtoB, writer.Current⟩ = some (some .StateB) ∧
    ((writer.EventSlice .EventAtoB [⟨"Hello"⟩] []).calls.map fun c => (c.hook, c.args, c.left)) =
      [(.before .EventAtoB, [⟨"Hello"⟩], [⟨"Bye"⟩]),
       (.enter (some .StateB), [⟨"Bye"⟩], [⟨"Bye"⟩])] ∧
    Linked [⟨"Hello"⟩] (writer.EventSlice .EventAtoB [⟨"Hello"⟩] []).calls ∧
    (∀ c ∈ (writer.EventSlice .EventAtoB [⟨"Hello"⟩] []).calls,
      AnswersSlice (writer.slot c.hook) c ∧
      (((c.hook = .before .EventAtoB ∨ c.hook = .enter (some .StateB) ∨
            c.hook = .leave writer.Current) ∧ c.current = writer.Current) ∨
        ((c.hook = .after .EventAtoB ∨ c.hook = .cbAfter) ∧ c.current = some .StateB ∧
          some state.StateB ≠ writer.Current))) ∧
    (built Reset).unwriting.transitions.lookup ⟨.EventAtoB, (built Reset).unwriting.Current⟩ =
      some (some .StateB) ∧
    (∀ c ∈ ((built Reset).unwriting.EventSlice .EventAtoB [⟨"Hello"⟩] []).calls,
      c.left = c.args) ∧
    (∀ c ∈ ((built Reset).unwriting.EventSlice .EventAtoB [⟨"Hello"⟩] []).calls,
      c.args = [⟨"Hello"⟩]) ∧
    (∀ c ∈ ((built Reset).unwriting.CanSlice .EventAtoB [⟨"Hello"⟩] []).calls,
      c.args = [⟨"Hello"⟩]) :=
  ⟨by decide, by decide,
    (EventSlice_arguments writer .EventAtoB [⟨"Hello"⟩] [] (some .StateB) (by decide)).1.1,
    (EventSlice_arguments writer .EventAtoB [⟨"Hello"⟩] [] (some .StateB) (by decide)).1.2.2,
    by decide, by decide,
    (EventSlice_arguments (built Reset).unwriting .EventAtoB [⟨"Hello"⟩] [] (some .StateB)
      (by decide)).1.2.1 (by decide),
    (EventSlice_arguments (built Reset).unwriting .EventAtoB [⟨"Hello"⟩] [] (some .StateB)
      (by decide)).2.2.1 (by decide)⟩

end hooksOnTests

end ssm
